import Mathlib

/-!
Verification development for the AdvancedDX11Starter scene core
(`Game.cpp`, `ThirdPersonCamera.cpp`).

The hierarchical `Transform` scene-graph node (local position / pitch-yaw-roll
rotation / scale, parent and child links, dirty flag and cached world matrix)
is implemented in `Transform.cpp`, which is not part of the sources here; only
its callers are.  Following the specification, the transform system is
modelled from the spec (each such definition carries a comment saying so).
Floating point is modelled by `ℚ`; the trigonometric functions used by the
rotation matrices are abstract parameters (a `Trig` record of cosine and sine
over `ℚ`), so every statement about matrices holds for any interpretation of
them.
-/

namespace AdvStarter

/-- Three-component float vector (`XMFLOAT3`), modelled over `ℚ`. -/
structure V3 where
  x : ℚ
  y : ℚ
  z : ℚ
  deriving DecidableEq, Repr

instance : Add V3 := ⟨fun a b => ⟨a.x + b.x, a.y + b.y, a.z + b.z⟩⟩

instance : Sub V3 := ⟨fun a b => ⟨a.x - b.x, a.y - b.y, a.z - b.z⟩⟩

instance : Zero V3 := ⟨⟨0, 0, 0⟩⟩

/-- Abstract interpretation of the trigonometric functions used by the math
library (`DirectXMath`): a cosine and a sine over `ℚ`. -/
structure Trig where
  cos : ℚ → ℚ
  sin : ℚ → ℚ

/-- The trivial interpretation (correct at angle `0`): cosine constantly `1`,
sine constantly `0`.  Used to instantiate witnesses whose scenarios only ever
rotate by angle `0`. -/
def trivTrig : Trig := ⟨fun _ => 1, fun _ => 0⟩

/-- Four-by-four float matrix (`XMFLOAT4X4`), modelled over `ℚ`. -/
abbrev Mat4 := Matrix (Fin 4) (Fin 4) ℚ

/-- Row-vector rotation about Z (roll) applied to a vector. -/
def rotZvec (tg : Trig) (θ : ℚ) (v : V3) : V3 :=
  ⟨v.x * tg.cos θ - v.y * tg.sin θ, v.x * tg.sin θ + v.y * tg.cos θ, v.z⟩

/-- Row-vector rotation about X (pitch) applied to a vector. -/
def rotXvec (tg : Trig) (θ : ℚ) (v : V3) : V3 :=
  ⟨v.x, v.y * tg.cos θ - v.z * tg.sin θ, v.y * tg.sin θ + v.z * tg.cos θ⟩

/-- Row-vector rotation about Y (yaw) applied to a vector. -/
def rotYvec (tg : Trig) (θ : ℚ) (v : V3) : V3 :=
  ⟨v.x * tg.cos θ + v.z * tg.sin θ, v.y, -(v.x * tg.sin θ) + v.z * tg.cos θ⟩

/-- Rotation of a vector by pitch/yaw/roll Euler angles, in the
`XMMatrixRotationRollPitchYaw` order: roll (Z), then pitch (X), then yaw (Y).
Used by `Transform::MoveRelative`. -/
def rotateVec (tg : Trig) (r : V3) (v : V3) : V3 :=
  rotYvec tg r.y (rotXvec tg r.x (rotZvec tg r.z v))

/-- Scale matrix (row-vector convention): diagonal of the three scale factors. -/
def scaleMat (v : V3) : Mat4 :=
  Matrix.diagonal ![v.x, v.y, v.z, 1]

/-- Translation matrix (row-vector convention): identity with the position in
the bottom row. -/
def transMat (v : V3) : Mat4 :=
  Matrix.of fun i j =>
    if i = j then 1 else if i = (3 : Fin 4) then ![v.x, v.y, v.z, 0] j else 0

/-- The k-th basis vector of 3-space (zero for the homogeneous slot). -/
def basisV3 : Fin 4 → V3
  | 0 => ⟨1, 0, 0⟩
  | 1 => ⟨0, 1, 0⟩
  | 2 => ⟨0, 0, 1⟩
  | 3 => 0

/-- Components of a vector, padded with `0` in the homogeneous slot. -/
def compV3 (v : V3) : Fin 4 → ℚ
  | 0 => v.x
  | 1 => v.y
  | 2 => v.z
  | 3 => 0

/-- Rotation matrix for pitch/yaw/roll (row-vector convention): the linear
part agrees with `rotateVec`, the homogeneous row/column are those of the
identity. -/
def rotMat (tg : Trig) (r : V3) : Mat4 :=
  Matrix.of fun i j =>
    if i = (3 : Fin 4) ∨ j = (3 : Fin 4) then (if i = j then 1 else 0)
    else compV3 (rotateVec tg r (basisV3 i)) j

/-- Scene-graph node.  Modelled from the spec: `Transform.cpp` is not in the
sources; per the spec a Transform owns local position, pitch/yaw/roll
rotation, scale, a dirty flag, a cached world matrix, an ordered child list
and at most one parent reference.  Nodes are identified by their index into a
`TState`. -/
structure TNode where
  position : V3
  rotation : V3
  scale : V3
  parent : Option ℕ
  children : List ℕ
  dirty : Bool
  cachedWorld : Mat4
  deriving DecidableEq

/-- The whole forest of Transform nodes, indexed by position. -/
abbrev TState := List TNode

/-- A fresh `Transform()`: identity local values, no links, dirty. -/
def mkTransform : TNode :=
  ⟨0, 0, ⟨1, 1, 1⟩, none, [], true, 1⟩

/-- Local matrix of a node: scale, then rotate, then translate
(row-vector composition `S * R * T`). -/
def localM (tg : Trig) (nd : TNode) : Mat4 :=
  scaleMat nd.scale * rotMat tg nd.rotation * transMat nd.position

/-- Update the element at index `i` of a list (identity off-range). -/
def updN {α : Type} : List α → ℕ → (α → α) → List α
  | [], _, _ => []
  | nd :: t, 0, f => f nd :: t
  | nd :: t, n + 1, f => nd :: updN t n f

/-- Map a function over the nodes, passing the index (offset by `k`). -/
def mapIdxFrom (f : ℕ → TNode → TNode) : ℕ → TState → TState
  | _, [] => []
  | k, nd :: t => f k nd :: mapIdxFrom f (k + 1) t

/-- Parent pointer of node `i` (`none` off-range or for a root). -/
def parentOf (st : TState) (i : ℕ) : Option ℕ :=
  (st[i]?).bind TNode.parent

/-- Child list of node `i` (`[]` off-range). -/
def childrenOf (st : TState) (i : ℕ) : List ℕ :=
  ((st[i]?).map TNode.children).getD []

/-- Local position of node `i`. -/
def positionOf (st : TState) (i : ℕ) : V3 :=
  ((st[i]?).map TNode.position).getD 0

/-- Local pitch/yaw/roll of node `i`. -/
def rotationOf (st : TState) (i : ℕ) : V3 :=
  ((st[i]?).map TNode.rotation).getD 0

/-- Local scale of node `i`. -/
def scaleOf (st : TState) (i : ℕ) : V3 :=
  ((st[i]?).map TNode.scale).getD ⟨1, 1, 1⟩

/-- Dirty flag of node `i`. -/
def dirtyOf (st : TState) (i : ℕ) : Bool :=
  ((st[i]?).map TNode.dirty).getD true

/-- Cached world matrix of node `i`. -/
def cacheOf (st : TState) (i : ℕ) : Mat4 :=
  ((st[i]?).map TNode.cachedWorld).getD 1

/-- Proper ancestors of node `i`: the parent chain, cut off by `fuel`. -/
def ancF (st : TState) : ℕ → ℕ → List ℕ
  | 0, _ => []
  | fuel + 1, i =>
    match parentOf st i with
    | none => []
    | some p => p :: ancF st fuel p

/-- Node `i` together with its proper ancestors. -/
def chainSelfF (st : TState) (fuel i : ℕ) : List ℕ :=
  i :: ancF st fuel i

/-- Does the parent chain of `i` reach a root within `fuel` steps? -/
def rootedF (st : TState) : ℕ → ℕ → Bool
  | 0, _ => false
  | fuel + 1, i =>
    match parentOf st i with
    | none => true
    | some p => rootedF st fuel p

/-- The true world matrix of node `i`: local matrix composed with the parent
chain's matrices (identity for a root), cut off by `fuel`. -/
def worldF (tg : Trig) (st : TState) : ℕ → ℕ → Mat4
  | 0, _ => 1
  | fuel + 1, i =>
    match st[i]? with
    | none => 1
    | some nd =>
      localM tg nd *
        (match nd.parent with
         | none => 1
         | some p => worldF tg st fuel p)

/-- Mark node `j` and (conceptually) all of its descendants dirty: every node
whose ancestor chain contains `j` is marked.  Modelled from the spec:
"Dirtying propagates to all descendants conceptually (each descendant
recomputes lazily on next read, keyed off an ancestor-dirty signal)". -/
def markSubtreeDirty (st : TState) (j : ℕ) : TState :=
  mapIdxFrom
    (fun k nd => if j ∈ chainSelfF st st.length k then { nd with dirty := true } else nd)
    0 st

namespace Transform

/-- Modelled from the spec: `Transform::SetPosition` overwrites the local
position and marks the node (and conceptually its descendants) dirty. -/
def SetPosition (st : TState) (i : ℕ) (v : V3) : TState :=
  match st[i]? with
  | none => st
  | some _ => markSubtreeDirty (updN st i fun nd => { nd with position := v }) i

/-- Modelled from the spec: `Transform::SetRotation` overwrites the local
pitch/yaw/roll and marks the node dirty. -/
def SetRotation (st : TState) (i : ℕ) (v : V3) : TState :=
  match st[i]? with
  | none => st
  | some _ => markSubtreeDirty (updN st i fun nd => { nd with rotation := v }) i

/-- Modelled from the spec: `Transform::SetScale` overwrites the local scale
and marks the node dirty. -/
def SetScale (st : TState) (i : ℕ) (v : V3) : TState :=
  match st[i]? with
  | none => st
  | some _ => markSubtreeDirty (updN st i fun nd => { nd with scale := v }) i

/-- Modelled from the spec: `Transform::Rotate` accumulates rotation. -/
def Rotate (st : TState) (i : ℕ) (v : V3) : TState :=
  match st[i]? with
  | none => st
  | some _ => markSubtreeDirty (updN st i fun nd => { nd with rotation := nd.rotation + v }) i

/-- Modelled from the spec: `Transform::MoveAbsolute` adds a world-space
offset to the local position. -/
def MoveAbsolute (st : TState) (i : ℕ) (v : V3) : TState :=
  match st[i]? with
  | none => st
  | some _ => markSubtreeDirty (updN st i fun nd => { nd with position := nd.position + v }) i

/-- Modelled from the spec: `Transform::MoveRelative` adds an offset rotated
by the node's own current rotation. -/
def MoveRelative (tg : Trig) (st : TState) (i : ℕ) (v : V3) : TState :=
  match st[i]? with
  | none => st
  | some _ =>
    markSubtreeDirty
      (updN st i fun nd => { nd with position := nd.position + rotateVec tg nd.rotation v }) i

/-- Modelled from the spec: `Transform::AddChild(node)` is a silent no-op if
`node` is already a child of `self`, or if `node` is an ancestor of `self`
(cycle prevention; the test includes `self` itself, as required to prevent
self-cycles); otherwise it detaches `node` from any prior parent, appends it
to `self`'s child list, sets `node`'s parent to `self`, and marks `node`
dirty.  `self` is index `i`, `node` is index `j`. -/
def AddChild (st : TState) (i j : ℕ) : TState :=
  match st[i]?, st[j]? with
  | some ni, some nj =>
    if j ∈ ni.children ∨ j ∈ chainSelfF st st.length i then st
    else
      let st₁ :=
        match nj.parent with
        | none => st
        | some q => updN st q fun nq => { nq with children := nq.children.erase j }
      let st₂ := updN st₁ i fun n => { n with children := n.children ++ [j] }
      let st₃ := updN st₂ j fun n => { n with parent := some i }
      markSubtreeDirty st₃ j
  | _, _ => st

/-- Modelled from the spec: `Transform::RemoveChild(node)` removes `node`
from the child list if present and clears `node`'s parent (marking `node`
dirty, per the structural-mutation contract); it is a no-op otherwise. -/
def RemoveChild (st : TState) (i j : ℕ) : TState :=
  match st[i]? with
  | none => st
  | some ni =>
    if j ∈ ni.children then
      let st₁ := updN st i fun n => { n with children := n.children.erase j }
      let st₂ := updN st₁ j fun n => { n with parent := none }
      markSubtreeDirty st₂ j
    else st

/-- Modelled from the spec: `Transform::IndexOfChild(node)` returns the
position of `node` in the child list, or the sentinel `-1` if absent. -/
def IndexOfChild (st : TState) (i j : ℕ) : ℤ :=
  if j ∈ childrenOf st i then (List.indexOf j (childrenOf st i) : ℤ) else -1

/-- Modelled from the spec: `Transform::GetWorldMatrix` recomputes the world
matrix if the node is dirty (recursively obtaining the parent's world matrix,
identity if root), stores it in the cache, clears the dirty flag, and returns
the cached result.  Returns the matrix and the updated state. -/
def GetWorldMatrixF (tg : Trig) : ℕ → TState → ℕ → Mat4 × TState
  | 0, st, _ => (1, st)
  | fuel + 1, st, i =>
    match st[i]? with
    | none => (1, st)
    | some nd =>
      if nd.dirty then
        let pr :=
          match nd.parent with
          | none => ((1 : Mat4), st)
          | some p => GetWorldMatrixF tg fuel st p
        let w := localM tg nd * pr.1
        (w, updN pr.2 i fun m => { m with dirty := false, cachedWorld := w })
      else (nd.cachedWorld, st)

/-- `Transform::GetWorldMatrix` at the standard fuel (the number of nodes,
which suffices for every well-formed forest). -/
def GetWorldMatrix (tg : Trig) (st : TState) (i : ℕ) : Mat4 × TState :=
  GetWorldMatrixF tg st.length st i

/-- Modelled from the spec: `Transform::GetPosition` returns the local
position (every read in the sources is on a root node, where local and world
position coincide). -/
def GetPosition (st : TState) (i : ℕ) : V3 :=
  positionOf st i

end Transform

/-- Comparison of an optional index against a bound (`True` for `none`);
used to state well-formedness decidably. -/
def optLT (o : Option ℕ) (n : ℕ) : Prop :=
  match o with
  | none => True
  | some p => p < n

instance (o : Option ℕ) (n : ℕ) : Decidable (optLT o n) :=
  match o with
  | none => isTrue trivial
  | some p => Nat.decLt p n

/-- Well-formedness of a Transform forest: parent and child indices are in
range, child lists have no duplicates, every parent chain reaches a root
within `length` steps (acyclicity), and a node `j` appears in `i`'s child
list exactly when `j`'s parent pointer is `i` (the spec's "a Transform has
exactly one parent at a time; a child appears in at most one parent's child
list"). -/
def Wf (st : TState) : Prop :=
  (∀ i < st.length,
      optLT (parentOf st i) st.length ∧
      (∀ k ∈ childrenOf st i, k < st.length) ∧
      (childrenOf st i).Nodup ∧
      rootedF st st.length i = true) ∧
  ∀ i < st.length, ∀ j < st.length, (j ∈ childrenOf st i ↔ parentOf st j = some i)

instance (st : TState) : Decidable (Wf st) := by
  unfold Wf
  infer_instance

/-- Cache-correctness invariant: every clean node's cached world matrix is
the true world matrix of the current state. -/
def CacheOK (tg : Trig) (st : TState) : Prop :=
  ∀ i < st.length, dirtyOf st i = false → cacheOf st i = worldF tg st st.length i

instance (tg : Trig) (st : TState) : Decidable (CacheOK tg st) := by
  unfold CacheOK
  infer_instance

/-! Lights (`Lights.h` descriptor struct and `Game::GenerateLights`). -/

def LIGHT_TYPE_DIRECTIONAL : ℤ := 0

def LIGHT_TYPE_POINT : ℤ := 1

def LIGHT_TYPE_SPOT : ℤ := 2

/-- Light descriptor.  The C++ field `Type` is renamed `LType` (`Type` is a
Lean keyword). -/
structure Light where
  LType : ℤ
  Direction : V3
  Position : V3
  Color : V3
  Intensity : ℚ
  Range : ℚ
  SpotFalloff : ℚ
  deriving DecidableEq, Repr

/-- A zero-initialized light (`Light point = {}`). -/
def mkLight : Light :=
  ⟨0, 0, 0, 0, 0, 0, 0⟩

/-- The `RandomRange(min, max)` helper macro,
`(float)rand() / RAND_MAX * (max - min) + min`, where `q` stands for the
value `rand() / RAND_MAX ∈ [0, 1]`. -/
def RandomRange (q mn mx : ℚ) : ℚ :=
  q * (mx - mn) + mn

/-- First fixed directional light of `Game::GenerateLights`. -/
def dirLight1 : Light :=
  { mkLight with
    LType := LIGHT_TYPE_DIRECTIONAL
    Direction := ⟨1, -1, 1⟩
    Color := ⟨4/5, 4/5, 4/5⟩
    Intensity := 1 }

/-- Second fixed directional light of `Game::GenerateLights`. -/
def dirLight2 : Light :=
  { mkLight with
    LType := LIGHT_TYPE_DIRECTIONAL
    Direction := ⟨-1, -1/4, 0⟩
    Color := ⟨1/5, 1/5, 1/5⟩
    Intensity := 1 }

/-- Third fixed directional light of `Game::GenerateLights`. -/
def dirLight3 : Light :=
  { mkLight with
    LType := LIGHT_TYPE_DIRECTIONAL
    Direction := ⟨0, -1, 1⟩
    Color := ⟨1/5, 1/5, 1/5⟩
    Intensity := 1 }

/-- One random point light of `Game::GenerateLights`; `r` is the stream of
successive `rand() / RAND_MAX` draws and `base` the index of this light's
first draw (each point light consumes eight draws: position x/y/z, color
r/g/b, range, intensity). -/
def pointLight (r : ℕ → ℚ) (base : ℕ) : Light :=
  { mkLight with
    LType := LIGHT_TYPE_POINT
    Position := ⟨RandomRange (r base) (-10) 10, RandomRange (r (base + 1)) (-5) 5,
      RandomRange (r (base + 2)) (-10) 10⟩
    Color := ⟨RandomRange (r (base + 3)) 0 1, RandomRange (r (base + 4)) 0 1,
      RandomRange (r (base + 5)) 0 1⟩
    Range := RandomRange (r (base + 6)) 5 10
    Intensity := RandomRange (r (base + 7)) (1/10) 3 }

/-- `Game::GenerateLights`: clears the list, pushes the three fixed
directional lights, then pushes random point lights while the size is below
`lightCount`. -/
def GenerateLights (r : ℕ → ℚ) (lightCount : ℕ) : List Light :=
  [dirLight1, dirLight2, dirLight3] ++
    (List.range (lightCount - 3)).map fun k => pointLight r (8 * k)

/-! The `Game::Update` / `Game::Draw` frame phases as an event trace. -/

/-- Observable events of one frame of `Game::Update` and `Game::Draw`. -/
inductive GameEv where
  | scriptedMotion
  | guiUpdate
  | cameraUpdate
  | quit
  | generateLights
  | simulate (dt : ℚ)
  | fetchResults (block : Bool)
  | render
  deriving DecidableEq

/-- Event trace of one `Game::Update` call: scripted entity motion, GUI
update, camera update, then the ESC (quit) and TAB (regenerate lights)
checks, then the PhysX `simulate`/`fetchResults` pair. -/
def UpdateTrace (escDown tabPress : Bool) : List GameEv :=
  [GameEv.scriptedMotion, GameEv.guiUpdate, GameEv.cameraUpdate] ++
    (if escDown then [GameEv.quit] else []) ++
    (if tabPress then [GameEv.generateLights] else []) ++
    [GameEv.simulate (1/60), GameEv.fetchResults true]

/-- Event trace of one `Game::Draw` call: delegate to the renderer. -/
def DrawTrace : List GameEv :=
  [GameEv.render]

/-- One whole frame: `Update` then `Draw`. -/
def FrameTrace (escDown tabPress : Bool) : List GameEv :=
  UpdateTrace escDown tabPress ++ DrawTrace

/-! `Game::Init` PhysX setup outcome (`Game.cpp` lines 142-159). -/

/-- Outcome of the PhysX part of `Game::Init`. -/
inductive InitOutcome where
  | thrown (msg : String)
  | nullDeref
  | ok
  deriving DecidableEq

/-- The PhysX setup of `Game::Init`: `PxCreateFoundation` is null-checked and
throws on failure; `PxCreatePhysics` and `createScene` results are used
without any check, so their failure (a null result) is a null dereference
(`mPhysics->getTolerancesScale()` resp. `mScene->addActor`), not a throw. -/
def PhysXInit (foundationOk physicsOk sceneOk : Bool) : InitOutcome :=
  if foundationOk = false then InitOutcome.thrown "PxCreateFoundation failed!"
  else if physicsOk = false then InitOutcome.nullDeref
  else if sceneOk = false then InitOutcome.nullDeref
  else InitOutcome.ok

/-- Does the outcome raise a C++ exception? -/
def InitOutcome.isThrown : InitOutcome → Bool
  | InitOutcome.thrown _ => true
  | _ => false

/-! Light-count GUI state (`Game::UpdateSceneWindow` slider,
`Game::GenerateLightsHeader` accesses, `Game::GenerateLights` rebuild). -/

/-- The state relevant to the lights GUI: the `lightCount` int member and the
current size of the `lights` vector. -/
structure LightsUI where
  lightCount : ℤ
  numLights : ℕ
  deriving DecidableEq, Repr

/-- Effect of `Game::GenerateLights` on the sizes: the vector is rebuilt to
3 directional lights plus point lights up to `lightCount`. -/
def regenLights (ui : LightsUI) : LightsUI :=
  { ui with numLights := max 3 ui.lightCount.toNat }

/-- Reachable mutations of the lights GUI state. -/
inductive UIOp where
  | sliderSet (v : ℤ)
  | keyTabRegen
  deriving DecidableEq, Repr

/-- Apply one mutation: the `SliderInt("Number of Lights", &lightCount, 0, 64)`
widget only produces values in `[0, 64]`; TAB triggers `GenerateLights`. -/
def applyUIOp : UIOp → LightsUI → LightsUI
  | UIOp.sliderSet v, ui => if 0 ≤ v ∧ v ≤ 64 then { ui with lightCount := v } else ui
  | UIOp.keyTabRegen, ui => regenLights ui

/-- `Game::Init`: `lightCount = 64; GenerateLights();`. -/
def initUI : LightsUI :=
  regenLights { lightCount := 64, numLights := 0 }

/-- Run a sequence of GUI/regeneration events from the initial state. -/
def runUI (ops : List UIOp) : LightsUI :=
  ops.foldl (fun ui op => applyUIOp op ui) initUI

/-- All accesses `lights[i]` for `0 ≤ i < lightCount` made by
`GenerateLightsHeader` stay within the vector. -/
def lightAccessesInBounds (ui : LightsUI) : Prop :=
  ui.lightCount ≤ (ui.numLights : ℤ)

instance (ui : LightsUI) : Decidable (lightAccessesInBounds ui) := by
  unfold lightAccessesInBounds
  infer_instance

/-! Mutation/read operations on the Transform forest, for quantifying over
arbitrary interleavings (claim about world-matrix reads). -/

/-- One call into the Transform hierarchy: a local-value mutation, a
structural mutation, or a world-matrix read (which updates caches). -/
inductive TOp where
  | setPos (i : ℕ) (v : V3)
  | rot (i : ℕ) (v : V3)
  | addCh (i j : ℕ)
  | readWorld (i : ℕ)

/-- Apply one operation to the forest. -/
def applyTOp (tg : Trig) : TOp → TState → TState
  | TOp.setPos i v, st => Transform.SetPosition st i v
  | TOp.rot i v, st => Transform.Rotate st i v
  | TOp.addCh i j, st => Transform.AddChild st i j
  | TOp.readWorld i, st => (Transform.GetWorldMatrix tg st i).2

/-- Apply a sequence of operations, left to right. -/
def applyTOps (tg : Trig) (ops : List TOp) (st : TState) : TState :=
  ops.foldl (fun t op => applyTOp tg op t) st

/-! Relations between forest states used by the cache-correctness proofs. -/

/-- Two states agree on everything the world matrix and the hierarchy can
see (they may differ in dirty flags and cached matrices). -/
def sameSkeleton (st t : TState) : Prop :=
  st.length = t.length ∧
  ∀ x, parentOf st x = parentOf t x ∧ childrenOf st x = childrenOf t x ∧
    positionOf st x = positionOf t x ∧ rotationOf st x = rotationOf t x ∧
    scaleOf st x = scaleOf t x ∧ (st[x]?).isSome = (t[x]?).isSome

/-- Two states agree, except possibly at node `j`, on everything the world
matrix can see. -/
def sameExcept (st t : TState) (j : ℕ) : Prop :=
  st.length = t.length ∧
  ∀ x, x ≠ j → parentOf st x = parentOf t x ∧
    positionOf st x = positionOf t x ∧ rotationOf st x = rotationOf t x ∧
    scaleOf st x = scaleOf t x ∧ (st[x]?).isSome = (t[x]?).isSome

/-- `Anc st a i`: `a` is a proper ancestor of `i` (transitive closure of the
parent pointer). -/
inductive Anc (st : TState) : ℕ → ℕ → Prop where
  | base {i a : ℕ} : parentOf st i = some a → Anc st a i
  | step {i p a : ℕ} : parentOf st i = some p → Anc st a p → Anc st a i

/-- Projection of a forest to its model content: local values and hierarchy
links, without the cache machinery (dirty flags, cached matrices). -/
def tProj (st : TState) : List (V3 × V3 × V3 × Option ℕ × List ℕ) :=
  st.map fun nd => (nd.position, nd.rotation, nd.scale, nd.parent, nd.children)

/-! The scripted demo-entity motion of `Game::Update` (lines 553-564),
acting on the five entities built by `LoadAssetsAndCreateEntities`
(lines 414-442). -/

/-- C-style cast of a float to `int`: truncation toward zero. -/
def icast (q : ℚ) : ℤ :=
  if 0 ≤ q then ⌊q⌋ else ⌈q⌉

/-- The five entity transforms of `LoadAssetsAndCreateEntities` and their
hierarchy: cobble sphere (0, scale 3, origin), floor sphere (1, scale 2,
(4,0,0)), scratched sphere (2, scale 2, (-4,0,0)), bronze sphere (3,
(6,0,0)), paint sphere (4, scale 1/2, (6,1,0)); children: 0→1, 0→2, 1→3,
3→4. -/
def demoScene : TState :=
  let s0 : TState := [mkTransform, mkTransform, mkTransform, mkTransform, mkTransform]
  let s1 := Transform.SetScale s0 0 ⟨3, 3, 3⟩
  let s2 := Transform.SetPosition s1 0 ⟨0, 0, 0⟩
  let s3 := Transform.SetScale s2 1 ⟨2, 2, 2⟩
  let s4 := Transform.SetPosition s3 1 ⟨4, 0, 0⟩
  let s5 := Transform.SetScale s4 2 ⟨2, 2, 2⟩
  let s6 := Transform.SetPosition s5 2 ⟨-4, 0, 0⟩
  let s7 := Transform.SetPosition s6 3 ⟨6, 0, 0⟩
  let s8 := Transform.SetScale s7 4 ⟨1/2, 1/2, 1/2⟩
  let s9 := Transform.SetPosition s8 4 ⟨6, 1, 0⟩
  let s10 := Transform.AddChild s9 0 1
  let s11 := Transform.AddChild s10 0 2
  let s12 := Transform.AddChild s11 1 3
  Transform.AddChild s12 3 4

/-- The scripted-motion block of `Game::Update`: read entity 0's y position
as an `int`, flip `interval` at the thresholds, then apply the fixed
per-frame increments to entities 0-3.  Returns the new forest and the new
`interval`. -/
def GameUpdateScripted (tg : Trig) (st : TState) (interval : ℚ) : TState × ℚ :=
  let yPos : ℤ := icast (Transform.GetPosition st 0).y
  let interval' := if yPos = 2 ∨ yPos = -2 then -interval else interval
  let st1 := Transform.MoveRelative tg st 0 ⟨1/1000, 0, 0⟩
  let st2 := Transform.MoveAbsolute st1 0 ⟨0, interval', 0⟩
  let st3 := Transform.Rotate st2 0 ⟨0, 1/200, 0⟩
  let st4 := Transform.Rotate st3 1 ⟨0, 1/50, 0⟩
  let st5 := Transform.Rotate st4 2 ⟨0, 1/100, 0⟩
  let st6 := Transform.Rotate st5 3 ⟨1/50, 0, 0⟩
  (st6, interval')

/-- The scripted trajectory: frame `n` of the demo scene, starting from the
initial scene with `interval = 0.005` (set in `Game::Init`). -/
def iterateScripted (tg : Trig) : ℕ → TState × ℚ
  | 0 => (demoScene, 1/200)
  | n + 1 => GameUpdateScripted tg (iterateScripted tg n).1 (iterateScripted tg n).2

/-! `ThirdPersonCamera` (`ThirdPersonCamera.cpp`). -/

/-- Handles held by a `ThirdPersonCamera`: the tracked entity's transform,
the pivot transform, and the camera's transform (all indices into the
forest). -/
structure TPC where
  entity : ℕ
  pivot : ℕ
  camera : ℕ
  deriving DecidableEq, Repr

/-- `ThirdPersonCamera::ThirdPersonCamera`: create a fresh pivot Transform,
set its position to the tracked entity's position, create the camera (whose
transform starts at `(0, 0, -15)`), and add the camera's transform as a child
of the pivot.  The pivot is never given a parent. -/
def ThirdPersonCameraCtor (st : TState) (entity : ℕ) : TState × TPC :=
  let pivotId := st.length
  let camId := st.length + 1
  let st1 := st ++ [mkTransform, mkTransform]
  let entityPos := Transform.GetPosition st1 entity
  let st2 := Transform.SetPosition st1 pivotId entityPos
  let st3 := Transform.SetPosition st2 camId ⟨0, 0, -15⟩
  let st4 := Transform.AddChild st3 pivotId camId
  (st4, ⟨entity, pivotId, camId⟩)

/-- `ThirdPersonCamera::Update`: detach the camera child from the pivot,
rotate the pivot according to the arrow keys held, reattach the camera child,
reposition the pivot to the tracked entity's current position, and move the
camera relatively by the pivot's displacement. -/
def ThirdPersonCameraUpdate (tg : Trig) (st : TState) (c : TPC)
    (keyRight keyLeft keyUp keyDown : Bool) : TState :=
  let st1 := Transform.RemoveChild st c.pivot c.camera
  let st2 := if keyRight then Transform.Rotate st1 c.pivot ⟨0, 1/1000, 0⟩ else st1
  let st3 := if keyLeft then Transform.Rotate st2 c.pivot ⟨0, -(1/1000), 0⟩ else st2
  let st4 := if keyUp then Transform.Rotate st3 c.pivot ⟨1/1000, 0, 0⟩ else st3
  let st5 := if keyDown then Transform.Rotate st4 c.pivot ⟨-(1/1000), 0, 0⟩ else st4
  let st6 := Transform.AddChild st5 c.pivot c.camera
  let entityPos := Transform.GetPosition st6 c.entity
  let prevPos := Transform.GetPosition st6 c.pivot
  let st7 := Transform.SetPosition st6 c.pivot entityPos
  let pos := Transform.GetPosition st7 c.pivot
  Transform.MoveRelative tg st7 c.camera (pos - prevPos)

/-! The scene model mirrored by the debug GUI, and the per-frame GUI pass in
the case where the user edits nothing (`Game::UpdateSceneWindow` and the
`Generate*Header` helpers).  Shared meshes, materials, shaders and textures
are modelled as indices into the owning asset lists (pointer identity =
index identity), so `FindIndex` returns the index itself when in range and
the not-found sentinel (the list length) otherwise. -/

/-- Four-component float vector (`XMFLOAT4`). -/
structure V4 where
  x : ℚ
  y : ℚ
  z : ℚ
  w : ℚ
  deriving DecidableEq, Repr

/-- A `GameEntity`: a mesh reference, a material reference, one transform. -/
structure SceneEntity where
  mesh : ℕ
  material : ℕ
  transformId : ℕ
  deriving DecidableEq, Repr

/-- A `Material`: pixel-shader reference, shininess, color tint, and the four
texture references. -/
structure MaterialState where
  ps : ℕ
  shininess : ℚ
  colorTint : V4
  albedo : ℕ
  normalMap : ℕ
  roughness : ℕ
  metal : ℕ
  deriving DecidableEq, Repr

/-- The scene state the debug GUI mirrors. -/
structure Scene where
  entities : List SceneEntity
  transforms : TState
  cameraT : ℕ
  lights : List Light
  materials : List MaterialState
  meshes : List ℕ
  textures : List ℕ
  pixelShader : ℕ
  pixelShaderPBR : ℕ
  deriving DecidableEq

/-- Entity accessor with a junk fallback (an out-of-range access in the C++
would be undefined behavior). -/
def getEntity (sc : Scene) (i : ℕ) : SceneEntity :=
  (sc.entities[i]?).getD ⟨0, 0, 0⟩

/-- Material accessor with a junk fallback. -/
def getMaterial (sc : Scene) (i : ℕ) : MaterialState :=
  (sc.materials[i]?).getD ⟨0, 0, ⟨0, 0, 0, 0⟩, 0, 0, 0, 0⟩

/-- `FindIndex(vector, element)` under the index-as-pointer model: the index
itself when in range, otherwise the not-found sentinel (the length). -/
def findIndexRef (len idx : ℕ) : ℕ :=
  if idx < len then idx else len

/-- `Game::GenerateEntitiesHeader` for entity `i` when the user edits
nothing: every widget reads the current value and the code writes the widget
value back unconditionally (mesh and material by looked-up index, position /
rotation / scale into the transform), then the child-checkbox pass calls
`AddChild` when the box reads checked and `RemoveChild` when unchecked. -/
def GenerateEntitiesHeaderNoEdit (sc : Scene) (i : ℕ) : Scene :=
  let e := getEntity sc i
  let currentMesh := findIndexRef sc.meshes.length e.mesh
  let e1 := { e with mesh := currentMesh }
  let currentMaterial := findIndexRef sc.materials.length e1.material
  let e2 := { e1 with material := currentMaterial }
  let sc1 := { sc with entities := updN sc.entities i fun _ => e2 }
  let tId := e.transformId
  let st1 := Transform.SetPosition sc1.transforms tId (positionOf sc1.transforms tId)
  let st2 := Transform.SetRotation st1 tId (rotationOf st1 tId)
  let st3 := Transform.SetScale st2 tId (scaleOf st2 tId)
  let st4 :=
    (List.range sc.entities.length).foldl
      (fun t j =>
        if i = j then t
        else
          let cT := (getEntity sc j).transformId
          if Transform.IndexOfChild t tId cT > -1 then Transform.AddChild t tId cT
          else Transform.RemoveChild t tId cT)
      st3
  { sc1 with transforms := st4 }

/-- `Game::GenerateLightsHeader` for light `i` when the user edits nothing:
all its widgets (`RadioButton`, `SliderFloat`, `InputFloat3`, `ColorEdit3`)
write to the model only on user interaction, so the pass leaves the light
unchanged. -/
def GenerateLightsHeaderNoEdit (sc : Scene) (_ : ℕ) : Scene :=
  sc

/-- `Game::GenerateCameraHeader` when the user edits nothing: position and
rotation are read from the camera's transform and written back. -/
def GenerateCameraHeaderNoEdit (sc : Scene) : Scene :=
  let tId := sc.cameraT
  let st1 := Transform.SetPosition sc.transforms tId (positionOf sc.transforms tId)
  let st2 := Transform.SetRotation st1 tId (rotationOf st1 tId)
  { sc with transforms := st2 }

/-- `Game::GenerateMaterialsHeader` for material `i` when the user edits
nothing: the PBR checkbox reads `GetPS() == pixelShaderPBR` and writes the
corresponding shader back (plus the shininess round-trip on the non-PBR
branch), the color is read (RGB) and written back with the original alpha,
and the four textures are reassigned by looked-up index. -/
def GenerateMaterialsHeaderNoEdit (sc : Scene) (i : ℕ) : Scene :=
  let m := getMaterial sc i
  let m1 :=
    if m.ps = sc.pixelShaderPBR then { m with ps := sc.pixelShaderPBR }
    else
      let m' := { m with ps := sc.pixelShader }
      { m' with shininess := m'.shininess }
  let color := m1.colorTint
  let m2 := { m1 with colorTint := V4.mk color.x color.y color.z color.w }
  let m3 := { m2 with albedo := findIndexRef sc.textures.length m2.albedo }
  let m4 := { m3 with normalMap := findIndexRef sc.textures.length m3.normalMap }
  let m5 := { m4 with roughness := findIndexRef sc.textures.length m4.roughness }
  let m6 := { m5 with metal := findIndexRef sc.textures.length m5.metal }
  { sc with materials := updN sc.materials i fun _ => m6 }

/-- `Game::UpdateSceneWindow` when the user edits nothing: the entity
headers, the light headers, the camera header, and the material headers, in
source order. -/
def UpdateSceneWindowNoEdit (sc : Scene) : Scene :=
  let sc1 := (List.range sc.entities.length).foldl GenerateEntitiesHeaderNoEdit sc
  let sc2 := (List.range sc1.lights.length).foldl GenerateLightsHeaderNoEdit sc1
  let sc3 := GenerateCameraHeaderNoEdit sc2
  (List.range sc3.materials.length).foldl GenerateMaterialsHeaderNoEdit sc3

/-- The structural part of a successful `AddChild` (detach from the prior
parent, append to `i`'s child list, set `j`'s parent), before dirty-marking.
`Transform.AddChild` equals `markSubtreeDirty (attachStep st i j) j` on its
successful branch. -/
def attachStep (st : TState) (i j : ℕ) : TState :=
  let st₁ :=
    match (st[j]?).bind TNode.parent with
    | none => st
    | some q => updN st q fun nq => { nq with children := nq.children.erase j }
  let st₂ := updN st₁ i fun n => { n with children := n.children ++ [j] }
  updN st₂ j fun n => { n with parent := some i }

/-- The structural part of a successful `RemoveChild` (erase `j` from `i`'s
child list, clear `j`'s parent), before dirty-marking. -/
def removeStep (st : TState) (i j : ℕ) : TState :=
  updN (updN st i fun n => { n with children := n.children.erase j }) j
    fun n => { n with parent := none }

/-- Projection of a forest to its parent/child state only. -/
def hProj (st : TState) : List (Option ℕ × List ℕ) :=
  st.map fun nd => (nd.parent, nd.children)

/-- A small concrete forest: node 0 is a root with child 1, node 2 is a lone
root. -/
def forest3 : TState :=
  [{ mkTransform with children := [1] }, { mkTransform with parent := some 0 },
    mkTransform]

/-- The forest produced by `ThirdPersonCameraCtor [mkTransform] 0`: entity at
index 0, pivot at index 1 (a root with the camera as its only child), camera
at index 2 at local offset `(0, 0, -15)`. -/
def tpcCtorOut : TState :=
  [mkTransform, { mkTransform with children := [2] },
    { mkTransform with position := ⟨0, 0, -15⟩, parent := some 1 }]

/-- `tpcCtorOut` after the tracked entity moved to `(1, 0, 0)`. -/
def tpcScene : TState :=
  [{ mkTransform with position := ⟨1, 0, 0⟩ }, { mkTransform with children := [2] },
    { mkTransform with position := ⟨0, 0, -15⟩, parent := some 1 }]

/-- `tpcScene` after the pivot has been repositioned onto the entity. -/
def tpcMoved : TState :=
  [{ mkTransform with position := ⟨1, 0, 0⟩ },
    { mkTransform with position := ⟨1, 0, 0⟩, children := [2] },
    { mkTransform with position := ⟨0, 0, -15⟩, parent := some 1 }]

/-- A small scene for the GUI pass: one entity (mesh 0, material 0,
transform 2), the `forest3` hierarchy, camera on transform 2, one
non-PBR material with all texture references at index 0. -/
def demoSceneGUI : Scene :=
  ⟨[⟨0, 0, 2⟩], forest3, 2, [], [⟨0, 0, ⟨0, 0, 0, 0⟩, 0, 0, 0, 0⟩], [0], [0], 0, 1⟩

/-! Basic lemmas. -/

theorem V3.add_def (a b : V3) : a + b = ⟨a.x + b.x, a.y + b.y, a.z + b.z⟩ := rfl

theorem V3.sub_def (a b : V3) : a - b = ⟨a.x - b.x, a.y - b.y, a.z - b.z⟩ := rfl

theorem V3.zero_def : (0 : V3) = ⟨0, 0, 0⟩ := rfl

theorem rotateVec_zero_vec (tg : Trig) (r : V3) : rotateVec tg r 0 = 0 := by
  simp [rotateVec, rotZvec, rotXvec, rotYvec, V3.zero_def]

/-- Rotating a vector whose y-component is zero by a pure-yaw rotation leaves
the y-component zero, for every interpretation of cosine/sine that is correct
at angle `0`. -/
theorem rotateVec_y_of_yaw_only (tg : Trig) (hc : tg.cos 0 = 1) (hs : tg.sin 0 = 0)
    (yaw : ℚ) (v : V3) (hv : v.y = 0) :
    (rotateVec tg ⟨0, yaw, 0⟩ v).y = 0 := by
  simp [rotateVec, rotZvec, rotXvec, rotYvec, hc, hs, hv]

theorem RandomRange_bounds (q mn mx : ℚ) (h0 : 0 ≤ q) (h1 : q ≤ 1) (hab : mn ≤ mx) :
    mn ≤ RandomRange q mn mx ∧ RandomRange q mn mx ≤ mx := by
  unfold RandomRange
  constructor <;> nlinarith

@[simp]
theorem length_updN {α : Type} (st : List α) (i : ℕ) (f : α → α) :
    (updN st i f).length = st.length := by
  induction st generalizing i with
  | nil => rfl
  | cons nd t ih => cases i <;> simp [updN, ih]

theorem getElem?_updN {α : Type} (st : List α) (i j : ℕ) (f : α → α) :
    (updN st i f)[j]? = if i = j then (st[j]?).map f else st[j]? := by
  induction st generalizing i j with
  | nil => simp [updN]
  | cons nd t ih =>
    cases i with
    | zero => cases j <;> simp [updN]
    | succ i =>
      cases j with
      | zero => simp [updN]
      | succ j => simpa [updN, Nat.succ_inj] using ih i j

/-- Updating an index whose element is sent to itself is the identity. -/
theorem updN_eq_self {α : Type} (st : List α) (i : ℕ) (f : α → α)
    (h : ∀ nd, st[i]? = some nd → f nd = nd) : updN st i f = st := by
  induction st generalizing i with
  | nil => rfl
  | cons nd t ih =>
    cases i with
    | zero =>
      have hf : f nd = nd := h nd (by simp)
      simp [updN, hf]
    | succ i =>
      have ht := ih i fun m hm => h m (by simpa using hm)
      simp [updN, ht]

@[simp]
theorem length_mapIdxFrom (f : ℕ → TNode → TNode) (k : ℕ) (st : TState) :
    (mapIdxFrom f k st).length = st.length := by
  induction st generalizing k with
  | nil => rfl
  | cons nd t ih => simp [mapIdxFrom, ih]

theorem getElem?_mapIdxFrom (f : ℕ → TNode → TNode) (k j : ℕ) (st : TState) :
    (mapIdxFrom f k st)[j]? = (st[j]?).map (f (k + j)) := by
  induction st generalizing k j with
  | nil => simp [mapIdxFrom]
  | cons nd t ih =>
    cases j with
    | zero => simp [mapIdxFrom]
    | succ j =>
      have := ih (k + 1) j
      simpa [mapIdxFrom, Nat.add_assoc, Nat.add_comm 1 j] using this

/-! Claim: light regeneration (`Game::GenerateLights`). -/

/-- C3: every call to `Game::GenerateLights`, for any configured light count,
produces exactly the 3 fixed directional lights in positions 0-2 followed by
point lights until the size reaches the configured count (never fewer than
the 3 directional lights), and every generated point light has `Range` in
`[5, 10]`, `Intensity` in `[0.1, 3]`, color channels in `[0, 1]`, and
position in `[-10,10] × [-5,5] × [-10,10]` — for every random stream `r`
(with each draw `rand()/RAND_MAX` in `[0, 1]`). -/
theorem GenerateLights_spec (r : ℕ → ℚ) (hr : ∀ n, 0 ≤ r n ∧ r n ≤ 1) (lightCount : ℕ) :
    (GenerateLights r lightCount).length = max 3 lightCount ∧
    (GenerateLights r lightCount).take 3 = [dirLight1, dirLight2, dirLight3] ∧
    (∀ l ∈ [dirLight1, dirLight2, dirLight3], l.LType = LIGHT_TYPE_DIRECTIONAL) ∧
    ∀ l ∈ (GenerateLights r lightCount).drop 3,
      l.LType = LIGHT_TYPE_POINT ∧
      (5 ≤ l.Range ∧ l.Range ≤ 10) ∧
      (1/10 ≤ l.Intensity ∧ l.Intensity ≤ 3) ∧
      (0 ≤ l.Color.x ∧ l.Color.x ≤ 1) ∧ (0 ≤ l.Color.y ∧ l.Color.y ≤ 1) ∧
      (0 ≤ l.Color.z ∧ l.Color.z ≤ 1) ∧
      (-10 ≤ l.Position.x ∧ l.Position.x ≤ 10) ∧
      (-5 ≤ l.Position.y ∧ l.Position.y ≤ 5) ∧
      (-10 ≤ l.Position.z ∧ l.Position.z ≤ 10) := by
  refine ⟨?_, ?_, ?_, ?_⟩
  · simp only [GenerateLights, List.length_append, List.length_map, List.length_range,
      List.length_cons, List.length_nil]
    omega
  · rfl
  · decide
  · intro l hl
    have hdrop : (GenerateLights r lightCount).drop 3 =
        (List.range (lightCount - 3)).map fun k => pointLight r (8 * k) := rfl
    rw [hdrop] at hl
    simp only [List.mem_map, List.mem_range] at hl
    obtain ⟨k, -, rfl⟩ := hl
    have h0 := fun n => (hr n).1
    have h1 := fun n => (hr n).2
    refine ⟨rfl, ?_, ?_, ?_, ?_, ?_, ?_, ?_, ?_⟩ <;>
      exact RandomRange_bounds _ _ _ (h0 _) (h1 _) (by norm_num)

/-- Witness for C3 at a concrete stream and count. -/
theorem GenerateLights_spec_witness :
    (∀ n : ℕ, 0 ≤ (fun _ : ℕ => (1 : ℚ)/2) n ∧ (fun _ : ℕ => (1 : ℚ)/2) n ≤ 1) ∧
    (GenerateLights (fun _ => 1/2) 7).length = max 3 7 := by
  have h : ∀ n : ℕ, 0 ≤ (fun _ : ℕ => (1 : ℚ)/2) n ∧ (fun _ : ℕ => (1 : ℚ)/2) n ≤ 1 := by
    intro n
    norm_num
  exact ⟨h, (GenerateLights_spec (fun _ => 1/2) h 7).1⟩

/-! Claim: the three-phase frame loop (`Game::Update` / `Game::Draw`). -/

/-- C5: every frame's trace has input and scripted motion first, then exactly
one physics step — a `simulate` with fixed timestep `1/60` immediately
followed by a blocking `fetchResults` — then the render delegation last;
the quit signal appears exactly when the quit key is down and the light
regeneration exactly on the designated key press, both before the physics
step. -/
theorem game_frame_order (esc tab : Bool) :
    ∃ k,
      (FrameTrace esc tab)[k]? = some (GameEv.simulate (1/60)) ∧
      (FrameTrace esc tab)[k + 1]? = some (GameEv.fetchResults true) ∧
      (FrameTrace esc tab)[k + 2]? = some GameEv.render ∧
      (FrameTrace esc tab).length = k + 3 ∧
      (∀ dt, GameEv.simulate dt ∈ (FrameTrace esc tab).take k → False) ∧
      (FrameTrace esc tab)[0]? = some GameEv.scriptedMotion ∧
      (GameEv.quit ∈ (FrameTrace esc tab).take k ↔ esc = true) ∧
      (GameEv.generateLights ∈ (FrameTrace esc tab).take k ↔ tab = true) := by
  cases esc <;> cases tab
  · exact ⟨3, by simp [FrameTrace, UpdateTrace, DrawTrace]⟩
  · exact ⟨4, by simp [FrameTrace, UpdateTrace, DrawTrace]⟩
  · exact ⟨4, by simp [FrameTrace, UpdateTrace, DrawTrace]⟩
  · exact ⟨5, by simp [FrameTrace, UpdateTrace, DrawTrace]⟩

/-! Claim: fatal initialization failure (`Game::Init`, lines 142-159). -/

/-- C8 counterexample: when `PxCreateFoundation` succeeds but the physics
object creation fails, `Game::Init` does not throw (it dereferences the null
result instead), contradicting the claim that initialization throws whenever
physics-world creation fails. -/
theorem PhysXInit_not_thrown_on_physics_failure :
    PhysXInit true false true = InitOutcome.nullDeref ∧
    (PhysXInit true false true).isThrown = false ∧
    (PhysXInit true true false).isThrown = false := by
  decide

/-- C8 (amended): `Game::Init` throws exactly when `PxCreateFoundation`
returns null; the results of the subsequent physics and scene creation are
never null-checked, so their failures do not raise a throw. -/
theorem PhysXInit_throws_iff_foundation_failure (f p sc : Bool) :
    (PhysXInit f p sc).isThrown = true ↔ f = false := by
  cases f <;> cases p <;> cases sc <;> decide

/-! Claim: bounds of the light-header GUI accesses. -/

/-- C9: a reachable interleaving of the light-count slider and light
regeneration under which the light-header loop reads out of bounds: from
`Game::Init` (count 64, 64 lights), set the slider to 0, regenerate via TAB
(3 lights), set the slider back to 64 — the same-frame header loop then
accesses `lights[3]` … `lights[63]` of a 3-element vector. -/
theorem lights_gui_out_of_bounds :
    runUI [UIOp.sliderSet 0, UIOp.keyTabRegen, UIOp.sliderSet 64] =
      { lightCount := 64, numLights := 3 } ∧
    ¬ lightAccessesInBounds (runUI [UIOp.sliderSet 0, UIOp.keyTabRegen, UIOp.sliderSet 64]) := by
  refine ⟨rfl, ?_⟩
  decide

/-! Accessor lemmas for state updates and dirty-marking. -/

theorem getElem?_markSubtreeDirty (st : TState) (j k : ℕ) :
    (markSubtreeDirty st j)[k]? =
      (st[k]?).map fun nd =>
        if j ∈ chainSelfF st st.length k then { nd with dirty := true } else nd := by
  simpa [markSubtreeDirty] using getElem?_mapIdxFrom _ 0 k st

theorem length_markSubtreeDirty (st : TState) (j : ℕ) :
    (markSubtreeDirty st j).length = st.length := by
  simp [markSubtreeDirty]

theorem parentOf_markSubtreeDirty (st : TState) (j k : ℕ) :
    parentOf (markSubtreeDirty st j) k = parentOf st k := by
  simp only [parentOf, getElem?_markSubtreeDirty]
  cases st[k]? <;> simp <;> split <;> rfl

theorem childrenOf_markSubtreeDirty (st : TState) (j k : ℕ) :
    childrenOf (markSubtreeDirty st j) k = childrenOf st k := by
  simp only [childrenOf, getElem?_markSubtreeDirty]
  cases st[k]? <;> simp <;> split <;> rfl

theorem positionOf_markSubtreeDirty (st : TState) (j k : ℕ) :
    positionOf (markSubtreeDirty st j) k = positionOf st k := by
  simp only [positionOf, getElem?_markSubtreeDirty]
  cases st[k]? <;> simp <;> split <;> rfl

theorem rotationOf_markSubtreeDirty (st : TState) (j k : ℕ) :
    rotationOf (markSubtreeDirty st j) k = rotationOf st k := by
  simp only [rotationOf, getElem?_markSubtreeDirty]
  cases st[k]? <;> simp <;> split <;> rfl

theorem scaleOf_markSubtreeDirty (st : TState) (j k : ℕ) :
    scaleOf (markSubtreeDirty st j) k = scaleOf st k := by
  simp only [scaleOf, getElem?_markSubtreeDirty]
  cases st[k]? <;> simp <;> split <;> rfl

theorem cacheOf_markSubtreeDirty (st : TState) (j k : ℕ) :
    cacheOf (markSubtreeDirty st j) k = cacheOf st k := by
  simp only [cacheOf, getElem?_markSubtreeDirty]
  cases st[k]? <;> simp <;> split <;> rfl

theorem isSome_markSubtreeDirty (st : TState) (j k : ℕ) :
    ((markSubtreeDirty st j)[k]?).isSome = (st[k]?).isSome := by
  simp [getElem?_markSubtreeDirty]

theorem dirtyOf_markSubtreeDirty (st : TState) (j k : ℕ) :
    dirtyOf (markSubtreeDirty st j) k =
      if j ∈ chainSelfF st st.length k then true else dirtyOf st k := by
  simp only [dirtyOf, getElem?_markSubtreeDirty]
  cases st[k]? with
  | none => simp
  | some nd => by_cases hm : j ∈ chainSelfF st st.length k <;> simp [hm]

theorem parentOf_eq_of_getElem? {st : TState} {i : ℕ} {nd : TNode} (h : st[i]? = some nd) :
    parentOf st i = nd.parent := by
  simp [parentOf, h]

theorem childrenOf_eq_of_getElem? {st : TState} {i : ℕ} {nd : TNode} (h : st[i]? = some nd) :
    childrenOf st i = nd.children := by
  simp [childrenOf, h]

theorem positionOf_eq_of_getElem? {st : TState} {i : ℕ} {nd : TNode} (h : st[i]? = some nd) :
    positionOf st i = nd.position := by
  simp [positionOf, h]

theorem rotationOf_eq_of_getElem? {st : TState} {i : ℕ} {nd : TNode} (h : st[i]? = some nd) :
    rotationOf st i = nd.rotation := by
  simp [rotationOf, h]

theorem scaleOf_eq_of_getElem? {st : TState} {i : ℕ} {nd : TNode} (h : st[i]? = some nd) :
    scaleOf st i = nd.scale := by
  simp [scaleOf, h]

theorem dirtyOf_eq_of_getElem? {st : TState} {i : ℕ} {nd : TNode} (h : st[i]? = some nd) :
    dirtyOf st i = nd.dirty := by
  simp [dirtyOf, h]

theorem cacheOf_eq_of_getElem? {st : TState} {i : ℕ} {nd : TNode} (h : st[i]? = some nd) :
    cacheOf st i = nd.cachedWorld := by
  simp [cacheOf, h]

theorem isSome_updN {α : Type} (st : List α) (i k : ℕ) (f : α → α) :
    ((updN st i f)[k]?).isSome = (st[k]?).isSome := by
  rw [getElem?_updN]
  split <;> simp

theorem parentOf_updN_of (st : TState) (i k : ℕ) (f : TNode → TNode)
    (hf : ∀ nd, (f nd).parent = nd.parent) :
    parentOf (updN st i f) k = parentOf st k := by
  simp only [parentOf, getElem?_updN]
  split
  · cases st[k]? <;> simp [hf]
  · rfl

theorem childrenOf_updN_of (st : TState) (i k : ℕ) (f : TNode → TNode)
    (hf : ∀ nd, (f nd).children = nd.children) :
    childrenOf (updN st i f) k = childrenOf st k := by
  simp only [childrenOf, getElem?_updN]
  split
  · cases st[k]? <;> simp [hf]
  · rfl

theorem positionOf_updN_of (st : TState) (i k : ℕ) (f : TNode → TNode)
    (hf : ∀ nd, (f nd).position = nd.position) :
    positionOf (updN st i f) k = positionOf st k := by
  simp only [positionOf, getElem?_updN]
  split
  · cases st[k]? <;> simp [hf]
  · rfl

theorem rotationOf_updN_of (st : TState) (i k : ℕ) (f : TNode → TNode)
    (hf : ∀ nd, (f nd).rotation = nd.rotation) :
    rotationOf (updN st i f) k = rotationOf st k := by
  simp only [rotationOf, getElem?_updN]
  split
  · cases st[k]? <;> simp [hf]
  · rfl

theorem scaleOf_updN_of (st : TState) (i k : ℕ) (f : TNode → TNode)
    (hf : ∀ nd, (f nd).scale = nd.scale) :
    scaleOf (updN st i f) k = scaleOf st k := by
  simp only [scaleOf, getElem?_updN]
  split
  · cases st[k]? <;> simp [hf]
  · rfl

theorem dirtyOf_updN_of (st : TState) (i k : ℕ) (f : TNode → TNode)
    (hf : ∀ nd, (f nd).dirty = nd.dirty) :
    dirtyOf (updN st i f) k = dirtyOf st k := by
  simp only [dirtyOf, getElem?_updN]
  split
  · cases st[k]? <;> simp [hf]
  · rfl

theorem cacheOf_updN_of (st : TState) (i k : ℕ) (f : TNode → TNode)
    (hf : ∀ nd, (f nd).cachedWorld = nd.cachedWorld) :
    cacheOf (updN st i f) k = cacheOf st k := by
  simp only [cacheOf, getElem?_updN]
  split
  · cases st[k]? <;> simp [hf]
  · rfl

/-- Accessors of `updN` off the updated index are unchanged. -/
theorem getElem?_updN_ne {α : Type} (st : List α) (i k : ℕ) (f : α → α) (h : i ≠ k) :
    (updN st i f)[k]? = st[k]? := by
  rw [getElem?_updN, if_neg h]

/-! Congruence lemmas: chains, rootedness and true world matrices only
depend on the parts of the state they read. -/

theorem ancF_congr (st t : TState) (hp : ∀ x, parentOf st x = parentOf t x) :
    ∀ fuel i, ancF st fuel i = ancF t fuel i := by
  intro fuel
  induction fuel with
  | zero => intro i; rfl
  | succ fuel ih =>
    intro i
    simp only [ancF, hp]
    cases parentOf t i <;> simp [ih]

theorem rootedF_congr (st t : TState) (hp : ∀ x, parentOf st x = parentOf t x) :
    ∀ fuel i, rootedF st fuel i = rootedF t fuel i := by
  intro fuel
  induction fuel with
  | zero => intro i; rfl
  | succ fuel ih =>
    intro i
    simp only [rootedF, hp]
    cases parentOf t i <;> simp [ih]

theorem localM_congr (tg : Trig) (nd nd' : TNode) (h1 : nd.position = nd'.position)
    (h2 : nd.rotation = nd'.rotation) (h3 : nd.scale = nd'.scale) :
    localM tg nd = localM tg nd' := by
  simp [localM, h1, h2, h3]

theorem worldF_congr (tg : Trig) (st t : TState)
    (hsome : ∀ x : ℕ, (st[x]?).isSome = (t[x]?).isSome)
    (hp : ∀ x, parentOf st x = parentOf t x)
    (hpos : ∀ x, positionOf st x = positionOf t x)
    (hrot : ∀ x, rotationOf st x = rotationOf t x)
    (hscale : ∀ x, scaleOf st x = scaleOf t x) :
    ∀ fuel i, worldF tg st fuel i = worldF tg t fuel i := by
  intro fuel
  induction fuel with
  | zero => intro i; rfl
  | succ fuel ih =>
    intro i
    simp only [worldF]
    cases hst : st[i]? with
    | none =>
      cases ht : t[i]? with
      | none => rfl
      | some nd' =>
        have := hsome i
        rw [hst, ht] at this
        simp at this
    | some nd =>
      cases ht : t[i]? with
      | none =>
        have := hsome i
        rw [hst, ht] at this
        simp at this
      | some nd' =>
        have hL : localM tg nd = localM tg nd' := by
          refine localM_congr tg nd nd' ?_ ?_ ?_
          · rw [← positionOf_eq_of_getElem? hst, ← positionOf_eq_of_getElem? ht, hpos]
          · rw [← rotationOf_eq_of_getElem? hst, ← rotationOf_eq_of_getElem? ht, hrot]
          · rw [← scaleOf_eq_of_getElem? hst, ← scaleOf_eq_of_getElem? ht, hscale]
        have hpar : nd.parent = nd'.parent := by
          rw [← parentOf_eq_of_getElem? hst, ← parentOf_eq_of_getElem? ht, hp]
        dsimp only
        rw [hL, ← hpar]
        cases nd.parent <;> simp [ih]

/-! Chains and world matrices are unaffected by changes at a node `j` that is
not on the chain. -/

theorem ancF_sameExcept (st t : TState) (j : ℕ)
    (hp : ∀ x, x ≠ j → parentOf st x = parentOf t x) :
    ∀ fuel k, j ∉ chainSelfF t fuel k → ancF st fuel k = ancF t fuel k := by
  intro fuel
  induction fuel with
  | zero => intro k _; rfl
  | succ fuel ih =>
    intro k hk
    simp only [chainSelfF, List.mem_cons, not_or] at hk
    obtain ⟨hkj, hanc⟩ := hk
    have hpk := hp k (Ne.symm hkj)
    simp only [ancF, hpk]
    cases hpt : parentOf t k with
    | none => rfl
    | some p =>
      have hmem : j ∉ chainSelfF t fuel p := by
        intro hj
        apply hanc
        simp only [ancF, hpt]
        simpa [chainSelfF] using hj
      simp [ih p hmem]

theorem worldF_sameExcept (tg : Trig) (st t : TState) (j : ℕ)
    (hsome : ∀ x : ℕ, x ≠ j → (st[x]?).isSome = (t[x]?).isSome)
    (hp : ∀ x, x ≠ j → parentOf st x = parentOf t x)
    (hpos : ∀ x, x ≠ j → positionOf st x = positionOf t x)
    (hrot : ∀ x, x ≠ j → rotationOf st x = rotationOf t x)
    (hscale : ∀ x, x ≠ j → scaleOf st x = scaleOf t x) :
    ∀ fuel k, j ∉ chainSelfF t fuel k → worldF tg st fuel k = worldF tg t fuel k := by
  intro fuel
  induction fuel with
  | zero => intro k _; rfl
  | succ fuel ih =>
    intro k hk
    simp only [chainSelfF, List.mem_cons, not_or] at hk
    obtain ⟨hkj, hanc⟩ := hk
    have hkj' : k ≠ j := Ne.symm hkj
    simp only [worldF]
    cases hst : st[k]? with
    | none =>
      cases ht : t[k]? with
      | none => rfl
      | some nd' =>
        have := hsome k hkj'
        rw [hst, ht] at this
        simp at this
    | some nd =>
      cases ht : t[k]? with
      | none =>
        have := hsome k hkj'
        rw [hst, ht] at this
        simp at this
      | some nd' =>
        have hL : localM tg nd = localM tg nd' := by
          refine localM_congr tg nd nd' ?_ ?_ ?_
          · rw [← positionOf_eq_of_getElem? hst, ← positionOf_eq_of_getElem? ht, hpos k hkj']
          · rw [← rotationOf_eq_of_getElem? hst, ← rotationOf_eq_of_getElem? ht, hrot k hkj']
          · rw [← scaleOf_eq_of_getElem? hst, ← scaleOf_eq_of_getElem? ht, hscale k hkj']
        have hpar : nd.parent = nd'.parent := by
          rw [← parentOf_eq_of_getElem? hst, ← parentOf_eq_of_getElem? ht, hp k hkj']
        dsimp only
        rw [hL, ← hpar]
        cases hpp : nd.parent with
        | none => rfl
        | some p =>
          have hptk : parentOf t k = some p := by
            rw [parentOf_eq_of_getElem? ht, ← hpar, hpp]
          have hmem : j ∉ chainSelfF t fuel p := by
            intro hj
            apply hanc
            simp only [ancF, hptk]
            simpa [chainSelfF] using hj
          simp [ih p hmem]

/-! Preservation of the cache invariant by local-value mutations. -/

theorem cacheOK_mark_updN (tg : Trig) (st : TState) (i : ℕ) (f : TNode → TNode)
    (hfp : ∀ nd, (f nd).parent = nd.parent)
    (hfd : ∀ nd, (f nd).dirty = nd.dirty)
    (hfw : ∀ nd, (f nd).cachedWorld = nd.cachedWorld)
    (h : CacheOK tg st) : CacheOK tg (markSubtreeDirty (updN st i f) i) := by
  intro k hk hdirty
  have hlen1 : (updN st i f).length = st.length := length_updN st i f
  have hlenm : (markSubtreeDirty (updN st i f) i).length = (updN st i f).length :=
    length_markSubtreeDirty _ i
  rw [dirtyOf_markSubtreeDirty] at hdirty
  by_cases hmem : i ∈ chainSelfF (updN st i f) (updN st i f).length k
  · rw [if_pos hmem] at hdirty
    exact absurd hdirty (by simp)
  · rw [if_neg hmem] at hdirty
    rw [dirtyOf_updN_of st i k f hfd] at hdirty
    have hcache : cacheOf st k = worldF tg st st.length k := by
      refine h k ?_ hdirty
      omega
    have hgoalcache : cacheOf (markSubtreeDirty (updN st i f) i) k = cacheOf st k := by
      rw [cacheOf_markSubtreeDirty, cacheOf_updN_of st i k f hfw]
    rw [hgoalcache, hcache, hlenm, hlen1]
    rw [hlen1] at hmem
    have hw1 : ∀ fuel k, worldF tg (markSubtreeDirty (updN st i f) i) fuel k =
        worldF tg (updN st i f) fuel k := by
      refine worldF_congr tg _ _ ?_ ?_ ?_ ?_ ?_
      · exact fun x => isSome_markSubtreeDirty _ i x
      · exact fun x => parentOf_markSubtreeDirty _ i x
      · exact fun x => positionOf_markSubtreeDirty _ i x
      · exact fun x => rotationOf_markSubtreeDirty _ i x
      · exact fun x => scaleOf_markSubtreeDirty _ i x
    have hw2 : worldF tg st st.length k = worldF tg (updN st i f) st.length k := by
      refine worldF_sameExcept tg st (updN st i f) i ?_ ?_ ?_ ?_ ?_ st.length k hmem
      · exact fun x _ => (isSome_updN st i x f).symm
      · exact fun x _ => (parentOf_updN_of st i x f hfp).symm
      · intro x hx
        simp [positionOf, getElem?_updN_ne st i x f (Ne.symm hx)]
      · intro x hx
        simp [rotationOf, getElem?_updN_ne st i x f (Ne.symm hx)]
      · intro x hx
        simp [scaleOf, getElem?_updN_ne st i x f (Ne.symm hx)]
    rw [hw1, ← hw2]

theorem cacheOK_SetPosition (tg : Trig) (st : TState) (i : ℕ) (v : V3)
    (h : CacheOK tg st) : CacheOK tg (Transform.SetPosition st i v) := by
  unfold Transform.SetPosition
  cases st[i]? with
  | none => exact h
  | some nd => exact cacheOK_mark_updN tg st i _ (fun _ => rfl) (fun _ => rfl) (fun _ => rfl) h

theorem cacheOK_SetRotation (tg : Trig) (st : TState) (i : ℕ) (v : V3)
    (h : CacheOK tg st) : CacheOK tg (Transform.SetRotation st i v) := by
  unfold Transform.SetRotation
  cases st[i]? with
  | none => exact h
  | some nd => exact cacheOK_mark_updN tg st i _ (fun _ => rfl) (fun _ => rfl) (fun _ => rfl) h

theorem cacheOK_SetScale (tg : Trig) (st : TState) (i : ℕ) (v : V3)
    (h : CacheOK tg st) : CacheOK tg (Transform.SetScale st i v) := by
  unfold Transform.SetScale
  cases st[i]? with
  | none => exact h
  | some nd => exact cacheOK_mark_updN tg st i _ (fun _ => rfl) (fun _ => rfl) (fun _ => rfl) h

theorem cacheOK_Rotate (tg : Trig) (st : TState) (i : ℕ) (v : V3)
    (h : CacheOK tg st) : CacheOK tg (Transform.Rotate st i v) := by
  unfold Transform.Rotate
  cases st[i]? with
  | none => exact h
  | some nd => exact cacheOK_mark_updN tg st i _ (fun _ => rfl) (fun _ => rfl) (fun _ => rfl) h

theorem cacheOK_MoveAbsolute (tg : Trig) (st : TState) (i : ℕ) (v : V3)
    (h : CacheOK tg st) : CacheOK tg (Transform.MoveAbsolute st i v) := by
  unfold Transform.MoveAbsolute
  cases st[i]? with
  | none => exact h
  | some nd => exact cacheOK_mark_updN tg st i _ (fun _ => rfl) (fun _ => rfl) (fun _ => rfl) h

theorem cacheOK_MoveRelative (tg tg' : Trig) (st : TState) (i : ℕ) (v : V3)
    (h : CacheOK tg st) : CacheOK tg (Transform.MoveRelative tg' st i v) := by
  unfold Transform.MoveRelative
  cases st[i]? with
  | none => exact h
  | some nd => exact cacheOK_mark_updN tg st i _ (fun _ => rfl) (fun _ => rfl) (fun _ => rfl) h

/-! Well-formedness transport along structure-preserving state changes. -/

theorem wf_congr (st t : TState) (hlen : st.length = t.length)
    (hp : ∀ x, parentOf st x = parentOf t x)
    (hc : ∀ x, childrenOf st x = childrenOf t x) :
    Wf st → Wf t := by
  rintro ⟨h1, h2⟩
  constructor
  · intro i hi
    obtain ⟨a, b, c, d⟩ := h1 i (by omega)
    refine ⟨?_, ?_, ?_, ?_⟩
    · rw [← hp, ← hlen]
      exact a
    · rw [← hc, ← hlen]
      exact b
    · rw [← hc]
      exact c
    · rw [← rootedF_congr st t hp, ← hlen]
      exact d
  · intro i hi j hj
    rw [← hc, ← hp]
    exact h2 i (by omega) j (by omega)

/-- A local-value update followed by dirty-marking preserves well-formedness. -/
theorem wf_mark_updN (st : TState) (i : ℕ) (f : TNode → TNode)
    (hfp : ∀ nd, (f nd).parent = nd.parent)
    (hfc : ∀ nd, (f nd).children = nd.children)
    (h : Wf st) : Wf (markSubtreeDirty (updN st i f) i) := by
  refine wf_congr st _ ?_ ?_ ?_ h
  · rw [length_markSubtreeDirty, length_updN]
  · intro x
    rw [parentOf_markSubtreeDirty, parentOf_updN_of st i x f hfp]
  · intro x
    rw [childrenOf_markSubtreeDirty, childrenOf_updN_of st i x f hfc]

theorem wf_SetPosition (st : TState) (i : ℕ) (v : V3) (h : Wf st) :
    Wf (Transform.SetPosition st i v) := by
  unfold Transform.SetPosition
  cases st[i]? with
  | none => exact h
  | some nd => exact wf_mark_updN st i _ (fun _ => rfl) (fun _ => rfl) h

theorem wf_SetRotation (st : TState) (i : ℕ) (v : V3) (h : Wf st) :
    Wf (Transform.SetRotation st i v) := by
  unfold Transform.SetRotation
  cases st[i]? with
  | none => exact h
  | some nd => exact wf_mark_updN st i _ (fun _ => rfl) (fun _ => rfl) h

theorem wf_SetScale (st : TState) (i : ℕ) (v : V3) (h : Wf st) :
    Wf (Transform.SetScale st i v) := by
  unfold Transform.SetScale
  cases st[i]? with
  | none => exact h
  | some nd => exact wf_mark_updN st i _ (fun _ => rfl) (fun _ => rfl) h

theorem wf_Rotate (st : TState) (i : ℕ) (v : V3) (h : Wf st) :
    Wf (Transform.Rotate st i v) := by
  unfold Transform.Rotate
  cases st[i]? with
  | none => exact h
  | some nd => exact wf_mark_updN st i _ (fun _ => rfl) (fun _ => rfl) h

theorem wf_MoveAbsolute (st : TState) (i : ℕ) (v : V3) (h : Wf st) :
    Wf (Transform.MoveAbsolute st i v) := by
  unfold Transform.MoveAbsolute
  cases st[i]? with
  | none => exact h
  | some nd => exact wf_mark_updN st i _ (fun _ => rfl) (fun _ => rfl) h

theorem wf_MoveRelative (tg : Trig) (st : TState) (i : ℕ) (v : V3) (h : Wf st) :
    Wf (Transform.MoveRelative tg st i v) := by
  unfold Transform.MoveRelative
  cases st[i]? with
  | none => exact h
  | some nd => exact wf_mark_updN st i _ (fun _ => rfl) (fun _ => rfl) h

/-! Unfolding lemmas for the fuel-recursive chain functions. -/

theorem ancF_succ_none (st : TState) {i : ℕ} (fuel : ℕ) (h : parentOf st i = none) :
    ancF st (fuel + 1) i = [] := by
  simp [ancF, h]

theorem ancF_succ_some (st : TState) {i p : ℕ} (fuel : ℕ) (h : parentOf st i = some p) :
    ancF st (fuel + 1) i = p :: ancF st fuel p := by
  simp [ancF, h]

theorem rootedF_succ_none (st : TState) {i : ℕ} (fuel : ℕ) (h : parentOf st i = none) :
    rootedF st (fuel + 1) i = true := by
  simp [rootedF, h]

theorem rootedF_succ_some (st : TState) {i p : ℕ} (fuel : ℕ) (h : parentOf st i = some p) :
    rootedF st (fuel + 1) i = rootedF st fuel p := by
  simp [rootedF, h]

theorem worldF_succ_missing (tg : Trig) (st : TState) {i : ℕ} (fuel : ℕ)
    (h : st[i]? = none) : worldF tg st (fuel + 1) i = 1 := by
  simp [worldF, h]

theorem worldF_succ_root (tg : Trig) (st : TState) {i : ℕ} {nd : TNode} (fuel : ℕ)
    (hst : st[i]? = some nd) (hpp : nd.parent = none) :
    worldF tg st (fuel + 1) i = localM tg nd * 1 := by
  simp [worldF, hst, hpp]

theorem worldF_succ_some (tg : Trig) (st : TState) {i p : ℕ} {nd : TNode} (fuel : ℕ)
    (hst : st[i]? = some nd) (hpp : nd.parent = some p) :
    worldF tg st (fuel + 1) i = localM tg nd * worldF tg st fuel p := by
  simp [worldF, hst, hpp]

/-! Ancestor relation, acyclicity and fuel sufficiency. -/

theorem anc_trans (st : TState) {a b c : ℕ} (h1 : Anc st a b) (h2 : Anc st b c) :
    Anc st a c := by
  induction h2 with
  | base hpc => exact Anc.step hpc h1
  | step hq _ ih => exact Anc.step hq (ih h1)

theorem anc_of_mem_ancF (st : TState) :
    ∀ fuel i x, x ∈ ancF st fuel i → Anc st x i := by
  intro fuel
  induction fuel with
  | zero => intro i x hx; simp [ancF] at hx
  | succ fuel ih =>
    intro i x hx
    cases hp : parentOf st i with
    | none => rw [ancF_succ_none st fuel hp] at hx; simp at hx
    | some p =>
      rw [ancF_succ_some st fuel hp] at hx
      rcases List.mem_cons.1 hx with rfl | hx'
      · exact Anc.base hp
      · exact anc_trans st (ih p x hx') (Anc.base hp)

theorem anc_self_parent (st : TState) {x : ℕ} (h : Anc st x x) :
    ∃ p, parentOf st x = some p ∧ (p = x ∨ Anc st x p) := by
  cases h with
  | base hp => exact ⟨x, hp, Or.inl rfl⟩
  | step hq h2 => exact ⟨_, hq, Or.inr h2⟩

theorem not_rooted_of_anc_self (st : TState) :
    ∀ fuel x, Anc st x x → rootedF st fuel x = false := by
  intro fuel
  induction fuel with
  | zero => intro x _; rfl
  | succ fuel ih =>
    intro x hx
    obtain ⟨p, hp, hc⟩ := anc_self_parent st hx
    rw [rootedF_succ_some st fuel hp]
    rcases hc with rfl | hxp
    · exact ih p hx
    · exact ih p (anc_trans st (Anc.base hp) hxp)

theorem chainSelfF_nodup (st : TState) :
    ∀ fuel i, rootedF st fuel i = true → (chainSelfF st fuel i).Nodup := by
  intro fuel
  induction fuel with
  | zero => intro i h; simp [rootedF] at h
  | succ fuel ih =>
    intro i h
    cases hp : parentOf st i with
    | none => simp [chainSelfF, ancF_succ_none st fuel hp]
    | some p =>
      rw [rootedF_succ_some st fuel hp] at h
      have hnd : (chainSelfF st fuel p).Nodup := ih p h
      have hination : i ∉ p :: ancF st fuel p := by
        intro hmem
        have hpi : Anc st p i := Anc.base hp
        have hip : Anc st i p := by
          rcases List.mem_cons.1 hmem with rfl | hmem'
          · exact Anc.base hp
          · exact anc_of_mem_ancF st fuel p i hmem'
        have hcyc : Anc st p p := anc_trans st hpi hip
        have hfalse := not_rooted_of_anc_self st fuel p hcyc
        rw [hfalse] at h
        exact Bool.noConfusion h
      have hch : chainSelfF st (fuel + 1) i = i :: p :: ancF st fuel p := by
        simp [chainSelfF, ancF_succ_some st fuel hp]
      rw [hch]
      exact List.Nodup.cons hination (by simpa [chainSelfF] using hnd)

theorem optLT_some {p n : ℕ} (h : optLT (some p) n) : p < n := h

theorem mem_ancF_lt (st : TState)
    (hpir : ∀ x < st.length, optLT (parentOf st x) st.length) :
    ∀ fuel i, i < st.length → ∀ x ∈ ancF st fuel i, x < st.length := by
  intro fuel
  induction fuel with
  | zero => intro i _ x hx; simp [ancF] at hx
  | succ fuel ih =>
    intro i hi x hx
    cases hp : parentOf st i with
    | none => rw [ancF_succ_none st fuel hp] at hx; simp at hx
    | some p =>
      rw [ancF_succ_some st fuel hp] at hx
      have hplt : p < st.length := by
        have hopt := hpir i hi
        rw [hp] at hopt
        exact hopt
      rcases List.mem_cons.1 hx with rfl | hx'
      · exact hplt
      · exact ih p hplt x hx'

theorem nodup_lt_length_le (l : List ℕ) (n : ℕ) (hn : l.Nodup) (hb : ∀ x ∈ l, x < n) :
    l.length ≤ n := by
  classical
  have h1 : l.toFinset.card = l.length := List.toFinset_card_of_nodup hn
  have h2 : l.toFinset ⊆ Finset.range n := by
    intro x hx
    simp only [List.mem_toFinset] at hx
    simpa using hb x hx
  have := Finset.card_le_card h2
  simpa [h1] using this

theorem rootedF_mono (st : TState) :
    ∀ fuel fuel' i, fuel ≤ fuel' → rootedF st fuel i = true → rootedF st fuel' i = true := by
  intro fuel
  induction fuel with
  | zero => intro fuel' i _ h; simp [rootedF] at h
  | succ fuel ih =>
    intro fuel' i hle h
    cases fuel' with
    | zero => omega
    | succ fuel'' =>
      cases hp : parentOf st i with
      | none => exact rootedF_succ_none st fuel'' hp
      | some p =>
        rw [rootedF_succ_some st fuel hp] at h
        rw [rootedF_succ_some st fuel'' hp]
        exact ih fuel'' p (by omega) h

theorem rooted_exact (st : TState) :
    ∀ fuel i, rootedF st fuel i = true →
      rootedF st ((ancF st fuel i).length + 1) i = true := by
  intro fuel
  induction fuel with
  | zero => intro i h; simp [rootedF] at h
  | succ fuel ih =>
    intro i h
    cases hp : parentOf st i with
    | none => exact rootedF_succ_none st _ hp
    | some p =>
      rw [rootedF_succ_some st fuel hp] at h
      rw [ancF_succ_some st fuel hp, List.length_cons, rootedF_succ_some st _ hp]
      exact ih p h

/-- For a well-formed parent map, fuel equal to the number of nodes suffices
to witness rootedness. -/
theorem rooted_fuel_suffices (st : TState)
    (hpir : ∀ x < st.length, optLT (parentOf st x) st.length)
    {fuel i : ℕ} (hi : i < st.length) (h : rootedF st fuel i = true) :
    rootedF st st.length i = true := by
  have hnd := chainSelfF_nodup st fuel i h
  have hbound : ∀ x ∈ chainSelfF st fuel i, x < st.length := by
    intro x hx
    rcases List.mem_cons.1 hx with rfl | hx'
    · exact hi
    · exact mem_ancF_lt st hpir fuel i hi x hx'
  have hlen : (chainSelfF st fuel i).length ≤ st.length :=
    nodup_lt_length_le _ _ hnd hbound
  have hlen' : (ancF st fuel i).length + 1 ≤ st.length := by
    simpa [chainSelfF] using hlen
  exact rootedF_mono st _ _ i hlen' (rooted_exact st fuel i h)

/-- The true world matrix is stable in the fuel, once the fuel witnesses
rootedness. -/
theorem worldF_stable (tg : Trig) (st : TState) :
    ∀ fuel i, rootedF st fuel i = true →
      ∀ g, fuel ≤ g → worldF tg st g i = worldF tg st fuel i := by
  intro fuel
  induction fuel with
  | zero => intro i h; simp [rootedF] at h
  | succ fuel ih =>
    intro i h g hg
    cases g with
    | zero => omega
    | succ g' =>
      cases hst : st[i]? with
      | none => rw [worldF_succ_missing tg st g' hst, worldF_succ_missing tg st fuel hst]
      | some nd =>
        cases hpp : nd.parent with
        | none => rw [worldF_succ_root tg st g' hst hpp, worldF_succ_root tg st fuel hst hpp]
        | some p =>
          have hpof : parentOf st i = some p := by
            rw [parentOf_eq_of_getElem? hst, hpp]
          rw [rootedF_succ_some st fuel hpof] at h
          rw [worldF_succ_some tg st g' hst hpp, worldF_succ_some tg st fuel hst hpp,
            ih p h g' (by omega)]

/-! Unfolding lemmas for `Transform::GetWorldMatrix`. -/

namespace Transform

theorem getWorldF_succ_missing (tg : Trig) (st : TState) {i : ℕ} (fuel : ℕ)
    (hst : st[i]? = none) : GetWorldMatrixF tg (fuel + 1) st i = (1, st) := by
  simp [GetWorldMatrixF, hst]

theorem getWorldF_succ_clean (tg : Trig) (st : TState) {i : ℕ} {nd : TNode} (fuel : ℕ)
    (hst : st[i]? = some nd) (hd : nd.dirty = false) :
    GetWorldMatrixF tg (fuel + 1) st i = (nd.cachedWorld, st) := by
  simp [GetWorldMatrixF, hst, hd]

theorem getWorldF_succ_dirty_root (tg : Trig) (st : TState) {i : ℕ} {nd : TNode} (fuel : ℕ)
    (hst : st[i]? = some nd) (hd : nd.dirty = true) (hpp : nd.parent = none) :
    GetWorldMatrixF tg (fuel + 1) st i =
      (localM tg nd * 1,
        updN st i fun m => { m with dirty := false, cachedWorld := localM tg nd * 1 }) := by
  simp [GetWorldMatrixF, hst, hd, hpp]

theorem getWorldF_succ_dirty_parent (tg : Trig) (st : TState) {i p : ℕ} {nd : TNode}
    (fuel : ℕ) (hst : st[i]? = some nd) (hd : nd.dirty = true) (hpp : nd.parent = some p) :
    GetWorldMatrixF tg (fuel + 1) st i =
      (localM tg nd * (GetWorldMatrixF tg fuel st p).1,
        updN (GetWorldMatrixF tg fuel st p).2 i fun m =>
          { m with dirty := false,
                   cachedWorld := localM tg nd * (GetWorldMatrixF tg fuel st p).1 }) := by
  simp [GetWorldMatrixF, hst, hd, hpp]

end Transform

/-! Lemmas about the skeleton-equality relation. -/

theorem sameSkeleton_refl (st : TState) : sameSkeleton st st :=
  ⟨rfl, fun _ => ⟨rfl, rfl, rfl, rfl, rfl, rfl⟩⟩

theorem sameSkeleton_trans {s1 s2 s3 : TState} (h1 : sameSkeleton s1 s2)
    (h2 : sameSkeleton s2 s3) : sameSkeleton s1 s3 := by
  obtain ⟨hl1, hx1⟩ := h1
  obtain ⟨hl2, hx2⟩ := h2
  refine ⟨hl1.trans hl2, fun x => ?_⟩
  obtain ⟨a1, b1, c1, d1, e1, f1⟩ := hx1 x
  obtain ⟨a2, b2, c2, d2, e2, f2⟩ := hx2 x
  exact ⟨a1.trans a2, b1.trans b2, c1.trans c2, d1.trans d2, e1.trans e2, f1.trans f2⟩

/-- An update that changes only the dirty flag and the cached matrix keeps
the skeleton. -/
theorem sameSkeleton_updN (t : TState) (i : ℕ) (f : TNode → TNode)
    (hfp : ∀ nd, (f nd).parent = nd.parent)
    (hfc : ∀ nd, (f nd).children = nd.children)
    (hfpos : ∀ nd, (f nd).position = nd.position)
    (hfrot : ∀ nd, (f nd).rotation = nd.rotation)
    (hfs : ∀ nd, (f nd).scale = nd.scale) :
    sameSkeleton t (updN t i f) := by
  refine ⟨(length_updN t i f).symm, fun x => ?_⟩
  refine ⟨(parentOf_updN_of t i x f hfp).symm, (childrenOf_updN_of t i x f hfc).symm,
    (positionOf_updN_of t i x f hfpos).symm, (rotationOf_updN_of t i x f hfrot).symm,
    (scaleOf_updN_of t i x f hfs).symm, (isSome_updN t i x f).symm⟩

theorem worldF_congr_skel (tg : Trig) {st t : TState} (h : sameSkeleton st t) :
    ∀ fuel i, worldF tg st fuel i = worldF tg t fuel i :=
  worldF_congr tg st t (fun x => ((h.2 x).2.2.2.2.2)) (fun x => (h.2 x).1)
    (fun x => (h.2 x).2.2.1) (fun x => (h.2 x).2.2.2.1) (fun x => (h.2 x).2.2.2.2.1)

theorem rootedF_congr_skel {st t : TState} (h : sameSkeleton st t) :
    ∀ fuel i, rootedF st fuel i = rootedF t fuel i :=
  rootedF_congr st t fun x => (h.2 x).1

/-! Correctness and invariant preservation of `Transform::GetWorldMatrix`:
(value) the returned matrix is the true world matrix of the current state;
(state) the read changes only dirty flags and cached matrices, and keeps the
cache invariant. -/

theorem read_correct (tg : Trig) (st : TState) (hc : CacheOK tg st) :
    ∀ fuel, fuel ≤ st.length → ∀ i, rootedF st fuel i = true →
      (Transform.GetWorldMatrixF tg fuel st i).1 = worldF tg st fuel i ∧
      sameSkeleton st (Transform.GetWorldMatrixF tg fuel st i).2 ∧
      CacheOK tg (Transform.GetWorldMatrixF tg fuel st i).2 := by
  intro fuel
  induction fuel with
  | zero => intro _ i h; simp [rootedF] at h
  | succ fuel ih =>
    intro hfuel i hrooted
    cases hst : st[i]? with
    | none =>
      rw [Transform.getWorldF_succ_missing tg st fuel hst,
        worldF_succ_missing tg st fuel hst]
      exact ⟨rfl, sameSkeleton_refl st, hc⟩
    | some nd =>
      have hilt : i < st.length := by
        by_contra hlt
        push_neg at hlt
        rw [List.getElem?_eq_none hlt] at hst
        exact Option.noConfusion hst
      cases hd : nd.dirty with
      | false =>
        rw [Transform.getWorldF_succ_clean tg st fuel hst hd]
        refine ⟨?_, sameSkeleton_refl st, hc⟩
        have hcached : nd.cachedWorld = worldF tg st st.length i := by
          have := hc i hilt (by rw [dirtyOf_eq_of_getElem? hst, hd])
          rwa [cacheOf_eq_of_getElem? hst] at this
        rw [hcached]
        exact worldF_stable tg st (fuel + 1) i hrooted st.length hfuel
      | true =>
        cases hpp : nd.parent with
        | none =>
          rw [Transform.getWorldF_succ_dirty_root tg st fuel hst hd hpp,
            worldF_succ_root tg st fuel hst hpp]
          have hskel : sameSkeleton st
              (updN st i fun m =>
                { m with dirty := false, cachedWorld := localM tg nd * 1 }) :=
            sameSkeleton_updN st i _ (fun _ => rfl) (fun _ => rfl) (fun _ => rfl)
              (fun _ => rfl) (fun _ => rfl)
          refine ⟨rfl, hskel, ?_⟩
          intro k hk hdk
          set T := updN st i fun m =>
            { m with dirty := false, cachedWorld := localM tg nd * 1 } with hT
          have hTlen : T.length = st.length := length_updN st i _
          by_cases hki : k = i
          · subst hki
            have hTk : T[k]? = some { nd with dirty := false, cachedWorld := localM tg nd * 1 } := by
              rw [hT, getElem?_updN, if_pos rfl, hst]
              rfl
            have hcache : cacheOf T k = localM tg nd * 1 := by
              rw [cacheOf_eq_of_getElem? hTk]
            rw [hcache]
            have hwe : worldF tg T T.length k = worldF tg st st.length k := by
              rw [hTlen]
              exact (worldF_congr_skel tg hskel st.length k).symm
            rw [hwe]
            have hstw : worldF tg st st.length k = worldF tg st (fuel + 1) k :=
              worldF_stable tg st (fuel + 1) k hrooted st.length hfuel
            rw [hstw, worldF_succ_root tg st fuel hst hpp]
          · have hTk : T[k]? = st[k]? := by
              rw [hT, getElem?_updN, if_neg (fun hik => hki hik.symm)]
            have hdk' : dirtyOf st k = false := by
              rw [← hdk]
              simp [dirtyOf, hTk]
            have hck : cacheOf T k = cacheOf st k := by
              simp [cacheOf, hTk]
            rw [hck]
            have hklen : k < st.length := by
              dsimp only at hk
              omega
            have := hc k hklen hdk'
            rw [this, hTlen]
            exact worldF_congr_skel tg hskel st.length k
        | some p =>
          have hpof : parentOf st i = some p := by
            rw [parentOf_eq_of_getElem? hst, hpp]
          have hrootp : rootedF st fuel p = true := by
            rwa [rootedF_succ_some st fuel hpof] at hrooted
          obtain ⟨ihv, ihskel, ihc⟩ := ih (by omega) p hrootp
          rw [Transform.getWorldF_succ_dirty_parent tg st fuel hst hd hpp]
          set s1 := (Transform.GetWorldMatrixF tg fuel st p).2 with hs1
          set w := localM tg nd * (Transform.GetWorldMatrixF tg fuel st p).1 with hw
          have hwval : w = worldF tg st (fuel + 1) i := by
            rw [hw, ihv, worldF_succ_some tg st fuel hst hpp]
          have hskel1 : sameSkeleton s1 (updN s1 i fun m =>
              { m with dirty := false, cachedWorld := w }) :=
            sameSkeleton_updN s1 i _ (fun _ => rfl) (fun _ => rfl) (fun _ => rfl)
              (fun _ => rfl) (fun _ => rfl)
          have hskel : sameSkeleton st (updN s1 i fun m =>
              { m with dirty := false, cachedWorld := w }) :=
            sameSkeleton_trans ihskel hskel1
          refine ⟨hwval, hskel, ?_⟩
          intro k hk hdk
          set T := updN s1 i fun m => { m with dirty := false, cachedWorld := w } with hT
          have hs1len : s1.length = st.length := ihskel.1.symm
          have hTlen : T.length = st.length := by rw [hT, length_updN, hs1len]
          by_cases hki : k = i
          · subst hki
            have hs1some : (s1[k]?).isSome = true := by
              rw [← (ihskel.2 k).2.2.2.2.2, hst]
              rfl
            obtain ⟨nd1, hnd1⟩ := Option.isSome_iff_exists.1 hs1some
            have hTk : T[k]? = some { nd1 with dirty := false, cachedWorld := w } := by
              rw [hT, getElem?_updN, if_pos rfl, hnd1]
              rfl
            have hcache : cacheOf T k = w := by
              rw [cacheOf_eq_of_getElem? hTk]
            rw [hcache]
            have hwe : worldF tg T T.length k = worldF tg st st.length k := by
              rw [hTlen]
              exact (worldF_congr_skel tg hskel st.length k).symm
            rw [hwe, hwval]
            exact (worldF_stable tg st (fuel + 1) k hrooted st.length hfuel).symm
          · have hTk : T[k]? = s1[k]? := by
              rw [hT, getElem?_updN, if_neg (fun hik => hki hik.symm)]
            have hdk' : dirtyOf s1 k = false := by
              rw [← hdk]
              simp [dirtyOf, hTk]
            have hck : cacheOf T k = cacheOf s1 k := by
              simp [cacheOf, hTk]
            rw [hck]
            have hklen : k < s1.length := by
              dsimp only at hk
              omega
            have := ihc k hklen hdk'
            rw [this, hTlen, ← hs1len]
            exact worldF_congr_skel tg (sameSkeleton_trans
              (sameSkeleton_refl s1) hskel1) s1.length k


/-! Component lemmas for `attachStep` and the successful `AddChild` branch. -/

theorem AddChild_eq_of_attach (st : TState) {i j : ℕ} {ni nj : TNode}
    (hi : st[i]? = some ni) (hj : st[j]? = some nj)
    (hguard : ¬(j ∈ ni.children ∨ j ∈ chainSelfF st st.length i)) :
    Transform.AddChild st i j = markSubtreeDirty (attachStep st i j) j := by
  rw [Transform.AddChild, hi, hj]
  dsimp only
  rw [if_neg hguard]
  unfold attachStep
  rw [hj]
  rfl

theorem length_attachStep (st : TState) (i j : ℕ) :
    (attachStep st i j).length = st.length := by
  unfold attachStep
  cases (st[j]?).bind TNode.parent <;> simp

theorem isSome_attachStep (st : TState) (i j x : ℕ) :
    ((attachStep st i j)[x]?).isSome = (st[x]?).isSome := by
  unfold attachStep
  cases (st[j]?).bind TNode.parent <;> simp [isSome_updN]

theorem parentOf_updN_ne (st : TState) (i k : ℕ) (f : TNode → TNode) (h : i ≠ k) :
    parentOf (updN st i f) k = parentOf st k := by
  simp [parentOf, getElem?_updN_ne st i k f h]

theorem childrenOf_updN_ne (st : TState) (i k : ℕ) (f : TNode → TNode) (h : i ≠ k) :
    childrenOf (updN st i f) k = childrenOf st k := by
  simp [childrenOf, getElem?_updN_ne st i k f h]

theorem parentOf_attachStep_ne (st : TState) (i j x : ℕ) (hx : x ≠ j) :
    parentOf (attachStep st i j) x = parentOf st x := by
  unfold attachStep
  cases (st[j]?).bind TNode.parent with
  | none =>
    dsimp only
    rw [parentOf_updN_ne _ j x (fun n => { n with parent := some i }) (fun h => hx h.symm),
      parentOf_updN_of _ i x (fun n => { n with children := n.children ++ [j] }) (fun _ => rfl)]
  | some q =>
    dsimp only
    rw [parentOf_updN_ne _ j x (fun n => { n with parent := some i }) (fun h => hx h.symm),
      parentOf_updN_of _ i x (fun n => { n with children := n.children ++ [j] }) (fun _ => rfl),
      parentOf_updN_of _ q x (fun nq => { nq with children := nq.children.erase j }) (fun _ => rfl)]

theorem parentOf_attachStep_self (st : TState) {j : ℕ} (i : ℕ) {nj : TNode}
    (hj : st[j]? = some nj) :
    parentOf (attachStep st i j) j = some i := by
  unfold attachStep
  have hsome : ∀ t : TState, (t[j]?).isSome = true →
      parentOf (updN t j (fun n => { n with parent := some i })) j = some i := by
    intro t ht
    obtain ⟨nd, hnd⟩ := Option.isSome_iff_exists.1 ht
    simp [parentOf, getElem?_updN, hnd]
  cases (st[j]?).bind TNode.parent with
  | none =>
    dsimp only
    refine hsome _ ?_
    rw [isSome_updN, hj]
    rfl
  | some q =>
    dsimp only
    refine hsome _ ?_
    rw [isSome_updN, isSome_updN, hj]
    rfl

theorem positionOf_attachStep (st : TState) (i j x : ℕ) :
    positionOf (attachStep st i j) x = positionOf st x := by
  unfold attachStep
  cases (st[j]?).bind TNode.parent with
  | none =>
    dsimp only
    rw [positionOf_updN_of _ j x (fun n => { n with parent := some i }) (fun _ => rfl),
      positionOf_updN_of _ i x (fun n => { n with children := n.children ++ [j] }) (fun _ => rfl)]
  | some q =>
    dsimp only
    rw [positionOf_updN_of _ j x (fun n => { n with parent := some i }) (fun _ => rfl),
      positionOf_updN_of _ i x (fun n => { n with children := n.children ++ [j] }) (fun _ => rfl),
      positionOf_updN_of _ q x (fun nq => { nq with children := nq.children.erase j }) (fun _ => rfl)]

theorem rotationOf_attachStep (st : TState) (i j x : ℕ) :
    rotationOf (attachStep st i j) x = rotationOf st x := by
  unfold attachStep
  cases (st[j]?).bind TNode.parent with
  | none =>
    dsimp only
    rw [rotationOf_updN_of _ j x (fun n => { n with parent := some i }) (fun _ => rfl),
      rotationOf_updN_of _ i x (fun n => { n with children := n.children ++ [j] }) (fun _ => rfl)]
  | some q =>
    dsimp only
    rw [rotationOf_updN_of _ j x (fun n => { n with parent := some i }) (fun _ => rfl),
      rotationOf_updN_of _ i x (fun n => { n with children := n.children ++ [j] }) (fun _ => rfl),
      rotationOf_updN_of _ q x (fun nq => { nq with children := nq.children.erase j }) (fun _ => rfl)]

theorem scaleOf_attachStep (st : TState) (i j x : ℕ) :
    scaleOf (attachStep st i j) x = scaleOf st x := by
  unfold attachStep
  cases (st[j]?).bind TNode.parent with
  | none =>
    dsimp only
    rw [scaleOf_updN_of _ j x (fun n => { n with parent := some i }) (fun _ => rfl),
      scaleOf_updN_of _ i x (fun n => { n with children := n.children ++ [j] }) (fun _ => rfl)]
  | some q =>
    dsimp only
    rw [scaleOf_updN_of _ j x (fun n => { n with parent := some i }) (fun _ => rfl),
      scaleOf_updN_of _ i x (fun n => { n with children := n.children ++ [j] }) (fun _ => rfl),
      scaleOf_updN_of _ q x (fun nq => { nq with children := nq.children.erase j }) (fun _ => rfl)]

theorem dirtyOf_attachStep (st : TState) (i j x : ℕ) :
    dirtyOf (attachStep st i j) x = dirtyOf st x := by
  unfold attachStep
  cases (st[j]?).bind TNode.parent with
  | none =>
    dsimp only
    rw [dirtyOf_updN_of _ j x (fun n => { n with parent := some i }) (fun _ => rfl),
      dirtyOf_updN_of _ i x (fun n => { n with children := n.children ++ [j] }) (fun _ => rfl)]
  | some q =>
    dsimp only
    rw [dirtyOf_updN_of _ j x (fun n => { n with parent := some i }) (fun _ => rfl),
      dirtyOf_updN_of _ i x (fun n => { n with children := n.children ++ [j] }) (fun _ => rfl),
      dirtyOf_updN_of _ q x (fun nq => { nq with children := nq.children.erase j }) (fun _ => rfl)]

theorem cacheOf_attachStep (st : TState) (i j x : ℕ) :
    cacheOf (attachStep st i j) x = cacheOf st x := by
  unfold attachStep
  cases (st[j]?).bind TNode.parent with
  | none =>
    dsimp only
    rw [cacheOf_updN_of _ j x (fun n => { n with parent := some i }) (fun _ => rfl),
      cacheOf_updN_of _ i x (fun n => { n with children := n.children ++ [j] }) (fun _ => rfl)]
  | some q =>
    dsimp only
    rw [cacheOf_updN_of _ j x (fun n => { n with parent := some i }) (fun _ => rfl),
      cacheOf_updN_of _ i x (fun n => { n with children := n.children ++ [j] }) (fun _ => rfl),
      cacheOf_updN_of _ q x (fun nq => { nq with children := nq.children.erase j }) (fun _ => rfl)]

theorem childrenOf_updN_erase (st : TState) (q j : ℕ) :
    childrenOf (updN st q fun nq => { nq with children := nq.children.erase j }) q =
      (childrenOf st q).erase j := by
  simp only [childrenOf, getElem?_updN, if_pos rfl]
  cases st[q]? <;> simp

theorem childrenOf_updN_append (st : TState) (i j : ℕ) :
    childrenOf (updN st i fun n => { n with children := n.children ++ [j] }) i =
      childrenOf st i ++ [j] ∨
    (st[i]? = none ∧
      childrenOf (updN st i fun n => { n with children := n.children ++ [j] }) i = []) := by
  cases hi : st[i]? with
  | none =>
    right
    refine ⟨rfl, ?_⟩
    simp [childrenOf, getElem?_updN, hi]
  | some nd =>
    left
    simp [childrenOf, getElem?_updN, hi, childrenOf_eq_of_getElem? hi]

theorem childrenOf_attachStep_self (st : TState) {i j : ℕ} {ni nj : TNode}
    (hi : st[i]? = some ni) (hj : st[j]? = some nj) (hij : i ≠ j)
    (hqi : ∀ q, nj.parent = some q → q ≠ i) :
    childrenOf (attachStep st i j) i = childrenOf st i ++ [j] := by
  unfold attachStep
  have hb : (st[j]?).bind TNode.parent = nj.parent := by rw [hj]; rfl
  rw [hb]
  cases hq : nj.parent with
  | none =>
    dsimp only
    rw [childrenOf_updN_ne _ j i (fun n => { n with parent := some i }) (fun h => hij h.symm)]
    simp [childrenOf, getElem?_updN, hi]
  | some q =>
    dsimp only
    rw [childrenOf_updN_ne _ j i (fun n => { n with parent := some i }) (fun h => hij h.symm)]
    have hqi' : q ≠ i := hqi q hq
    rw [show (updN (updN st q fun nq => { nq with children := nq.children.erase j }) i
        fun n => { n with children := n.children ++ [j] }) =
        updN (updN st q fun nq => { nq with children := nq.children.erase j }) i
        fun n => { n with children := n.children ++ [j] } from rfl]
    have hqmiss : (updN st q fun nq => { nq with children := nq.children.erase j })[i]? =
        st[i]? := getElem?_updN_ne st q i _ hqi'
    simp [childrenOf, getElem?_updN, hqmiss, hi]

theorem childrenOf_attachStep_oldparent (st : TState) {i j q : ℕ} {nj : TNode}
    (hj : st[j]? = some nj) (hq : nj.parent = some q) (hqi : q ≠ i) (hqj : q ≠ j) :
    childrenOf (attachStep st i j) q = (childrenOf st q).erase j := by
  unfold attachStep
  have hb : (st[j]?).bind TNode.parent = nj.parent := by rw [hj]; rfl
  rw [hb, hq]
  dsimp only
  rw [childrenOf_updN_ne _ j q (fun n => { n with parent := some i }) (fun h => hqj h.symm),
    childrenOf_updN_ne _ i q (fun n => { n with children := n.children ++ [j] })
      (fun h => hqi h.symm)]
  exact childrenOf_updN_erase st q j

theorem childrenOf_attachStep_other (st : TState) {i j : ℕ} {nj : TNode}
    (hj : st[j]? = some nj) (x : ℕ) (hxi : x ≠ i)
    (hxq : ∀ q, nj.parent = some q → x ≠ q) :
    childrenOf (attachStep st i j) x = childrenOf st x := by
  unfold attachStep
  have hb : (st[j]?).bind TNode.parent = nj.parent := by rw [hj]; rfl
  rw [hb]
  cases hq : nj.parent with
  | none =>
    dsimp only
    rw [childrenOf_updN_of _ j x (fun n => { n with parent := some i }) (fun _ => rfl),
      childrenOf_updN_ne _ i x (fun n => { n with children := n.children ++ [j] })
        (fun h => hxi h.symm)]
  | some q =>
    dsimp only
    rw [childrenOf_updN_of _ j x (fun n => { n with parent := some i }) (fun _ => rfl),
      childrenOf_updN_ne _ i x (fun n => { n with children := n.children ++ [j] })
        (fun h => hxi h.symm),
      childrenOf_updN_ne _ q x (fun nq => { nq with children := nq.children.erase j })
        (fun h => (hxq q hq) h.symm)]

/-! Projections out of well-formedness. -/

theorem wf_pir {st : TState} (h : Wf st) :
    ∀ x < st.length, optLT (parentOf st x) st.length :=
  fun x hx => (h.1 x hx).1

theorem wf_childlt {st : TState} (h : Wf st) :
    ∀ x < st.length, ∀ k ∈ childrenOf st x, k < st.length :=
  fun x hx => (h.1 x hx).2.1

theorem wf_childnodup {st : TState} (h : Wf st) :
    ∀ x < st.length, (childrenOf st x).Nodup :=
  fun x hx => (h.1 x hx).2.2.1

theorem wf_rooted {st : TState} (h : Wf st) :
    ∀ x < st.length, rootedF st st.length x = true :=
  fun x hx => (h.1 x hx).2.2.2

theorem wf_consist {st : TState} (h : Wf st) :
    ∀ i < st.length, ∀ j < st.length, (j ∈ childrenOf st i ↔ parentOf st j = some i) :=
  h.2

/-! Rootedness transport across a parent-pointer change at one node. -/

theorem rootedF_off_j (st t : TState) (j : ℕ)
    (hp : ∀ x, x ≠ j → parentOf st x = parentOf t x) :
    ∀ fuel k, j ∉ chainSelfF st fuel k → rootedF st fuel k = rootedF t fuel k := by
  intro fuel
  induction fuel with
  | zero => intro k _; rfl
  | succ fuel ih =>
    intro k hk
    simp only [chainSelfF, List.mem_cons, not_or] at hk
    obtain ⟨hjk, hanc⟩ := hk
    have hpk := hp k (Ne.symm hjk)
    cases hq : parentOf st k with
    | none =>
      have hq' : parentOf t k = none := by rw [← hpk, hq]
      rw [rootedF_succ_none st fuel hq, rootedF_succ_none t fuel hq']
    | some p =>
      have hq' : parentOf t k = some p := by rw [← hpk, hq]
      rw [rootedF_succ_some st fuel hq, rootedF_succ_some t fuel hq']
      apply ih
      intro hmem
      apply hanc
      rw [ancF_succ_some st fuel hq]
      simpa [chainSelfF] using hmem

theorem rooted_transport (st A : TState) (j : ℕ)
    (hp : ∀ x, x ≠ j → parentOf A x = parentOf st x)
    (hj : ∃ g, rootedF A g j = true) :
    ∀ fuel k, rootedF st fuel k = true → ∃ g, rootedF A g k = true := by
  intro fuel
  induction fuel with
  | zero => intro k h; simp [rootedF] at h
  | succ fuel ih =>
    intro k h
    by_cases hkj : k = j
    · subst hkj
      exact hj
    · cases hq : parentOf st k with
      | none =>
        refine ⟨1, rootedF_succ_none A 0 ?_⟩
        rw [hp k hkj, hq]
      | some p =>
        rw [rootedF_succ_some st fuel hq] at h
        obtain ⟨g, hg⟩ := ih p h
        refine ⟨g + 1, ?_⟩
        rw [rootedF_succ_some A g (by rw [hp k hkj, hq])]
        exact hg

/-! `AddChild` preserves well-formedness: in particular no parent/child cycle
is ever introduced. -/

theorem wf_AddChild (st : TState) (i j : ℕ) (h : Wf st) :
    Wf (Transform.AddChild st i j) := by
  cases hi : st[i]? with
  | none =>
    have heq : Transform.AddChild st i j = st := by
      rw [Transform.AddChild, hi]
    rw [heq]
    exact h
  | some ni =>
    cases hj : st[j]? with
    | none =>
      have heq : Transform.AddChild st i j = st := by
        rw [Transform.AddChild, hi, hj]
      rw [heq]
      exact h
    | some nj =>
      by_cases hguard : j ∈ ni.children ∨ j ∈ chainSelfF st st.length i
      · have heq : Transform.AddChild st i j = st := by
          rw [Transform.AddChild, hi, hj]
          dsimp only
          rw [if_pos hguard]
        rw [heq]
        exact h
      · rw [AddChild_eq_of_attach st hi hj hguard]
        push_neg at hguard
        obtain ⟨hgc, hga⟩ := hguard
        set A := attachStep st i j with hA
        have hlenA : A.length = st.length := length_attachStep st i j
        refine wf_congr A _ (length_markSubtreeDirty A j).symm
          (fun x => (parentOf_markSubtreeDirty A j x).symm)
          (fun x => (childrenOf_markSubtreeDirty A j x).symm) ?_
        have hilt : i < st.length := by
          by_contra hlt
          push_neg at hlt
          rw [List.getElem?_eq_none hlt] at hi
          exact Option.noConfusion hi
        have hjlt : j < st.length := by
          by_contra hlt
          push_neg at hlt
          rw [List.getElem?_eq_none hlt] at hj
          exact Option.noConfusion hj
        have hij : i ≠ j := by
          intro he
          apply hga
          rw [← he]
          exact List.mem_cons_self i _
        have hpj : parentOf st j = nj.parent := parentOf_eq_of_getElem? hj
        have hqi' : ∀ q, nj.parent = some q → q ≠ i := by
          intro q hq he
          apply hgc
          have : parentOf st j = some i := by rw [hpj, hq, he]
          have hmem := (wf_consist h i hilt j hjlt).2 this
          rwa [childrenOf_eq_of_getElem? hi] at hmem
        have hqj' : ∀ q, nj.parent = some q → q ≠ j := by
          intro q hq he
          have hpar : parentOf st j = some j := by rw [hpj, hq, he]
          have hanc : Anc st j j := Anc.base hpar
          have := not_rooted_of_anc_self st st.length j hanc
          have hr := wf_rooted h j hjlt
          rw [this] at hr
          exact Bool.noConfusion hr
        have hqlt' : ∀ q, nj.parent = some q → q < st.length := by
          intro q hq
          have := wf_pir h j hjlt
          rw [hpj, hq] at this
          exact this
        have hpA_ne : ∀ x, x ≠ j → parentOf A x = parentOf st x :=
          fun x hx => parentOf_attachStep_ne st i j x hx
        have hpA_j : parentOf A j = some i := parentOf_attachStep_self st i hj
        have hcases : ∀ x,
            (x ≠ i ∧ (∀ q, nj.parent = some q → x ≠ q) ∧ childrenOf A x = childrenOf st x) ∨
            (x = i ∧ childrenOf A x = childrenOf st i ++ [j]) ∨
            (x ≠ i ∧ nj.parent = some x ∧ childrenOf A x = (childrenOf st x).erase j) := by
          intro x
          by_cases hxi : x = i
          · right; left
            refine ⟨hxi, ?_⟩
            rw [hxi]
            exact childrenOf_attachStep_self st hi hj hij hqi'
          · cases hqq : nj.parent with
            | none =>
              left
              refine ⟨hxi, fun q hq => ?_, ?_⟩
              · simp [hqq] at hq
              · exact childrenOf_attachStep_other st hj x hxi
                  (fun q hq => by simp [hqq] at hq)
            | some q =>
              by_cases hxq : x = q
              · right; right
                refine ⟨hxi, by simp [hqq, hxq], ?_⟩
                rw [hxq]
                exact childrenOf_attachStep_oldparent st hj hqq (hqi' q hqq) (hqj' q hqq)
              · left
                refine ⟨hxi, fun q' hq' => ?_, ?_⟩
                · simp only [hqq, Option.some.injEq] at hq'
                  omega
                · exact childrenOf_attachStep_other st hj x hxi
                    (fun q' hq' => by
                      simp only [hqq, Option.some.injEq] at hq'
                      omega)
        have hpirA : ∀ x < A.length, optLT (parentOf A x) A.length := by
          intro x hx
          by_cases hxj : x = j
          · rw [hxj, hpA_j, hlenA]
            exact hilt
          · rw [hpA_ne x hxj, hlenA]
            exact wf_pir h x (by omega)
        have hrootA : ∀ x < A.length, rootedF A A.length x = true := by
          have hrAi : rootedF A st.length i = true := by
            have := rootedF_off_j st A j (fun x hx => (hpA_ne x hx).symm) st.length i
            rw [← this (by simpa [chainSelfF] using hga)]
            exact wf_rooted h i hilt
          have hrAj : ∃ g, rootedF A g j = true := by
            refine ⟨st.length + 1, ?_⟩
            rw [rootedF_succ_some A st.length hpA_j]
            exact hrAi
          intro x hx
          have hxlt : x < st.length := by omega
          obtain ⟨g, hg⟩ := rooted_transport st A j
            (fun y hy => hpA_ne y hy) hrAj st.length x (wf_rooted h x hxlt)
          exact rooted_fuel_suffices A hpirA (by omega) hg
        constructor
        · intro x hx
          refine ⟨hpirA x hx, ?_, ?_, hrootA x hx⟩
          · intro k hk
            rcases hcases x with ⟨-, -, hcx⟩ | ⟨hxi, hcx⟩ | ⟨-, -, hcx⟩
            · rw [hcx] at hk
              rw [hlenA] at hx ⊢
              exact wf_childlt h x hx k hk
            · rw [hcx] at hk
              rw [hlenA] at hx ⊢
              rcases List.mem_append.1 hk with hk' | hk'
              · exact wf_childlt h i hilt k hk'
              · simp only [List.mem_singleton] at hk'
                rw [hk']
                exact hjlt
            · rw [hcx] at hk
              rw [hlenA] at hx ⊢
              exact wf_childlt h x hx k (List.mem_of_mem_erase hk)
          · rcases hcases x with ⟨-, -, hcx⟩ | ⟨hxi, hcx⟩ | ⟨-, -, hcx⟩
            · rw [hcx]
              rw [hlenA] at hx
              exact wf_childnodup h x hx
            · rw [hcx]
              have hnd := wf_childnodup h i hilt
              have hnotmem : j ∉ childrenOf st i := by
                rw [childrenOf_eq_of_getElem? hi]
                exact hgc
              simp [List.nodup_append, hnd, hnotmem]
            · rw [hcx]
              rw [hlenA] at hx
              exact List.Nodup.erase j (wf_childnodup h x hx)
        · intro x hx y hy
          rw [hlenA] at hx hy
          by_cases hyj : y = j
          · subst hyj
            rw [hpA_j]
            rcases hcases x with ⟨hxi, hxq, hcx⟩ | ⟨hxi, hcx⟩ | ⟨hxi, hxq, hcx⟩
            · rw [hcx]
              constructor
              · intro hmem
                have := (wf_consist h x hx y hy).1 hmem
                rw [hpj] at this
                exact absurd rfl (hxq x this)
              · intro he
                injection he with he'
                exact absurd he'.symm hxi
            · subst hxi
              rw [hcx]
              simp
            · rw [hcx]
              constructor
              · intro hmem
                exact absurd hmem (List.Nodup.not_mem_erase (wf_childnodup h x hx))
              · intro he
                injection he with he'
                exact absurd he'.symm hxi
          · rw [hpA_ne y hyj]
            rcases hcases x with ⟨hxi, hxq, hcx⟩ | ⟨hxi, hcx⟩ | ⟨hxi, hxq, hcx⟩
            · rw [hcx]
              exact wf_consist h x hx y hy
            · subst hxi
              rw [hcx]
              constructor
              · intro hmem
                rcases List.mem_append.1 hmem with hm | hm
                · exact (wf_consist h x hx y hy).1 hm
                · simp only [List.mem_singleton] at hm
                  exact absurd hm hyj
              · intro hpar
                exact List.mem_append.2 (Or.inl ((wf_consist h x hx y hy).2 hpar))
            · rw [hcx]
              rw [List.mem_erase_of_ne hyj]
              exact wf_consist h x hx y hy

/-! `AddChild` preserves the cache invariant: every node it leaves clean has
an unchanged ancestor chain and hence an unchanged true world matrix. -/

theorem cacheOK_AddChild (tg : Trig) (st : TState) (i j : ℕ) (hc : CacheOK tg st) :
    CacheOK tg (Transform.AddChild st i j) := by
  cases hi : st[i]? with
  | none =>
    have heq : Transform.AddChild st i j = st := by
      rw [Transform.AddChild, hi]
    rw [heq]
    exact hc
  | some ni =>
    cases hj : st[j]? with
    | none =>
      have heq : Transform.AddChild st i j = st := by
        rw [Transform.AddChild, hi, hj]
      rw [heq]
      exact hc
    | some nj =>
      by_cases hguard : j ∈ ni.children ∨ j ∈ chainSelfF st st.length i
      · have heq : Transform.AddChild st i j = st := by
          rw [Transform.AddChild, hi, hj]
          dsimp only
          rw [if_pos hguard]
        rw [heq]
        exact hc
      · rw [AddChild_eq_of_attach st hi hj hguard]
        set A := attachStep st i j with hA
        have hlenA : A.length = st.length := length_attachStep st i j
        intro k hk hdirty
        have hlenM : (markSubtreeDirty A j).length = st.length := by
          rw [length_markSubtreeDirty, hlenA]
        rw [dirtyOf_markSubtreeDirty] at hdirty
        by_cases hmem : j ∈ chainSelfF A A.length k
        · rw [if_pos hmem] at hdirty
          exact absurd hdirty (by simp)
        · rw [if_neg hmem] at hdirty
          rw [dirtyOf_attachStep] at hdirty
          have hklt : k < st.length := by omega
          have hcache : cacheOf st k = worldF tg st st.length k := hc k hklt hdirty
          have hgoalcache : cacheOf (markSubtreeDirty A j) k = cacheOf st k := by
            rw [cacheOf_markSubtreeDirty, hA, cacheOf_attachStep]
          rw [hgoalcache, hcache, hlenM]
          have hw1 : ∀ fuel k, worldF tg (markSubtreeDirty A j) fuel k =
              worldF tg A fuel k := by
            refine worldF_congr tg _ _ ?_ ?_ ?_ ?_ ?_
            · exact fun x => isSome_markSubtreeDirty A j x
            · exact fun x => parentOf_markSubtreeDirty A j x
            · exact fun x => positionOf_markSubtreeDirty A j x
            · exact fun x => rotationOf_markSubtreeDirty A j x
            · exact fun x => scaleOf_markSubtreeDirty A j x
          have hw2 : worldF tg st st.length k = worldF tg A st.length k := by
            refine worldF_sameExcept tg st A j ?_ ?_ ?_ ?_ ?_ st.length k ?_
            · exact fun x _ => (isSome_attachStep st i j x).symm
            · exact fun x hx => (parentOf_attachStep_ne st i j x hx).symm
            · exact fun x _ => (positionOf_attachStep st i j x).symm
            · exact fun x _ => (rotationOf_attachStep st i j x).symm
            · exact fun x _ => (scaleOf_attachStep st i j x).symm
            · rw [← hlenA]
              exact hmem
          rw [hw1, ← hw2]

/-! Reads preserve well-formedness and the cache invariant. -/

theorem read_preserves (tg : Trig) (st : TState) (i : ℕ) (h : Wf st) (hc : CacheOK tg st) :
    Wf (Transform.GetWorldMatrix tg st i).2 ∧ CacheOK tg (Transform.GetWorldMatrix tg st i).2 := by
  by_cases hi : i < st.length
  · obtain ⟨-, hskel, hcac⟩ := read_correct tg st hc st.length le_rfl i (wf_rooted h i hi)
    exact ⟨wf_congr st _ hskel.1 (fun x => (hskel.2 x).1) (fun x => (hskel.2 x).2.1) h, hcac⟩
  · have hnone : st[i]? = none := List.getElem?_eq_none (by omega)
    have heq : (Transform.GetWorldMatrix tg st i).2 = st := by
      unfold Transform.GetWorldMatrix
      cases hl : st.length with
      | zero => rfl
      | succ m => rw [Transform.getWorldF_succ_missing tg st m hnone]
    rw [heq]
    exact ⟨h, hc⟩

theorem applyTOp_preserves (tg : Trig) (op : TOp) (st : TState)
    (h : Wf st) (hc : CacheOK tg st) :
    Wf (applyTOp tg op st) ∧ CacheOK tg (applyTOp tg op st) := by
  cases op with
  | setPos i v => exact ⟨wf_SetPosition st i v h, cacheOK_SetPosition tg st i v hc⟩
  | rot i v => exact ⟨wf_Rotate st i v h, cacheOK_Rotate tg st i v hc⟩
  | addCh i j => exact ⟨wf_AddChild st i j h, cacheOK_AddChild tg st i j hc⟩
  | readWorld i => exact read_preserves tg st i h hc

theorem applyTOps_preserves (tg : Trig) (ops : List TOp) (st : TState)
    (h : Wf st) (hc : CacheOK tg st) :
    Wf (applyTOps tg ops st) ∧ CacheOK tg (applyTOps tg ops st) := by
  induction ops generalizing st with
  | nil => exact ⟨h, hc⟩
  | cons op ops ih =>
    have hstep := applyTOp_preserves tg op st h hc
    exact ih (applyTOp tg op st) hstep.1 hstep.2

/-- C1: for every Transform node and every finite sequence of `SetPosition`,
`Rotate` and `AddChild` calls (with world-matrix reads freely interleaved)
applied anywhere in a well-formed hierarchy whose caches are valid, a
subsequent `GetWorldMatrix` read of any node returns exactly the composition
of the node's local matrix — scale, then rotate, then translate — with the
world matrix of its parent chain (identity for a root), computed from the
post-mutation state: no read ever observes a stale cache, including reads on
descendants of mutated nodes. -/
theorem transform_world_read_correct (tg : Trig) (ops : List TOp) (st₀ : TState)
    (hwf : Wf st₀) (hc : CacheOK tg st₀) :
    ∀ i nd, (applyTOps tg ops st₀)[i]? = some nd →
      (Transform.GetWorldMatrix tg (applyTOps tg ops st₀) i).1 =
        scaleMat nd.scale * rotMat tg nd.rotation * transMat nd.position *
          nd.parent.elim 1
            (fun p => worldF tg (applyTOps tg ops st₀) (applyTOps tg ops st₀).length p) := by
  obtain ⟨hwf', hc'⟩ := applyTOps_preserves tg ops st₀ hwf hc
  intro i nd hnd
  set s := applyTOps tg ops st₀ with hs
  have hilt : i < s.length := by
    by_contra hlt
    push_neg at hlt
    rw [List.getElem?_eq_none hlt] at hnd
    exact Option.noConfusion hnd
  have hrooted : rootedF s s.length i = true := wf_rooted hwf' i hilt
  obtain ⟨hval, -, -⟩ := read_correct tg s hc' s.length le_rfl i hrooted
  rw [Transform.GetWorldMatrix, hval]
  obtain ⟨m, hm⟩ : ∃ m, s.length = m + 1 := ⟨s.length - 1, by omega⟩
  cases hpp : nd.parent with
  | none =>
    rw [hm, worldF_succ_root tg s m hnd hpp]
    rfl
  | some p =>
    have hpof : parentOf s i = some p := by rw [parentOf_eq_of_getElem? hnd, hpp]
    have hrp : rootedF s m p = true := by
      rw [hm] at hrooted
      rwa [rootedF_succ_some s m hpof] at hrooted
    have hstab : worldF tg s (m + 1) p = worldF tg s m p :=
      worldF_stable tg s m p hrp (m + 1) (by omega)
    rw [hm, worldF_succ_some tg s m hnd hpp]
    dsimp only [Option.elim]
    rw [hstab]
    rfl

/-- Witness for C1: one node, one `SetPosition`, read back. -/
theorem transform_world_read_correct_witness :
    Wf [mkTransform] ∧ CacheOK trivTrig [mkTransform] ∧
    (Transform.GetWorldMatrix trivTrig
        (applyTOps trivTrig [TOp.setPos 0 ⟨1, 2, 3⟩] [mkTransform]) 0).1 =
      scaleMat ⟨1, 1, 1⟩ * rotMat trivTrig ⟨0, 0, 0⟩ * transMat ⟨1, 2, 3⟩ * 1 :=
  ⟨by decide, by decide,
    transform_world_read_correct trivTrig [TOp.setPos 0 ⟨1, 2, 3⟩] [mkTransform]
      (by decide) (by decide) 0 ⟨⟨1, 2, 3⟩, ⟨0, 0, 0⟩, ⟨1, 1, 1⟩, none, [], true, 1⟩
      (by decide)⟩

theorem childrenOf_eq_nil_of_ge (st : TState) (x : ℕ) (hx : st.length ≤ x) :
    childrenOf st x = [] := by
  simp [childrenOf, List.getElem?_eq_none hx]

theorem length_AddChild (st : TState) (i j : ℕ) :
    (Transform.AddChild st i j).length = st.length := by
  cases hi : st[i]? with
  | none =>
    rw [Transform.AddChild, hi]
  | some ni =>
    cases hj : st[j]? with
    | none => rw [Transform.AddChild, hi, hj]
    | some nj =>
      by_cases hguard : j ∈ ni.children ∨ j ∈ chainSelfF st st.length i
      · rw [Transform.AddChild, hi, hj]
        dsimp only
        rw [if_pos hguard]
      · rw [AddChild_eq_of_attach st hi hj hguard, length_markSubtreeDirty,
          length_attachStep]

/-- C2: `AddChild` is a silent no-op (state unchanged) when `node` is already
a child of `self` or `node` is an ancestor of `self` (inclusively, preventing
any parent/child cycle — well-formedness, including acyclicity, is always
preserved); otherwise it detaches `node` from any prior parent (afterwards no
node other than `self` has `node` in its child list), appends `node` to
`self`'s child list, sets `node`'s parent to `self`, and marks `node`
dirty. -/
theorem AddChild_spec (st : TState) (i j : ℕ) (hwf : Wf st)
    (ni nj : TNode) (hi : st[i]? = some ni) (hj : st[j]? = some nj) :
    ((j ∈ childrenOf st i ∨ j ∈ chainSelfF st st.length i) →
      Transform.AddChild st i j = st) ∧
    (¬(j ∈ childrenOf st i ∨ j ∈ chainSelfF st st.length i) →
      childrenOf (Transform.AddChild st i j) i = childrenOf st i ++ [j] ∧
      parentOf (Transform.AddChild st i j) j = some i ∧
      dirtyOf (Transform.AddChild st i j) j = true ∧
      (∀ x, x ≠ i → j ∉ childrenOf (Transform.AddChild st i j) x)) ∧
    Wf (Transform.AddChild st i j) := by
  have hchi : childrenOf st i = ni.children := childrenOf_eq_of_getElem? hi
  refine ⟨?_, ?_, wf_AddChild st i j hwf⟩
  · intro hguard
    rw [Transform.AddChild, hi, hj]
    dsimp only
    rw [if_pos (by rwa [hchi] at hguard)]
  · intro hguard
    have hguard' : ¬(j ∈ ni.children ∨ j ∈ chainSelfF st st.length i) := by
      rwa [hchi] at hguard
    push_neg at hguard
    obtain ⟨hgc, hga⟩ := hguard
    have hilt : i < st.length := by
      by_contra hlt
      push_neg at hlt
      rw [List.getElem?_eq_none hlt] at hi
      exact Option.noConfusion hi
    have hjlt : j < st.length := by
      by_contra hlt
      push_neg at hlt
      rw [List.getElem?_eq_none hlt] at hj
      exact Option.noConfusion hj
    have hij : i ≠ j := by
      intro he
      apply hga
      rw [← he]
      exact List.mem_cons_self i _
    have hpj : parentOf st j = nj.parent := parentOf_eq_of_getElem? hj
    have hqi' : ∀ q, nj.parent = some q → q ≠ i := by
      intro q hq he
      apply hgc
      have hpar : parentOf st j = some i := by rw [hpj, hq, he]
      exact (wf_consist hwf i hilt j hjlt).2 hpar
    rw [AddChild_eq_of_attach st hi hj hguard']
    have hpar : parentOf (markSubtreeDirty (attachStep st i j) j) j = some i := by
      rw [parentOf_markSubtreeDirty]
      exact parentOf_attachStep_self st i hj
    refine ⟨?_, hpar, ?_, ?_⟩
    · rw [childrenOf_markSubtreeDirty]
      rw [childrenOf_attachStep_self st hi hj hij hqi', hchi]
    · rw [dirtyOf_markSubtreeDirty]
      rw [if_pos (show j ∈ chainSelfF (attachStep st i j) (attachStep st i j).length j from
        List.mem_cons_self j _)]
    · intro x hxi hmem
      have hwfA : Wf (markSubtreeDirty (attachStep st i j) j) := by
        have := wf_AddChild st i j hwf
        rwa [AddChild_eq_of_attach st hi hj hguard'] at this
      have hlenA : (markSubtreeDirty (attachStep st i j) j).length = st.length := by
        rw [length_markSubtreeDirty, length_attachStep]
      by_cases hxlt : x < st.length
      · have := (wf_consist hwfA x (by omega) j (by omega)).1 hmem
        rw [hpar] at this  
        exact hxi (Option.some.inj this).symm
      · rw [childrenOf_eq_nil_of_ge _ x (by omega)] at hmem
        exact List.not_mem_nil j hmem

/-- Witness for C2 on a three-node forest: node 1 is a child of node 0,
node 2 is a root. -/
theorem AddChild_spec_witness :
    Wf [{ mkTransform with children := [1] }, { mkTransform with parent := some 0 },
      mkTransform] ∧
    (([{ mkTransform with children := [1] }, { mkTransform with parent := some 0 },
      mkTransform] : TState)[0]? = some { mkTransform with children := [1] }) ∧
    ((1 ∈ childrenOf [{ mkTransform with children := [1] },
        { mkTransform with parent := some 0 }, mkTransform] 0 ∨
      1 ∈ chainSelfF [{ mkTransform with children := [1] },
        { mkTransform with parent := some 0 }, mkTransform] 3 0) →
      Transform.AddChild [{ mkTransform with children := [1] },
        { mkTransform with parent := some 0 }, mkTransform] 0 1 =
        [{ mkTransform with children := [1] }, { mkTransform with parent := some 0 },
          mkTransform]) := by
  refine ⟨by decide, by decide, ?_⟩
  have h := AddChild_spec [{ mkTransform with children := [1] },
    { mkTransform with parent := some 0 }, mkTransform] 0 1 (by decide)
    { mkTransform with children := [1] } { mkTransform with parent := some 0 }
    (by decide) (by decide)
  exact h.1

/-! Component lemmas for `removeStep` and the removing `RemoveChild` branch. -/

theorem RemoveChild_eq_of_mem (st : TState) {i j : ℕ} {ni : TNode}
    (hi : st[i]? = some ni) (hmem : j ∈ ni.children) :
    Transform.RemoveChild st i j = markSubtreeDirty (removeStep st i j) j := by
  rw [Transform.RemoveChild, hi]
  dsimp only
  rw [if_pos hmem]
  rfl

theorem RemoveChild_eq_of_not_mem (st : TState) {i j : ℕ} {ni : TNode}
    (hi : st[i]? = some ni) (hmem : j ∉ ni.children) :
    Transform.RemoveChild st i j = st := by
  rw [Transform.RemoveChild, hi]
  dsimp only
  rw [if_neg hmem]

theorem length_removeStep (st : TState) (i j : ℕ) :
    (removeStep st i j).length = st.length := by
  simp [removeStep]

theorem isSome_removeStep (st : TState) (i j x : ℕ) :
    ((removeStep st i j)[x]?).isSome = (st[x]?).isSome := by
  simp [removeStep, isSome_updN]

theorem parentOf_removeStep_ne (st : TState) (i j x : ℕ) (hx : x ≠ j) :
    parentOf (removeStep st i j) x = parentOf st x := by
  unfold removeStep
  rw [parentOf_updN_ne _ j x (fun n => { n with parent := none }) (fun h => hx h.symm),
    parentOf_updN_of _ i x (fun n => { n with children := n.children.erase j })
      (fun _ => rfl)]

theorem parentOf_removeStep_self (st : TState) (i j : ℕ) :
    parentOf (removeStep st i j) j = none := by
  unfold removeStep
  cases hj : (updN st i fun n => { n with children := n.children.erase j })[j]? with
  | none => simp [parentOf, getElem?_updN, hj]
  | some nd => simp [parentOf, getElem?_updN, hj]

theorem childrenOf_removeStep_self (st : TState) (i j : ℕ) :
    childrenOf (removeStep st i j) i = (childrenOf st i).erase j := by
  unfold removeStep
  rw [childrenOf_updN_of _ j i (fun n => { n with parent := none }) (fun _ => rfl)]
  exact childrenOf_updN_erase st i j

theorem childrenOf_removeStep_ne (st : TState) (i j x : ℕ) (hx : x ≠ i) :
    childrenOf (removeStep st i j) x = childrenOf st x := by
  unfold removeStep
  rw [childrenOf_updN_of _ j x (fun n => { n with parent := none }) (fun _ => rfl),
    childrenOf_updN_ne _ i x (fun n => { n with children := n.children.erase j })
      (fun h => hx h.symm)]

/-! Transport between `hProj` equality and accessor equalities. -/

theorem getElem?_hProj (st : TState) (x : ℕ) :
    (hProj st)[x]? = (st[x]?).map fun nd => (nd.parent, nd.children) := by
  simp [hProj]

theorem hProj_parentOf {st t : TState} (h : hProj st = hProj t) (x : ℕ) :
    parentOf st x = parentOf t x := by
  have hx : (st[x]?).map (fun nd => (nd.parent, nd.children)) =
      (t[x]?).map fun nd => (nd.parent, nd.children) := by
    rw [← getElem?_hProj, ← getElem?_hProj, h]
  cases hst : st[x]? with
  | none =>
    cases ht : t[x]? with
    | none => simp [parentOf, hst, ht]
    | some nd' => rw [hst, ht] at hx; exact Option.noConfusion hx
  | some nd =>
    cases ht : t[x]? with
    | none => rw [hst, ht] at hx; exact Option.noConfusion hx
    | some nd' =>
      rw [hst, ht] at hx
      injection hx with hx'
      rw [parentOf_eq_of_getElem? hst, parentOf_eq_of_getElem? ht]
      exact congrArg Prod.fst hx'

theorem hProj_ext {st t : TState} (hlen : st.length = t.length)
    (hsome : ∀ x : ℕ, (st[x]?).isSome = (t[x]?).isSome)
    (hp : ∀ x, parentOf st x = parentOf t x)
    (hc : ∀ x, childrenOf st x = childrenOf t x) : hProj st = hProj t := by
  apply List.ext_getElem?
  intro x
  rw [getElem?_hProj, getElem?_hProj]
  cases hst : st[x]? with
  | none =>
    cases ht : t[x]? with
    | none => rfl
    | some nd' =>
      have := hsome x
      rw [hst, ht] at this
      exact absurd this (by simp)
  | some nd =>
    cases ht : t[x]? with
    | none =>
      have := hsome x
      rw [hst, ht] at this
      exact absurd this (by simp)
    | some nd' =>
      have h1 : nd.parent = nd'.parent := by
        rw [← parentOf_eq_of_getElem? hst, ← parentOf_eq_of_getElem? ht, hp]
      have h2 : nd.children = nd'.children := by
        rw [← childrenOf_eq_of_getElem? hst, ← childrenOf_eq_of_getElem? ht, hc]
      simp [h1, h2]

/-! Claim: the `AddChild` / `RemoveChild` round-trip. -/

/-- C7 counterexample: the round-trip does not restore the pre-call
parent/child state when the node is already a child (it gets detached), nor
when the node had a different prior parent (it ends up parentless). -/
theorem roundtrip_counterexample :
    hProj (Transform.RemoveChild (Transform.AddChild forest3 0 1) 0 1) ≠ hProj forest3 ∧
    hProj (Transform.RemoveChild (Transform.AddChild forest3 2 1) 2 1) ≠ hProj forest3 := by
  decide

/-- C7 (amended): for well-formed forests, `AddChild(node)` immediately
followed by `RemoveChild(node)` on the same pair restores the pre-call
parent/child state exactly if and only if `node` had no parent before the
call, or `node` is `self` or an ancestor of `self` (the no-op cases).  When
`node` was already a child of `self`, the round-trip detaches it; when
`node` had a different prior parent, the round-trip leaves it parentless. -/
theorem AddChild_RemoveChild_roundtrip (st : TState) (i j : ℕ) (hwf : Wf st)
    (ni nj : TNode) (hi : st[i]? = some ni) (hj : st[j]? = some nj) :
    hProj (Transform.RemoveChild (Transform.AddChild st i j) i j) = hProj st ↔
      (nj.parent = none ∨ j ∈ chainSelfF st st.length i) := by
  have hchi : childrenOf st i = ni.children := childrenOf_eq_of_getElem? hi
  have hpj : parentOf st j = nj.parent := parentOf_eq_of_getElem? hj
  have hilt : i < st.length := by
    by_contra hlt
    push_neg at hlt
    rw [List.getElem?_eq_none hlt] at hi
    exact Option.noConfusion hi
  have hjlt : j < st.length := by
    by_contra hlt
    push_neg at hlt
    rw [List.getElem?_eq_none hlt] at hj
    exact Option.noConfusion hj
  by_cases hmemc : j ∈ ni.children
  · -- already a child: AddChild is a no-op, RemoveChild detaches
    have hAC : Transform.AddChild st i j = st := by
      rw [Transform.AddChild, hi, hj]
      dsimp only
      rw [if_pos (Or.inl hmemc)]
    rw [hAC, RemoveChild_eq_of_mem st hi hmemc]
    have hparj : parentOf st j = some i :=
      (wf_consist hwf i hilt j hjlt).1 (by rwa [hchi])
    refine iff_of_false ?_ ?_
    · intro heq
      have := hProj_parentOf heq j
      rw [parentOf_markSubtreeDirty, parentOf_removeStep_self, hparj] at this
      exact Option.noConfusion this
    · rintro (hnone | hchain)
      · rw [hpj, hnone] at hparj
        exact Option.noConfusion hparj
      · rcases List.mem_cons.1 hchain with rfl | hmem'
        · have : Anc st j j := Anc.base hparj
          have hf := not_rooted_of_anc_self st st.length j this
          have hr := wf_rooted hwf j hjlt
          rw [hf] at hr
          exact Bool.noConfusion hr
        · have h1 : Anc st j i := anc_of_mem_ancF st st.length i j hmem'
          have h2 : Anc st i j := Anc.base hparj
          have : Anc st j j := anc_trans st h1 h2
          have hf := not_rooted_of_anc_self st st.length j this
          have hr := wf_rooted hwf j hjlt
          rw [hf] at hr
          exact Bool.noConfusion hr
  · by_cases hanc : j ∈ chainSelfF st st.length i
    · -- ancestor (or self): both calls are no-ops
      have hAC : Transform.AddChild st i j = st := by
        rw [Transform.AddChild, hi, hj]
        dsimp only
        rw [if_pos (Or.inr hanc)]
      rw [hAC, RemoveChild_eq_of_not_mem st hi hmemc]
      exact iff_of_true rfl (Or.inr hanc)
    · -- the attach actually happens
      have hguard' : ¬(j ∈ ni.children ∨ j ∈ chainSelfF st st.length i) := by
        rintro (h | h)
        · exact hmemc h
        · exact hanc h
      have hij : i ≠ j := by
        intro he
        apply hanc
        rw [← he]
        exact List.mem_cons_self i _
      have hqi' : ∀ q, nj.parent = some q → q ≠ i := by
        intro q hq he
        apply hmemc
        have hpar : parentOf st j = some i := by rw [hpj, hq, he]
        have := (wf_consist hwf i hilt j hjlt).2 hpar
        rwa [hchi] at this
      rw [AddChild_eq_of_attach st hi hj hguard']
      set AC := markSubtreeDirty (attachStep st i j) j with hACdef
      have hchAC : childrenOf AC i = childrenOf st i ++ [j] := by
        rw [hACdef, childrenOf_markSubtreeDirty,
          childrenOf_attachStep_self st hi hj hij hqi']
      have hACi : ∃ ni', AC[i]? = some ni' := by
        have : (AC[i]?).isSome = true := by
          rw [hACdef, isSome_markSubtreeDirty, isSome_attachStep, hi]
          rfl
        exact Option.isSome_iff_exists.1 this
      obtain ⟨ni', hni'⟩ := hACi
      have hmemAC : j ∈ ni'.children := by
        have : j ∈ childrenOf AC i := by
          rw [hchAC]
          exact List.mem_append.2 (Or.inr (List.mem_singleton.2 rfl))
        rwa [childrenOf_eq_of_getElem? hni'] at this
      rw [RemoveChild_eq_of_mem AC hni' hmemAC]
      have hpACne : ∀ x, x ≠ j → parentOf AC x = parentOf st x := by
        intro x hx
        rw [hACdef, parentOf_markSubtreeDirty, parentOf_attachStep_ne st i j x hx]
      cases hqq : nj.parent with
      | none =>
        -- node was a root: the round-trip restores the hierarchy exactly
        refine iff_of_true ?_ (Or.inl rfl)
        refine hProj_ext ?_ ?_ ?_ ?_
        · rw [length_markSubtreeDirty, length_removeStep, hACdef,
            length_markSubtreeDirty, length_attachStep]
        · intro x
          rw [isSome_markSubtreeDirty, isSome_removeStep, hACdef,
            isSome_markSubtreeDirty, isSome_attachStep]
        · intro x
          by_cases hx : x = j
          · rw [hx, parentOf_markSubtreeDirty, parentOf_removeStep_self, hpj, hqq]
          · rw [parentOf_markSubtreeDirty, parentOf_removeStep_ne _ _ _ x hx,
              hpACne x hx]
        · intro x
          by_cases hx : x = i
          · rw [hx, childrenOf_markSubtreeDirty, childrenOf_removeStep_self, hchAC]
            rw [List.erase_append_right _ (by rwa [hchi])]
            simp
          · rw [childrenOf_markSubtreeDirty, childrenOf_removeStep_ne _ _ _ x hx,
              hACdef, childrenOf_markSubtreeDirty,
              childrenOf_attachStep_other st hj x hx
                (fun q hq => by rw [hqq] at hq; exact Option.noConfusion hq)]
      | some q =>
        -- node had a prior parent: it ends parentless, so nothing is restored
        refine iff_of_false ?_ ?_
        · intro heq
          have := hProj_parentOf heq j
          rw [parentOf_markSubtreeDirty, parentOf_removeStep_self, hpj, hqq] at this
          exact Option.noConfusion this
        · rintro (hnone | hchain)
          · exact Option.noConfusion hnone
          · exact hanc hchain

/-- Witness for C7 at a concrete no-op-free input: node 2 is a root, so the
round-trip with parent node 0 restores the hierarchy. -/
theorem AddChild_RemoveChild_roundtrip_witness :
    Wf forest3 ∧
    (hProj (Transform.RemoveChild (Transform.AddChild forest3 0 2) 0 2) = hProj forest3 ↔
      (mkTransform.parent = none ∨ 2 ∈ chainSelfF forest3 forest3.length 0)) :=
  ⟨by decide,
    AddChild_RemoveChild_roundtrip forest3 0 2 (by decide)
      { mkTransform with children := [1] } mkTransform (by decide) (by decide)⟩

/-! Accessor lemmas for the local-value Transform operations. -/
theorem parentOf_SetPosition (st : TState) (i : ℕ) (v : V3) (x : ℕ) :
    parentOf (Transform.SetPosition st i v) x = parentOf st x := by
  rw [Transform.SetPosition]
  cases hi : st[i]? with
  | none => rfl
  | some ni =>
    dsimp only
    rw [parentOf_markSubtreeDirty, parentOf_updN_of st i x (fun nd => { nd with position := v }) (fun _ => rfl)]

theorem childrenOf_SetPosition (st : TState) (i : ℕ) (v : V3) (x : ℕ) :
    childrenOf (Transform.SetPosition st i v) x = childrenOf st x := by
  rw [Transform.SetPosition]
  cases hi : st[i]? with
  | none => rfl
  | some ni =>
    dsimp only
    rw [childrenOf_markSubtreeDirty, childrenOf_updN_of st i x (fun nd => { nd with position := v }) (fun _ => rfl)]

theorem rotationOf_SetPosition (st : TState) (i : ℕ) (v : V3) (x : ℕ) :
    rotationOf (Transform.SetPosition st i v) x = rotationOf st x := by
  rw [Transform.SetPosition]
  cases hi : st[i]? with
  | none => rfl
  | some ni =>
    dsimp only
    rw [rotationOf_markSubtreeDirty, rotationOf_updN_of st i x (fun nd => { nd with position := v }) (fun _ => rfl)]

theorem scaleOf_SetPosition (st : TState) (i : ℕ) (v : V3) (x : ℕ) :
    scaleOf (Transform.SetPosition st i v) x = scaleOf st x := by
  rw [Transform.SetPosition]
  cases hi : st[i]? with
  | none => rfl
  | some ni =>
    dsimp only
    rw [scaleOf_markSubtreeDirty, scaleOf_updN_of st i x (fun nd => { nd with position := v }) (fun _ => rfl)]

theorem length_SetPosition (st : TState) (i : ℕ) (v : V3) :
    (Transform.SetPosition st i v).length = st.length := by
  rw [Transform.SetPosition]
  cases st[i]? with
  | none => rfl
  | some ni =>
    dsimp only
    rw [length_markSubtreeDirty, length_updN]

theorem isSome_SetPosition (st : TState) (i : ℕ) (v : V3) (x : ℕ) :
    ((Transform.SetPosition st i v)[x]?).isSome = (st[x]?).isSome := by
  rw [Transform.SetPosition]
  cases st[i]? with
  | none => rfl
  | some ni =>
    dsimp only
    rw [isSome_markSubtreeDirty, isSome_updN]

theorem parentOf_SetRotation (st : TState) (i : ℕ) (v : V3) (x : ℕ) :
    parentOf (Transform.SetRotation st i v) x = parentOf st x := by
  rw [Transform.SetRotation]
  cases hi : st[i]? with
  | none => rfl
  | some ni =>
    dsimp only
    rw [parentOf_markSubtreeDirty, parentOf_updN_of st i x (fun nd => { nd with rotation := v }) (fun _ => rfl)]

theorem childrenOf_SetRotation (st : TState) (i : ℕ) (v : V3) (x : ℕ) :
    childrenOf (Transform.SetRotation st i v) x = childrenOf st x := by
  rw [Transform.SetRotation]
  cases hi : st[i]? with
  | none => rfl
  | some ni =>
    dsimp only
    rw [childrenOf_markSubtreeDirty, childrenOf_updN_of st i x (fun nd => { nd with rotation := v }) (fun _ => rfl)]

theorem positionOf_SetRotation (st : TState) (i : ℕ) (v : V3) (x : ℕ) :
    positionOf (Transform.SetRotation st i v) x = positionOf st x := by
  rw [Transform.SetRotation]
  cases hi : st[i]? with
  | none => rfl
  | some ni =>
    dsimp only
    rw [positionOf_markSubtreeDirty, positionOf_updN_of st i x (fun nd => { nd with rotation := v }) (fun _ => rfl)]

theorem scaleOf_SetRotation (st : TState) (i : ℕ) (v : V3) (x : ℕ) :
    scaleOf (Transform.SetRotation st i v) x = scaleOf st x := by
  rw [Transform.SetRotation]
  cases hi : st[i]? with
  | none => rfl
  | some ni =>
    dsimp only
    rw [scaleOf_markSubtreeDirty, scaleOf_updN_of st i x (fun nd => { nd with rotation := v }) (fun _ => rfl)]

theorem length_SetRotation (st : TState) (i : ℕ) (v : V3) :
    (Transform.SetRotation st i v).length = st.length := by
  rw [Transform.SetRotation]
  cases st[i]? with
  | none => rfl
  | some ni =>
    dsimp only
    rw [length_markSubtreeDirty, length_updN]

theorem isSome_SetRotation (st : TState) (i : ℕ) (v : V3) (x : ℕ) :
    ((Transform.SetRotation st i v)[x]?).isSome = (st[x]?).isSome := by
  rw [Transform.SetRotation]
  cases st[i]? with
  | none => rfl
  | some ni =>
    dsimp only
    rw [isSome_markSubtreeDirty, isSome_updN]

theorem parentOf_SetScale (st : TState) (i : ℕ) (v : V3) (x : ℕ) :
    parentOf (Transform.SetScale st i v) x = parentOf st x := by
  rw [Transform.SetScale]
  cases hi : st[i]? with
  | none => rfl
  | some ni =>
    dsimp only
    rw [parentOf_markSubtreeDirty, parentOf_updN_of st i x (fun nd => { nd with scale := v }) (fun _ => rfl)]

theorem childrenOf_SetScale (st : TState) (i : ℕ) (v : V3) (x : ℕ) :
    childrenOf (Transform.SetScale st i v) x = childrenOf st x := by
  rw [Transform.SetScale]
  cases hi : st[i]? with
  | none => rfl
  | some ni =>
    dsimp only
    rw [childrenOf_markSubtreeDirty, childrenOf_updN_of st i x (fun nd => { nd with scale := v }) (fun _ => rfl)]

theorem positionOf_SetScale (st : TState) (i : ℕ) (v : V3) (x : ℕ) :
    positionOf (Transform.SetScale st i v) x = positionOf st x := by
  rw [Transform.SetScale]
  cases hi : st[i]? with
  | none => rfl
  | some ni =>
    dsimp only
    rw [positionOf_markSubtreeDirty, positionOf_updN_of st i x (fun nd => { nd with scale := v }) (fun _ => rfl)]

theorem rotationOf_SetScale (st : TState) (i : ℕ) (v : V3) (x : ℕ) :
    rotationOf (Transform.SetScale st i v) x = rotationOf st x := by
  rw [Transform.SetScale]
  cases hi : st[i]? with
  | none => rfl
  | some ni =>
    dsimp only
    rw [rotationOf_markSubtreeDirty, rotationOf_updN_of st i x (fun nd => { nd with scale := v }) (fun _ => rfl)]

theorem length_SetScale (st : TState) (i : ℕ) (v : V3) :
    (Transform.SetScale st i v).length = st.length := by
  rw [Transform.SetScale]
  cases st[i]? with
  | none => rfl
  | some ni =>
    dsimp only
    rw [length_markSubtreeDirty, length_updN]

theorem isSome_SetScale (st : TState) (i : ℕ) (v : V3) (x : ℕ) :
    ((Transform.SetScale st i v)[x]?).isSome = (st[x]?).isSome := by
  rw [Transform.SetScale]
  cases st[i]? with
  | none => rfl
  | some ni =>
    dsimp only
    rw [isSome_markSubtreeDirty, isSome_updN]

theorem parentOf_Rotate (st : TState) (i : ℕ) (v : V3) (x : ℕ) :
    parentOf (Transform.Rotate st i v) x = parentOf st x := by
  rw [Transform.Rotate]
  cases hi : st[i]? with
  | none => rfl
  | some ni =>
    dsimp only
    rw [parentOf_markSubtreeDirty, parentOf_updN_of st i x (fun nd => { nd with rotation := nd.rotation + v }) (fun _ => rfl)]

theorem childrenOf_Rotate (st : TState) (i : ℕ) (v : V3) (x : ℕ) :
    childrenOf (Transform.Rotate st i v) x = childrenOf st x := by
  rw [Transform.Rotate]
  cases hi : st[i]? with
  | none => rfl
  | some ni =>
    dsimp only
    rw [childrenOf_markSubtreeDirty, childrenOf_updN_of st i x (fun nd => { nd with rotation := nd.rotation + v }) (fun _ => rfl)]

theorem positionOf_Rotate (st : TState) (i : ℕ) (v : V3) (x : ℕ) :
    positionOf (Transform.Rotate st i v) x = positionOf st x := by
  rw [Transform.Rotate]
  cases hi : st[i]? with
  | none => rfl
  | some ni =>
    dsimp only
    rw [positionOf_markSubtreeDirty, positionOf_updN_of st i x (fun nd => { nd with rotation := nd.rotation + v }) (fun _ => rfl)]

theorem scaleOf_Rotate (st : TState) (i : ℕ) (v : V3) (x : ℕ) :
    scaleOf (Transform.Rotate st i v) x = scaleOf st x := by
  rw [Transform.Rotate]
  cases hi : st[i]? with
  | none => rfl
  | some ni =>
    dsimp only
    rw [scaleOf_markSubtreeDirty, scaleOf_updN_of st i x (fun nd => { nd with rotation := nd.rotation + v }) (fun _ => rfl)]

theorem length_Rotate (st : TState) (i : ℕ) (v : V3) :
    (Transform.Rotate st i v).length = st.length := by
  rw [Transform.Rotate]
  cases st[i]? with
  | none => rfl
  | some ni =>
    dsimp only
    rw [length_markSubtreeDirty, length_updN]

theorem isSome_Rotate (st : TState) (i : ℕ) (v : V3) (x : ℕ) :
    ((Transform.Rotate st i v)[x]?).isSome = (st[x]?).isSome := by
  rw [Transform.Rotate]
  cases st[i]? with
  | none => rfl
  | some ni =>
    dsimp only
    rw [isSome_markSubtreeDirty, isSome_updN]

theorem parentOf_MoveAbsolute (st : TState) (i : ℕ) (v : V3) (x : ℕ) :
    parentOf (Transform.MoveAbsolute st i v) x = parentOf st x := by
  rw [Transform.MoveAbsolute]
  cases hi : st[i]? with
  | none => rfl
  | some ni =>
    dsimp only
    rw [parentOf_markSubtreeDirty, parentOf_updN_of st i x (fun nd => { nd with position := nd.position + v }) (fun _ => rfl)]

theorem childrenOf_MoveAbsolute (st : TState) (i : ℕ) (v : V3) (x : ℕ) :
    childrenOf (Transform.MoveAbsolute st i v) x = childrenOf st x := by
  rw [Transform.MoveAbsolute]
  cases hi : st[i]? with
  | none => rfl
  | some ni =>
    dsimp only
    rw [childrenOf_markSubtreeDirty, childrenOf_updN_of st i x (fun nd => { nd with position := nd.position + v }) (fun _ => rfl)]

theorem rotationOf_MoveAbsolute (st : TState) (i : ℕ) (v : V3) (x : ℕ) :
    rotationOf (Transform.MoveAbsolute st i v) x = rotationOf st x := by
  rw [Transform.MoveAbsolute]
  cases hi : st[i]? with
  | none => rfl
  | some ni =>
    dsimp only
    rw [rotationOf_markSubtreeDirty, rotationOf_updN_of st i x (fun nd => { nd with position := nd.position + v }) (fun _ => rfl)]

theorem scaleOf_MoveAbsolute (st : TState) (i : ℕ) (v : V3) (x : ℕ) :
    scaleOf (Transform.MoveAbsolute st i v) x = scaleOf st x := by
  rw [Transform.MoveAbsolute]
  cases hi : st[i]? with
  | none => rfl
  | some ni =>
    dsimp only
    rw [scaleOf_markSubtreeDirty, scaleOf_updN_of st i x (fun nd => { nd with position := nd.position + v }) (fun _ => rfl)]

theorem length_MoveAbsolute (st : TState) (i : ℕ) (v : V3) :
    (Transform.MoveAbsolute st i v).length = st.length := by
  rw [Transform.MoveAbsolute]
  cases st[i]? with
  | none => rfl
  | some ni =>
    dsimp only
    rw [length_markSubtreeDirty, length_updN]

theorem isSome_MoveAbsolute (st : TState) (i : ℕ) (v : V3) (x : ℕ) :
    ((Transform.MoveAbsolute st i v)[x]?).isSome = (st[x]?).isSome := by
  rw [Transform.MoveAbsolute]
  cases st[i]? with
  | none => rfl
  | some ni =>
    dsimp only
    rw [isSome_markSubtreeDirty, isSome_updN]

theorem positionOf_SetPosition_self (st : TState) {i : ℕ} {ni : TNode} (v : V3)
    (hi : st[i]? = some ni) :
    positionOf (Transform.SetPosition st i v) i = v := by
  rw [Transform.SetPosition, hi]
  dsimp only
  rw [positionOf_markSubtreeDirty]
  simp [positionOf, getElem?_updN, hi, positionOf_eq_of_getElem? hi]

theorem rotationOf_SetRotation_self (st : TState) {i : ℕ} {ni : TNode} (v : V3)
    (hi : st[i]? = some ni) :
    rotationOf (Transform.SetRotation st i v) i = v := by
  rw [Transform.SetRotation, hi]
  dsimp only
  rw [rotationOf_markSubtreeDirty]
  simp [rotationOf, getElem?_updN, hi, rotationOf_eq_of_getElem? hi]

theorem scaleOf_SetScale_self (st : TState) {i : ℕ} {ni : TNode} (v : V3)
    (hi : st[i]? = some ni) :
    scaleOf (Transform.SetScale st i v) i = v := by
  rw [Transform.SetScale, hi]
  dsimp only
  rw [scaleOf_markSubtreeDirty]
  simp [scaleOf, getElem?_updN, hi, scaleOf_eq_of_getElem? hi]

theorem rotationOf_Rotate_self (st : TState) {i : ℕ} {ni : TNode} (v : V3)
    (hi : st[i]? = some ni) :
    rotationOf (Transform.Rotate st i v) i = rotationOf st i + v := by
  rw [Transform.Rotate, hi]
  dsimp only
  rw [rotationOf_markSubtreeDirty]
  simp [rotationOf, getElem?_updN, hi, rotationOf_eq_of_getElem? hi]

theorem positionOf_MoveAbsolute_self (st : TState) {i : ℕ} {ni : TNode} (v : V3)
    (hi : st[i]? = some ni) :
    positionOf (Transform.MoveAbsolute st i v) i = positionOf st i + v := by
  rw [Transform.MoveAbsolute, hi]
  dsimp only
  rw [positionOf_markSubtreeDirty]
  simp [positionOf, getElem?_updN, hi, positionOf_eq_of_getElem? hi]

theorem parentOf_MoveRelative (tg : Trig) (st : TState) (i : ℕ) (v : V3) (x : ℕ) :
    parentOf (Transform.MoveRelative tg st i v) x = parentOf st x := by
  rw [Transform.MoveRelative]
  cases hi : st[i]? with
  | none => rfl
  | some ni =>
    dsimp only
    rw [parentOf_markSubtreeDirty, parentOf_updN_of st i x (fun nd => { nd with position := nd.position + rotateVec tg nd.rotation v }) (fun _ => rfl)]

theorem childrenOf_MoveRelative (tg : Trig) (st : TState) (i : ℕ) (v : V3) (x : ℕ) :
    childrenOf (Transform.MoveRelative tg st i v) x = childrenOf st x := by
  rw [Transform.MoveRelative]
  cases hi : st[i]? with
  | none => rfl
  | some ni =>
    dsimp only
    rw [childrenOf_markSubtreeDirty, childrenOf_updN_of st i x (fun nd => { nd with position := nd.position + rotateVec tg nd.rotation v }) (fun _ => rfl)]

theorem rotationOf_MoveRelative (tg : Trig) (st : TState) (i : ℕ) (v : V3) (x : ℕ) :
    rotationOf (Transform.MoveRelative tg st i v) x = rotationOf st x := by
  rw [Transform.MoveRelative]
  cases hi : st[i]? with
  | none => rfl
  | some ni =>
    dsimp only
    rw [rotationOf_markSubtreeDirty, rotationOf_updN_of st i x (fun nd => { nd with position := nd.position + rotateVec tg nd.rotation v }) (fun _ => rfl)]

theorem scaleOf_MoveRelative (tg : Trig) (st : TState) (i : ℕ) (v : V3) (x : ℕ) :
    scaleOf (Transform.MoveRelative tg st i v) x = scaleOf st x := by
  rw [Transform.MoveRelative]
  cases hi : st[i]? with
  | none => rfl
  | some ni =>
    dsimp only
    rw [scaleOf_markSubtreeDirty, scaleOf_updN_of st i x (fun nd => { nd with position := nd.position + rotateVec tg nd.rotation v }) (fun _ => rfl)]

theorem length_MoveRelative (tg : Trig) (st : TState) (i : ℕ) (v : V3) :
    (Transform.MoveRelative tg st i v).length = st.length := by
  rw [Transform.MoveRelative]
  cases st[i]? with
  | none => rfl
  | some ni =>
    dsimp only
    rw [length_markSubtreeDirty, length_updN]

theorem isSome_MoveRelative (tg : Trig) (st : TState) (i : ℕ) (v : V3) (x : ℕ) :
    ((Transform.MoveRelative tg st i v)[x]?).isSome = (st[x]?).isSome := by
  rw [Transform.MoveRelative]
  cases st[i]? with
  | none => rfl
  | some ni =>
    dsimp only
    rw [isSome_markSubtreeDirty, isSome_updN]

theorem positionOf_MoveRelative_self (tg : Trig) (st : TState) {i : ℕ} {ni : TNode}
    (v : V3) (hi : st[i]? = some ni) :
    positionOf (Transform.MoveRelative tg st i v) i =
      positionOf st i + rotateVec tg (rotationOf st i) v := by
  rw [Transform.MoveRelative, hi]
  dsimp only
  rw [positionOf_markSubtreeDirty]
  simp [positionOf, getElem?_updN, hi, positionOf_eq_of_getElem? hi,
    rotationOf_eq_of_getElem? hi]

theorem positionOf_SetPosition_ne (st : TState) (i : ℕ) (v : V3) (x : ℕ) (hx : x ≠ i) :
    positionOf (Transform.SetPosition st i v) x = positionOf st x := by
  rw [Transform.SetPosition]
  cases st[i]? with
  | none => rfl
  | some ni =>
    dsimp only
    rw [positionOf_markSubtreeDirty]
    simp [positionOf, getElem?_updN_ne st i x (fun nd => { nd with position := v }) (Ne.symm hx)]

theorem rotationOf_SetRotation_ne (st : TState) (i : ℕ) (v : V3) (x : ℕ) (hx : x ≠ i) :
    rotationOf (Transform.SetRotation st i v) x = rotationOf st x := by
  rw [Transform.SetRotation]
  cases st[i]? with
  | none => rfl
  | some ni =>
    dsimp only
    rw [rotationOf_markSubtreeDirty]
    simp [rotationOf, getElem?_updN_ne st i x (fun nd => { nd with rotation := v }) (Ne.symm hx)]

theorem scaleOf_SetScale_ne (st : TState) (i : ℕ) (v : V3) (x : ℕ) (hx : x ≠ i) :
    scaleOf (Transform.SetScale st i v) x = scaleOf st x := by
  rw [Transform.SetScale]
  cases st[i]? with
  | none => rfl
  | some ni =>
    dsimp only
    rw [scaleOf_markSubtreeDirty]
    simp [scaleOf, getElem?_updN_ne st i x (fun nd => { nd with scale := v }) (Ne.symm hx)]

theorem rotationOf_Rotate_ne (st : TState) (i : ℕ) (v : V3) (x : ℕ) (hx : x ≠ i) :
    rotationOf (Transform.Rotate st i v) x = rotationOf st x := by
  rw [Transform.Rotate]
  cases st[i]? with
  | none => rfl
  | some ni =>
    dsimp only
    rw [rotationOf_markSubtreeDirty]
    simp [rotationOf, getElem?_updN_ne st i x (fun nd => { nd with rotation := nd.rotation + v }) (Ne.symm hx)]

theorem positionOf_MoveAbsolute_ne (st : TState) (i : ℕ) (v : V3) (x : ℕ) (hx : x ≠ i) :
    positionOf (Transform.MoveAbsolute st i v) x = positionOf st x := by
  rw [Transform.MoveAbsolute]
  cases st[i]? with
  | none => rfl
  | some ni =>
    dsimp only
    rw [positionOf_markSubtreeDirty]
    simp [positionOf, getElem?_updN_ne st i x (fun nd => { nd with position := nd.position + v }) (Ne.symm hx)]

theorem positionOf_MoveRelative_ne (tg : Trig) (st : TState) (i : ℕ) (v : V3) (x : ℕ) (hx : x ≠ i) :
    positionOf (Transform.MoveRelative tg st i v) x = positionOf st x := by
  rw [Transform.MoveRelative]
  cases st[i]? with
  | none => rfl
  | some ni =>
    dsimp only
    rw [positionOf_markSubtreeDirty]
    simp [positionOf, getElem?_updN_ne st i x (fun nd => { nd with position := nd.position + rotateVec tg nd.rotation v }) (Ne.symm hx)]

/-! Claim: the scripted demo-entity motion of `Game::Update`. -/

theorem GameUpdateScripted_effects (tg : Trig) (st : TState) (interval : ℚ)
    (h0 : (st[0]?).isSome = true) (h1 : (st[1]?).isSome = true)
    (h2 : (st[2]?).isSome = true) (h3 : (st[3]?).isSome = true) :
    (GameUpdateScripted tg st interval).2 =
      (if icast (positionOf st 0).y = 2 ∨ icast (positionOf st 0).y = -2
        then -interval else interval) ∧
    positionOf (GameUpdateScripted tg st interval).1 0 =
      positionOf st 0 + rotateVec tg (rotationOf st 0) ⟨1/1000, 0, 0⟩ +
        ⟨0, (GameUpdateScripted tg st interval).2, 0⟩ ∧
    rotationOf (GameUpdateScripted tg st interval).1 0 =
      rotationOf st 0 + ⟨0, 1/200, 0⟩ ∧
    rotationOf (GameUpdateScripted tg st interval).1 1 =
      rotationOf st 1 + ⟨0, 1/50, 0⟩ ∧
    rotationOf (GameUpdateScripted tg st interval).1 2 =
      rotationOf st 2 + ⟨0, 1/100, 0⟩ ∧
    rotationOf (GameUpdateScripted tg st interval).1 3 =
      rotationOf st 3 + ⟨1/50, 0, 0⟩ ∧
    (∀ x : ℕ, (((GameUpdateScripted tg st interval).1)[x]?).isSome = (st[x]?).isSome) := by
  have hiv : (GameUpdateScripted tg st interval).2 =
      (if icast (positionOf st 0).y = 2 ∨ icast (positionOf st 0).y = -2
        then -interval else interval) := by
    rw [GameUpdateScripted]
    rfl
  set iv := (GameUpdateScripted tg st interval).2 with hivdef
  set st1 := Transform.MoveRelative tg st 0 (⟨1/1000, 0, 0⟩ : V3) with hst1
  set st2 := Transform.MoveAbsolute st1 0 (⟨0, iv, 0⟩ : V3) with hst2
  set st3 := Transform.Rotate st2 0 (⟨0, 1/200, 0⟩ : V3) with hst3
  set st4 := Transform.Rotate st3 1 (⟨0, 1/50, 0⟩ : V3) with hst4
  set st5 := Transform.Rotate st4 2 (⟨0, 1/100, 0⟩ : V3) with hst5
  have hst : (GameUpdateScripted tg st interval).1 =
      Transform.Rotate st5 3 ⟨1/50, 0, 0⟩ := by
    rw [hst5, hst4, hst3, hst2, hst1, hivdef, GameUpdateScripted]
  have hS1 : ∀ x : ℕ, (st1[x]?).isSome = (st[x]?).isSome := by
    intro x
    rw [hst1]
    exact isSome_MoveRelative tg st 0 _ x
  have hS2 : ∀ x : ℕ, (st2[x]?).isSome = (st[x]?).isSome := by
    intro x
    simpa only [hst2, isSome_MoveAbsolute] using hS1 x
  have hS3 : ∀ x : ℕ, (st3[x]?).isSome = (st[x]?).isSome := by
    intro x
    simpa only [hst3, isSome_Rotate] using hS2 x
  have hS4 : ∀ x : ℕ, (st4[x]?).isSome = (st[x]?).isSome := by
    intro x
    simpa only [hst4, isSome_Rotate] using hS3 x
  have hS5 : ∀ x : ℕ, (st5[x]?).isSome = (st[x]?).isSome := by
    intro x
    simpa only [hst5, isSome_Rotate] using hS4 x
  obtain ⟨m0, hm0⟩ := Option.isSome_iff_exists.1 h0
  obtain ⟨m1, hm1⟩ := Option.isSome_iff_exists.1 ((hS1 0).trans h0)
  obtain ⟨m2, hm2⟩ := Option.isSome_iff_exists.1 ((hS2 0).trans h0)
  obtain ⟨m31, hm31⟩ := Option.isSome_iff_exists.1 ((hS3 1).trans h1)
  obtain ⟨m42, hm42⟩ := Option.isSome_iff_exists.1 ((hS4 2).trans h2)
  obtain ⟨m53, hm53⟩ := Option.isSome_iff_exists.1 ((hS5 3).trans h3)
  refine ⟨hiv, ?_, ?_, ?_, ?_, ?_, ?_⟩
  · rw [hst, positionOf_Rotate st5 3 _ 0, hst5, positionOf_Rotate st4 2 _ 0, hst4,
      positionOf_Rotate st3 1 _ 0, hst3, positionOf_Rotate st2 0 _ 0, hst2,
      positionOf_MoveAbsolute_self _ _ hm1, hst1,
      positionOf_MoveRelative_self tg st _ hm0]
  · rw [hst, rotationOf_Rotate_ne st5 3 _ 0 (by omega), hst5,
      rotationOf_Rotate_ne st4 2 _ 0 (by omega), hst4,
      rotationOf_Rotate_ne st3 1 _ 0 (by omega), hst3,
      rotationOf_Rotate_self _ _ hm2, hst2, rotationOf_MoveAbsolute st1 0 _ 0, hst1,
      rotationOf_MoveRelative tg st 0 _ 0]
  · rw [hst, rotationOf_Rotate_ne st5 3 _ 1 (by omega), hst5,
      rotationOf_Rotate_ne st4 2 _ 1 (by omega), hst4,
      rotationOf_Rotate_self _ _ hm31, hst3, rotationOf_Rotate_ne st2 0 _ 1 (by omega),
      hst2, rotationOf_MoveAbsolute st1 0 _ 1, hst1,
      rotationOf_MoveRelative tg st 0 _ 1]
  · rw [hst, rotationOf_Rotate_ne st5 3 _ 2 (by omega), hst5,
      rotationOf_Rotate_self _ _ hm42, hst4, rotationOf_Rotate_ne st3 1 _ 2 (by omega),
      hst3, rotationOf_Rotate_ne st2 0 _ 2 (by omega), hst2,
      rotationOf_MoveAbsolute st1 0 _ 2, hst1, rotationOf_MoveRelative tg st 0 _ 2]
  · rw [hst, rotationOf_Rotate_self _ _ hm53, hst5,
      rotationOf_Rotate_ne st4 2 _ 3 (by omega), hst4,
      rotationOf_Rotate_ne st3 1 _ 3 (by omega), hst3,
      rotationOf_Rotate_ne st2 0 _ 3 (by omega), hst2,
      rotationOf_MoveAbsolute st1 0 _ 3, hst1, rotationOf_MoveRelative tg st 0 _ 3]
  · intro x
    simpa only [hst, isSome_Rotate] using hS5 x

/-- Within the band `[-2, 2]`, the C `int` cast hits `±2` exactly at the
values `±2` themselves. -/
theorem icast_threshold (y : ℚ) (hlo : -2 ≤ y) (hhi : y ≤ 2) :
    (icast y = 2 ∨ icast y = -2) ↔ (y = 2 ∨ y = -2) := by
  unfold icast
  by_cases h0 : 0 ≤ y
  · rw [if_pos h0]
    constructor
    · rintro (h | h)
      · left
        have h1 := (Int.floor_eq_iff (α := ℚ)).1 h
        push_cast at h1
        linarith [h1.1]
      · have h1 := (Int.floor_eq_iff (α := ℚ)).1 h
        push_cast at h1
        exfalso
        linarith [h1.2]
    · rintro (rfl | rfl)
      · left
        norm_num
      · exfalso
        norm_num at h0
  · rw [if_neg h0]
    push_neg at h0
    constructor
    · rintro (h | h)
      · have h1 := (Int.ceil_eq_iff (α := ℚ)).1 h
        push_cast at h1
        exfalso
        linarith [h1.1]
      · right
        have h1 := (Int.ceil_eq_iff (α := ℚ)).1 h
        push_cast at h1
        linarith [h1.2]
    · rintro (rfl | rfl)
      · exfalso
        linarith
      · right
        rw [show (-2 : ℚ) = ((-2 : ℤ) : ℚ) by norm_num, Int.ceil_intCast]

/-- Invariant of the scripted trajectory: entities 0-3 exist, entity 0's
rotation stays pure yaw, its height is a multiple of `0.005` within
`[-2, 2]`, and the interval is `±0.005` pointing inward at the band edges. -/
theorem iterateScripted_inv (tg : Trig) (hc : tg.cos 0 = 1) (hs : tg.sin 0 = 0) (n : ℕ) :
    (((iterateScripted tg n).1)[0]?).isSome = true ∧
    (((iterateScripted tg n).1)[1]?).isSome = true ∧
    (((iterateScripted tg n).1)[2]?).isSome = true ∧
    (((iterateScripted tg n).1)[3]?).isSome = true ∧
    (∃ k : ℤ, (positionOf (iterateScripted tg n).1 0).y = k * (1/200)) ∧
    -2 ≤ (positionOf (iterateScripted tg n).1 0).y ∧
    (positionOf (iterateScripted tg n).1 0).y ≤ 2 ∧
    ((iterateScripted tg n).2 = 1/200 ∨ (iterateScripted tg n).2 = -(1/200)) ∧
    ((positionOf (iterateScripted tg n).1 0).y = 2 → (iterateScripted tg n).2 = 1/200) ∧
    ((positionOf (iterateScripted tg n).1 0).y = -2 →
      (iterateScripted tg n).2 = -(1/200)) ∧
    (rotationOf (iterateScripted tg n).1 0).x = 0 ∧
    (rotationOf (iterateScripted tg n).1 0).z = 0 := by
  induction n with
  | zero =>
    rw [show iterateScripted tg 0 = (demoScene, (1 : ℚ)/200) from rfl]
    have hy : (positionOf (demoScene, (1 : ℚ)/200).1 0).y = 0 := by decide
    refine ⟨by decide, by decide, by decide, by decide, ⟨0, by rw [hy]; norm_num⟩,
      by rw [hy]; norm_num, by rw [hy]; norm_num, Or.inl rfl,
      fun h => absurd (hy ▸ h) (by norm_num),
      fun h => absurd (hy ▸ h) (by norm_num), by decide, by decide⟩
  | succ n ih =>
    obtain ⟨i0, i1, i2, i3, ⟨k, hk⟩, hlo, hhi, hiv, hup, hdown, hrx, hrz⟩ := ih
    obtain ⟨eiv, epos, erot0, erot1, erot2, erot3, esome⟩ :=
      GameUpdateScripted_effects tg (iterateScripted tg n).1 (iterateScripted tg n).2
        i0 i1 i2 i3
    have hnext : iterateScripted tg (n + 1) =
        GameUpdateScripted tg (iterateScripted tg n).1 (iterateScripted tg n).2 := rfl
    set p := iterateScripted tg n with hp
    set y := (positionOf p.1 0).y with hy
    -- the y-component contributed by the relative move vanishes
    have hrotform : rotationOf p.1 0 = ⟨0, (rotationOf p.1 0).y, 0⟩ := by
      cases hR : rotationOf p.1 0 with
      | mk a b c =>
        rw [hR] at hrx hrz
        simp only at hrx hrz
        rw [hrx, hrz]
    have hrvy : (rotateVec tg (rotationOf p.1 0) ⟨1/1000, 0, 0⟩).y = 0 := by
      rw [hrotform]
      exact rotateVec_y_of_yaw_only tg hc hs _ _ rfl
    have hy' : (positionOf (iterateScripted tg (n + 1)).1 0).y =
        y + (iterateScripted tg (n + 1)).2 := by
      rw [hnext, epos, V3.add_def, V3.add_def]
      dsimp only
      rw [hrvy, ← hy]
      ring
    have hcond : (icast y = 2 ∨ icast y = -2) ↔ (y = 2 ∨ y = -2) :=
      icast_threshold y hlo hhi
    have hiv' : (iterateScripted tg (n + 1)).2 =
        (if icast y = 2 ∨ icast y = -2 then -p.2 else p.2) := by
      rw [hnext, eiv]
    refine ⟨?_, ?_, ?_, ?_, ?_, ?_, ?_, ?_, ?_, ?_, ?_, ?_⟩
    · rw [hnext, esome 0]
      exact i0
    · rw [hnext, esome 1]
      exact i1
    · rw [hnext, esome 2]
      exact i2
    · rw [hnext, esome 3]
      exact i3
    · -- multiple of 1/200
      by_cases hflip : icast y = 2 ∨ icast y = -2
      · rcases hiv with h1 | h1
        · exact ⟨k - 1, by rw [hy', hiv', if_pos hflip, h1]; push_cast; linarith⟩
        · exact ⟨k + 1, by rw [hy', hiv', if_pos hflip, h1]; push_cast; linarith⟩
      · rcases hiv with h1 | h1
        · exact ⟨k + 1, by rw [hy', hiv', if_neg hflip, h1]; push_cast; linarith⟩
        · exact ⟨k - 1, by rw [hy', hiv', if_neg hflip, h1]; push_cast; linarith⟩
    · -- lower bound
      rw [hy', hiv']
      by_cases hflip : icast y = 2 ∨ icast y = -2
      · rw [if_pos hflip]
        rcases hcond.1 hflip with h2 | h2
        · rw [hup h2, h2]
          norm_num
        · rw [hdown h2, h2]
          norm_num
      · rw [if_neg hflip]
        rcases hiv with h1 | h1
        · rw [h1]
          linarith
        · rw [h1]
          have hne : ¬(y = 2 ∨ y = -2) := fun h => hflip (hcond.2 h)
          push_neg at hne
          have hklb : (-400 : ℚ) < (k : ℚ) := by
            by_contra hcon
            push_neg at hcon
            have : y < -2 := by
              rw [hk]
              by_cases hkeq : (k : ℚ) = -400
              · exfalso
                apply hne.2
                rw [hk, hkeq]
                norm_num
              · have : (k : ℚ) < -400 := lt_of_le_of_ne hcon hkeq
                linarith
            linarith
          have hkint : (-400 : ℤ) < k := by exact_mod_cast hklb
          have hk399 : ((-399 : ℤ) : ℚ) ≤ (k : ℚ) := by exact_mod_cast (by omega : (-399 : ℤ) ≤ k)
          rw [hk]
          push_cast at hk399 ⊢
          linarith
    · -- upper bound
      rw [hy', hiv']
      by_cases hflip : icast y = 2 ∨ icast y = -2
      · rw [if_pos hflip]
        rcases hcond.1 hflip with h2 | h2
        · rw [hup h2, h2]
          norm_num
        · rw [hdown h2, h2]
          norm_num
      · rw [if_neg hflip]
        rcases hiv with h1 | h1
        · rw [h1]
          have hne : ¬(y = 2 ∨ y = -2) := fun h => hflip (hcond.2 h)
          push_neg at hne
          have hkub : (k : ℚ) < 400 := by
            by_contra hcon
            push_neg at hcon
            have : 2 ≤ y := by
              rw [hk]
              linarith
            rcases lt_or_eq_of_le this with hlt | heq
            · linarith
            · exact hne.1 heq.symm
          have hkint : k < (400 : ℤ) := by exact_mod_cast hkub
          have hk399 : (k : ℚ) ≤ ((399 : ℤ) : ℚ) := by exact_mod_cast (by omega : k ≤ (399 : ℤ))
          rw [hk]
          push_cast at hk399 ⊢
          linarith
        · rw [h1]
          linarith
    · -- interval is ±1/200
      rw [hiv']
      by_cases hflip : icast y = 2 ∨ icast y = -2
      · rw [if_pos hflip]
        rcases hiv with h1 | h1
        · rw [h1]
          right
          rfl
        · rw [h1]
          left
          norm_num
      · rw [if_neg hflip]
        exact hiv
    · -- at the top the interval points down... (next-state conditional, y' = 2)
      intro h2'
      rw [hy', hiv'] at h2'
      rw [hiv']
      by_cases hflip : icast y = 2 ∨ icast y = -2
      · rw [if_pos hflip] at h2' ⊢
        rcases hcond.1 hflip with h2 | h2
        · rw [hup h2] at h2' ⊢
          rw [h2] at h2'
          norm_num at h2'
        · rw [hdown h2] at h2' ⊢
          rw [h2] at h2'
          norm_num at h2'
      · rw [if_neg hflip] at h2' ⊢
        rcases hiv with h1 | h1
        · exact h1
        · rw [h1] at h2'
          exfalso
          have : y = 2 + 1/200 := by linarith
          rw [this] at hhi
          norm_num at hhi
    · -- at the bottom the interval points up
      intro h2'
      rw [hy', hiv'] at h2'
      rw [hiv']
      by_cases hflip : icast y = 2 ∨ icast y = -2
      · rw [if_pos hflip] at h2' ⊢
        rcases hcond.1 hflip with h2 | h2
        · rw [hup h2] at h2' ⊢
        · rw [hdown h2] at h2' ⊢
          rw [h2] at h2'
          norm_num at h2'
      · rw [if_neg hflip] at h2' ⊢
        rcases hiv with h1 | h1
        · rw [h1] at h2'
          exfalso
          have : y = -2 - 1/200 := by linarith
          rw [this] at hlo
          norm_num at hlo
        · exact h1
    · rw [hnext, erot0, V3.add_def]
      simp [hrx]
    · rw [hnext, erot0, V3.add_def]
      simp [hrz]

/-- C6: In every call to `Game::Update`, the scripted motion advances the demo
entities by fixed deterministic increments -- entity 0 moves relatively by
`(0.001, 0, 0)`, moves vertically by the current interval, and yaws by `0.005`;
entities 1-3 rotate by the fixed deltas `(0, 0.02, 0)`, `(0, 0.01, 0)` and
`(0.02, 0, 0)` -- and along the scripted trajectory the interval's sign is
reversed exactly in the frames where entity 0's y position is at a threshold
`2` or `-2`, so the oscillating vertical position reverses direction there. -/
theorem game_scripted_motion (tg : Trig) (hc : tg.cos 0 = 1) (hs : tg.sin 0 = 0) (n : ℕ) :
    ((iterateScripted tg (n + 1)).2 = -(iterateScripted tg n).2 ↔
      ((positionOf (iterateScripted tg n).1 0).y = 2 ∨
       (positionOf (iterateScripted tg n).1 0).y = -2)) ∧
    (¬((positionOf (iterateScripted tg n).1 0).y = 2 ∨
       (positionOf (iterateScripted tg n).1 0).y = -2) →
      (iterateScripted tg (n + 1)).2 = (iterateScripted tg n).2) ∧
    positionOf (iterateScripted tg (n + 1)).1 0 =
      positionOf (iterateScripted tg n).1 0 +
        rotateVec tg (rotationOf (iterateScripted tg n).1 0) ⟨1/1000, 0, 0⟩ +
        ⟨0, (iterateScripted tg (n + 1)).2, 0⟩ ∧
    rotationOf (iterateScripted tg (n + 1)).1 0 =
      rotationOf (iterateScripted tg n).1 0 + ⟨0, 1/200, 0⟩ ∧
    rotationOf (iterateScripted tg (n + 1)).1 1 =
      rotationOf (iterateScripted tg n).1 1 + ⟨0, 1/50, 0⟩ ∧
    rotationOf (iterateScripted tg (n + 1)).1 2 =
      rotationOf (iterateScripted tg n).1 2 + ⟨0, 1/100, 0⟩ ∧
    rotationOf (iterateScripted tg (n + 1)).1 3 =
      rotationOf (iterateScripted tg n).1 3 + ⟨1/50, 0, 0⟩ := by
  obtain ⟨i0, i1, i2, i3, _, hlo, hhi, hiv, _, _, _, _⟩ := iterateScripted_inv tg hc hs n
  obtain ⟨eiv, epos, erot0, erot1, erot2, erot3, _⟩ :=
    GameUpdateScripted_effects tg (iterateScripted tg n).1 (iterateScripted tg n).2
      i0 i1 i2 i3
  have hnext : iterateScripted tg (n + 1) =
      GameUpdateScripted tg (iterateScripted tg n).1 (iterateScripted tg n).2 := rfl
  have hcond := icast_threshold (positionOf (iterateScripted tg n).1 0).y hlo hhi
  refine ⟨?_, ?_, ?_, ?_, ?_, ?_, ?_⟩
  · rw [hnext, eiv]
    constructor
    · intro h
      by_contra hcon
      rw [← hcond] at hcon
      rw [if_neg hcon] at h
      rcases hiv with h1 | h1 <;> rw [h1] at h <;> norm_num at h
    · intro h
      rw [if_pos (hcond.2 h)]
  · intro h
    rw [hnext, eiv, if_neg (fun hic => h (hcond.1 hic))]
  · rw [hnext]
    exact epos
  · rw [hnext]
    exact erot0
  · rw [hnext]
    exact erot1
  · rw [hnext]
    exact erot2
  · rw [hnext]
    exact erot3

/-- Witness for C6 at the demo scene, frame 0: the trivial trig table matches
the hypotheses, and at `y = 0` (no threshold) the interval is unchanged. -/
theorem game_scripted_motion_witness :
    trivTrig.cos 0 = 1 ∧ trivTrig.sin 0 = 0 ∧
    ¬((positionOf (iterateScripted trivTrig 0).1 0).y = 2 ∨
      (positionOf (iterateScripted trivTrig 0).1 0).y = -2) ∧
    (iterateScripted trivTrig 1).2 = (iterateScripted trivTrig 0).2 :=
  ⟨rfl, rfl, by decide,
    (game_scripted_motion trivTrig rfl rfl 0).2.1 (by decide)⟩

/-! Claim: the pivot-follow third-person camera (`ThirdPersonCamera.cpp`). -/

theorem positionOf_removeStep (st : TState) (i j x : ℕ) :
    positionOf (removeStep st i j) x = positionOf st x := by
  unfold removeStep
  rw [positionOf_updN_of _ j x (fun n => { n with parent := none }) (fun _ => rfl),
    positionOf_updN_of _ i x (fun n => { n with children := n.children.erase j }) (fun _ => rfl)]

theorem rotationOf_removeStep (st : TState) (i j x : ℕ) :
    rotationOf (removeStep st i j) x = rotationOf st x := by
  unfold removeStep
  rw [rotationOf_updN_of _ j x (fun n => { n with parent := none }) (fun _ => rfl),
    rotationOf_updN_of _ i x (fun n => { n with children := n.children.erase j }) (fun _ => rfl)]

theorem positionOf_RemoveChild (st : TState) (i j x : ℕ) :
    positionOf (Transform.RemoveChild st i j) x = positionOf st x := by
  cases hi : st[i]? with
  | none => rw [Transform.RemoveChild, hi]
  | some ni =>
    by_cases hm : j ∈ ni.children
    · rw [RemoveChild_eq_of_mem st hi hm, positionOf_markSubtreeDirty, positionOf_removeStep]
    · rw [RemoveChild_eq_of_not_mem st hi hm]

theorem rotationOf_RemoveChild (st : TState) (i j x : ℕ) :
    rotationOf (Transform.RemoveChild st i j) x = rotationOf st x := by
  cases hi : st[i]? with
  | none => rw [Transform.RemoveChild, hi]
  | some ni =>
    by_cases hm : j ∈ ni.children
    · rw [RemoveChild_eq_of_mem st hi hm, rotationOf_markSubtreeDirty, rotationOf_removeStep]
    · rw [RemoveChild_eq_of_not_mem st hi hm]

theorem isSome_RemoveChild (st : TState) (i j x : ℕ) :
    ((Transform.RemoveChild st i j)[x]?).isSome = (st[x]?).isSome := by
  cases hi : st[i]? with
  | none => rw [Transform.RemoveChild, hi]
  | some ni =>
    by_cases hm : j ∈ ni.children
    · rw [RemoveChild_eq_of_mem st hi hm, isSome_markSubtreeDirty, isSome_removeStep]
    · rw [RemoveChild_eq_of_not_mem st hi hm]

theorem positionOf_AddChild (st : TState) (i j x : ℕ) :
    positionOf (Transform.AddChild st i j) x = positionOf st x := by
  cases hi : st[i]? with
  | none =>
    rw [Transform.AddChild, hi]
  | some ni =>
    cases hj : st[j]? with
    | none => rw [Transform.AddChild, hi, hj]
    | some nj =>
      by_cases hg : j ∈ ni.children ∨ j ∈ chainSelfF st st.length i
      · rw [Transform.AddChild, hi, hj]
        dsimp only
        rw [if_pos hg]
      · rw [AddChild_eq_of_attach st hi hj hg, positionOf_markSubtreeDirty,
          positionOf_attachStep]

theorem rotationOf_AddChild (st : TState) (i j x : ℕ) :
    rotationOf (Transform.AddChild st i j) x = rotationOf st x := by
  cases hi : st[i]? with
  | none =>
    rw [Transform.AddChild, hi]
  | some ni =>
    cases hj : st[j]? with
    | none => rw [Transform.AddChild, hi, hj]
    | some nj =>
      by_cases hg : j ∈ ni.children ∨ j ∈ chainSelfF st st.length i
      · rw [Transform.AddChild, hi, hj]
        dsimp only
        rw [if_pos hg]
      · rw [AddChild_eq_of_attach st hi hj hg, rotationOf_markSubtreeDirty,
          rotationOf_attachStep]

theorem isSome_AddChild (st : TState) (i j x : ℕ) :
    ((Transform.AddChild st i j)[x]?).isSome = (st[x]?).isSome := by
  cases hi : st[i]? with
  | none =>
    rw [Transform.AddChild, hi]
  | some ni =>
    cases hj : st[j]? with
    | none => rw [Transform.AddChild, hi, hj]
    | some nj =>
      by_cases hg : j ∈ ni.children ∨ j ∈ chainSelfF st st.length i
      · rw [Transform.AddChild, hi, hj]
        dsimp only
        rw [if_pos hg]
      · rw [AddChild_eq_of_attach st hi hj hg, isSome_markSubtreeDirty, isSome_attachStep]

theorem positionOf_iteRotate (b : Bool) (st : TState) (i : ℕ) (v : V3) (x : ℕ) :
    positionOf (if b then Transform.Rotate st i v else st) x = positionOf st x := by
  cases b <;> simp [positionOf_Rotate]

theorem rotationOf_iteRotate_ne (b : Bool) (st : TState) (i : ℕ) (v : V3) (x : ℕ)
    (hx : x ≠ i) :
    rotationOf (if b then Transform.Rotate st i v else st) x = rotationOf st x := by
  cases b <;> simp [rotationOf_Rotate_ne st i v x hx]

theorem isSome_iteRotate (b : Bool) (st : TState) (i : ℕ) (v : V3) (x : ℕ) :
    ((if b then Transform.Rotate st i v else st)[x]?).isSome = (st[x]?).isSome := by
  cases b <;> simp [isSome_Rotate]

/-- Counterexample to C4 as stated: the constructor on a one-entity scene
yields pivot index 1 and camera index 2, the pivot has no parent at all (in
particular it is not parented to the tracked entity's transform at index 0),
and an update during which the tracked entity moved to `(1, 0, 0)` changes
the camera's local offset from the pivot from `(0, 0, -15)` to
`(1, 0, -15)`. -/
theorem pivot_follow_counterexample :
    ThirdPersonCameraCtor [mkTransform] 0 = (tpcCtorOut, ⟨0, 1, 2⟩) ∧
    parentOf tpcCtorOut 1 = none ∧
    Transform.SetPosition tpcCtorOut 0 ⟨1, 0, 0⟩ = tpcScene ∧
    positionOf tpcScene 2 = ⟨0, 0, -15⟩ ∧
    positionOf (ThirdPersonCameraUpdate trivTrig tpcScene ⟨0, 1, 2⟩ false false false false)
      2 = ⟨1, 0, -15⟩ := by
  refine ⟨by decide, by decide, by decide, by decide, ?_⟩
  show positionOf
    (Transform.MoveRelative trivTrig
      (Transform.SetPosition (Transform.AddChild (Transform.RemoveChild tpcScene 1 2) 1 2) 1
        (Transform.GetPosition (Transform.AddChild (Transform.RemoveChild tpcScene 1 2) 1 2) 0))
      2
      (Transform.GetPosition
          (Transform.SetPosition (Transform.AddChild (Transform.RemoveChild tpcScene 1 2) 1 2) 1
            (Transform.GetPosition (Transform.AddChild (Transform.RemoveChild tpcScene 1 2) 1 2)
              0)) 1 -
        Transform.GetPosition (Transform.AddChild (Transform.RemoveChild tpcScene 1 2) 1 2) 1))
    2 = ⟨1, 0, -15⟩
  have h6 : Transform.AddChild (Transform.RemoveChild tpcScene 1 2) 1 2 = tpcScene := by decide
  rw [h6]
  have h7 : Transform.SetPosition tpcScene 1 (Transform.GetPosition tpcScene 0) = tpcMoved := by
    decide
  rw [h7]
  have hg1 : Transform.GetPosition tpcMoved 1 = ⟨1, 0, 0⟩ := by decide
  have hg2 : Transform.GetPosition tpcScene 1 = ⟨0, 0, 0⟩ := by decide
  rw [hg1, hg2]
  have hn2 : tpcMoved[2]? = some { mkTransform with position := ⟨0, 0, -15⟩, parent := some 1 } :=
    by decide
  rw [positionOf_MoveRelative_self trivTrig tpcMoved _ hn2]
  have hp2 : positionOf tpcMoved 2 = ⟨0, 0, -15⟩ := by decide
  have hr2 : rotationOf tpcMoved 2 = 0 := by decide
  rw [hp2, hr2]
  norm_num [rotateVec, rotZvec, rotXvec, rotYvec, trivTrig, V3.add_def, V3.sub_def,
    V3.zero_def]

/-- C4 (amended): the third-person camera's pivot is a root Transform -- it is
positioned at the tracked entity's location but never parented to the entity's
transform -- with the camera attached as its child at local offset
`(0, 0, -15)`.  Each `Update` detaches the camera, rotates the pivot by the
arrow-key input, reattaches the camera, repositions the pivot to the entity's
current position, and moves the camera relatively by the pivot's displacement;
because the camera is already reattached while the pivot is repositioned, the
relative move shifts the camera's local offset from the pivot by the
camera-rotated displacement, so the orbital offset is preserved exactly when
the tracked entity did not move since the previous update. -/
theorem pivot_follow_camera (tg : Trig) (st : TState) (entity : ℕ)
    (hent : (st[entity]?).isSome = true)
    (stu : TState) (c : TPC) (kR kL kU kD : Bool) (hpc : c.pivot ≠ c.camera)
    (hpiv : (stu[c.pivot]?).isSome = true) (hcam : (stu[c.camera]?).isSome = true) :
    parentOf (ThirdPersonCameraCtor st entity).1
      (ThirdPersonCameraCtor st entity).2.pivot = none ∧
    parentOf (ThirdPersonCameraCtor st entity).1
      (ThirdPersonCameraCtor st entity).2.camera =
      some (ThirdPersonCameraCtor st entity).2.pivot ∧
    positionOf (ThirdPersonCameraCtor st entity).1
      (ThirdPersonCameraCtor st entity).2.camera = ⟨0, 0, -15⟩ ∧
    positionOf (ThirdPersonCameraCtor st entity).1
      (ThirdPersonCameraCtor st entity).2.pivot = positionOf st entity ∧
    positionOf (ThirdPersonCameraUpdate tg stu c kR kL kU kD) c.pivot =
      positionOf stu c.entity ∧
    positionOf (ThirdPersonCameraUpdate tg stu c kR kL kU kD) c.camera =
      positionOf stu c.camera +
        rotateVec tg (rotationOf stu c.camera)
          (positionOf stu c.entity - positionOf stu c.pivot) ∧
    (positionOf stu c.entity = positionOf stu c.pivot →
      positionOf (ThirdPersonCameraUpdate tg stu c kR kL kU kD) c.camera =
        positionOf stu c.camera) := by
  -- the constructor
  obtain ⟨ent0, hent0⟩ := Option.isSome_iff_exists.mp hent
  have hlt : entity < st.length := by
    by_contra h
    push_neg at h
    rw [List.getElem?_eq_none h] at hent0
    exact Option.noConfusion hent0
  set a1 : TState := st ++ [mkTransform, mkTransform] with ha1
  set a2 := Transform.SetPosition a1 st.length (Transform.GetPosition a1 entity) with ha2
  set a3 := Transform.SetPosition a2 (st.length + 1) ⟨0, 0, -15⟩ with ha3
  set a4 := Transform.AddChild a3 st.length (st.length + 1) with ha4
  have hctor : ThirdPersonCameraCtor st entity =
      (a4, ⟨entity, st.length, st.length + 1⟩) := rfl
  have hp1 : a1[st.length]? = some mkTransform := by
    rw [ha1, List.getElem?_append_right (le_refl st.length)]
    simp
  have hc1 : a1[st.length + 1]? = some mkTransform := by
    rw [ha1, List.getElem?_append_right (Nat.le_succ _)]
    simp
  have he1 : a1[entity]? = st[entity]? := by
    rw [ha1, List.getElem?_append, if_pos hlt]
  have hgp : Transform.GetPosition a1 entity = positionOf st entity := by
    simp only [Transform.GetPosition, positionOf, he1]
  obtain ⟨nc2, hnc2⟩ : ∃ n, a2[st.length + 1]? = some n := by
    apply Option.isSome_iff_exists.mp
    rw [ha2, isSome_SetPosition, hc1]
    rfl
  obtain ⟨np3, hnp3⟩ : ∃ n, a3[st.length]? = some n := by
    apply Option.isSome_iff_exists.mp
    rw [ha3, isSome_SetPosition, ha2, isSome_SetPosition, hp1]
    rfl
  obtain ⟨nc3, hnc3⟩ : ∃ n, a3[st.length + 1]? = some n := by
    apply Option.isSome_iff_exists.mp
    rw [ha3, isSome_SetPosition, hnc2]
    rfl
  have hch3 : childrenOf a3 st.length = [] := by
    rw [ha3, childrenOf_SetPosition, ha2, childrenOf_SetPosition]
    simp [childrenOf, hp1, mkTransform]
  have hpar3 : parentOf a3 st.length = none := by
    rw [ha3, parentOf_SetPosition, ha2, parentOf_SetPosition]
    simp [parentOf, hp1, mkTransform]
  have hlen3 : a3.length = st.length + 2 := by
    rw [ha3, length_SetPosition, ha2, length_SetPosition, ha1]
    simp
  have hchain : chainSelfF a3 a3.length st.length = [st.length] := by
    simp only [chainSelfF, hlen3]
    rw [show st.length + 2 = (st.length + 1) + 1 from rfl,
      ancF_succ_none a3 (st.length + 1) hpar3]
  have hnp3c : np3.children = [] := by
    have h := childrenOf_eq_of_getElem? hnp3
    rw [← h, hch3]
  have hguard : ¬(st.length + 1 ∈ np3.children ∨
      st.length + 1 ∈ chainSelfF a3 a3.length st.length) := by
    rw [hnp3c, hchain]
    intro h
    rcases h with h | h
    · exact List.not_mem_nil _ h
    · rw [List.mem_singleton] at h
      omega
  have hatt : a4 = markSubtreeDirty (attachStep a3 st.length (st.length + 1))
      (st.length + 1) := by
    rw [ha4]
    exact AddChild_eq_of_attach a3 hnp3 hnc3 hguard
  have hc1f : parentOf a4 st.length = none := by
    rw [hatt, parentOf_markSubtreeDirty,
      parentOf_attachStep_ne a3 st.length (st.length + 1) st.length (by omega), hpar3]
  have hc2f : parentOf a4 (st.length + 1) = some st.length := by
    rw [hatt, parentOf_markSubtreeDirty]
    exact parentOf_attachStep_self a3 st.length hnc3
  have hc3f : positionOf a4 (st.length + 1) = ⟨0, 0, -15⟩ := by
    rw [ha4, positionOf_AddChild, ha3]
    exact positionOf_SetPosition_self a2 _ hnc2
  have hc4f : positionOf a4 st.length = positionOf st entity := by
    rw [ha4, positionOf_AddChild, ha3,
      positionOf_SetPosition_ne a2 (st.length + 1) _ st.length (by omega), ha2,
      positionOf_SetPosition_self a1 _ hp1, hgp]
  -- the update
  set s1 := Transform.RemoveChild stu c.pivot c.camera with hs1
  set s2 := (if kR then Transform.Rotate s1 c.pivot ⟨0, 1/1000, 0⟩ else s1) with hs2
  set s3 := (if kL then Transform.Rotate s2 c.pivot ⟨0, -(1/1000), 0⟩ else s2) with hs3
  set s4 := (if kU then Transform.Rotate s3 c.pivot ⟨1/1000, 0, 0⟩ else s3) with hs4
  set s5 := (if kD then Transform.Rotate s4 c.pivot ⟨-(1/1000), 0, 0⟩ else s4) with hs5
  set s6 := Transform.AddChild s5 c.pivot c.camera with hs6
  set s7 := Transform.SetPosition s6 c.pivot (Transform.GetPosition s6 c.entity) with hs7
  have hupd : ThirdPersonCameraUpdate tg stu c kR kL kU kD =
      Transform.MoveRelative tg s7 c.camera
        (Transform.GetPosition s7 c.pivot - Transform.GetPosition s6 c.pivot) := rfl
  have hpos6 : ∀ x, positionOf s6 x = positionOf stu x := by
    intro x
    rw [hs6, positionOf_AddChild, hs5, positionOf_iteRotate, hs4, positionOf_iteRotate,
      hs3, positionOf_iteRotate, hs2, positionOf_iteRotate, hs1, positionOf_RemoveChild]
  have hrot6 : rotationOf s6 c.camera = rotationOf stu c.camera := by
    rw [hs6, rotationOf_AddChild, hs5,
      rotationOf_iteRotate_ne kD s4 c.pivot _ c.camera (Ne.symm hpc), hs4,
      rotationOf_iteRotate_ne kU s3 c.pivot _ c.camera (Ne.symm hpc), hs3,
      rotationOf_iteRotate_ne kL s2 c.pivot _ c.camera (Ne.symm hpc), hs2,
      rotationOf_iteRotate_ne kR s1 c.pivot _ c.camera (Ne.symm hpc), hs1,
      rotationOf_RemoveChild]
  have hsome6 : ∀ x : ℕ, (s6[x]?).isSome = (stu[x]?).isSome := by
    intro x
    rw [hs6, isSome_AddChild, hs5, isSome_iteRotate, hs4, isSome_iteRotate, hs3,
      isSome_iteRotate, hs2, isSome_iteRotate, hs1, isSome_RemoveChild]
  obtain ⟨np6, hnp6⟩ : ∃ n, s6[c.pivot]? = some n := by
    apply Option.isSome_iff_exists.mp
    rw [hsome6 c.pivot]
    exact hpiv
  obtain ⟨nc7, hnc7⟩ : ∃ n, s7[c.camera]? = some n := by
    apply Option.isSome_iff_exists.mp
    rw [hs7, isSome_SetPosition, hsome6 c.camera]
    exact hcam
  have hppos7 : positionOf s7 c.pivot = positionOf stu c.entity := by
    rw [hs7, positionOf_SetPosition_self s6 _ hnp6, Transform.GetPosition, hpos6]
  have hcpos7 : positionOf s7 c.camera = positionOf stu c.camera := by
    rw [hs7, positionOf_SetPosition_ne s6 c.pivot _ c.camera (Ne.symm hpc), hpos6]
  have hcrot7 : rotationOf s7 c.camera = rotationOf stu c.camera := by
    rw [hs7, rotationOf_SetPosition, hrot6]
  have hdelta : Transform.GetPosition s7 c.pivot - Transform.GetPosition s6 c.pivot =
      positionOf stu c.entity - positionOf stu c.pivot := by
    rw [Transform.GetPosition, Transform.GetPosition, hppos7, hpos6]
  have hu_pivot : positionOf (ThirdPersonCameraUpdate tg stu c kR kL kU kD) c.pivot =
      positionOf stu c.entity := by
    rw [hupd, positionOf_MoveRelative_ne tg s7 c.camera _ c.pivot hpc, hppos7]
  have hu_cam : positionOf (ThirdPersonCameraUpdate tg stu c kR kL kU kD) c.camera =
      positionOf stu c.camera +
        rotateVec tg (rotationOf stu c.camera)
          (positionOf stu c.entity - positionOf stu c.pivot) := by
    rw [hupd, positionOf_MoveRelative_self tg s7 _ hnc7, hcpos7, hcrot7, hdelta]
  have hu_fix : positionOf stu c.entity = positionOf stu c.pivot →
      positionOf (ThirdPersonCameraUpdate tg stu c kR kL kU kD) c.camera =
        positionOf stu c.camera := by
    intro h
    have hz : positionOf stu c.entity - positionOf stu c.pivot = (0 : V3) := by
      rw [h, V3.sub_def]
      simp [V3.zero_def]
    have haddz : ∀ a : V3, a + (0 : V3) = a := by
      intro a
      cases a with
      | mk ax ay az => simp [V3.add_def, V3.zero_def]
    rw [hu_cam, hz, rotateVec_zero_vec, haddz]
  refine ⟨?_, ?_, ?_, ?_, hu_pivot, hu_cam, hu_fix⟩
  · rw [hctor]
    exact hc1f
  · rw [hctor]
    exact hc2f
  · rw [hctor]
    exact hc3f
  · rw [hctor]
    exact hc4f

/-- Witness for C4 on a one-entity scene with the camera rig the constructor
itself built and no keys held. -/
theorem pivot_follow_camera_witness :
    (([mkTransform] : TState)[0]?).isSome = true ∧
    (ThirdPersonCameraCtor [mkTransform] 0).2.pivot ≠
      (ThirdPersonCameraCtor [mkTransform] 0).2.camera ∧
    (((ThirdPersonCameraCtor [mkTransform] 0).1)[
      (ThirdPersonCameraCtor [mkTransform] 0).2.pivot]?).isSome = true ∧
    (((ThirdPersonCameraCtor [mkTransform] 0).1)[
      (ThirdPersonCameraCtor [mkTransform] 0).2.camera]?).isSome = true ∧
    parentOf (ThirdPersonCameraCtor [mkTransform] 0).1
      (ThirdPersonCameraCtor [mkTransform] 0).2.pivot = none :=
  ⟨by decide, by decide, by decide, by decide,
    (pivot_follow_camera trivTrig [mkTransform] 0 (by decide)
      (ThirdPersonCameraCtor [mkTransform] 0).1 (ThirdPersonCameraCtor [mkTransform] 0).2
      false false false false (by decide) (by decide) (by decide)).1⟩

/-! Claim: the no-edit GUI pass (`Game::UpdateSceneWindow` and the
`Generate*Header` helpers) is an identity on the scene model. -/

theorem mem_of_getElem?_eq {α : Type} {l : List α} {n : ℕ} {a : α}
    (h : l[n]? = some a) : a ∈ l := by
  induction l generalizing n with
  | nil => simp at h
  | cons b t ih =>
    cases n with
    | zero =>
      simp at h
      rw [h]
      exact List.mem_cons_self a t
    | succ n =>
      simp at h
      exact List.mem_cons_of_mem b (ih h)

theorem getElem?_tProj (st : TState) (x : ℕ) :
    (tProj st)[x]? =
      (st[x]?).map fun nd => (nd.position, nd.rotation, nd.scale, nd.parent, nd.children) := by
  simp [tProj]

theorem tProj_ext {st t : TState} (hsome : ∀ x : ℕ, (st[x]?).isSome = (t[x]?).isSome)
    (hp : ∀ x, positionOf st x = positionOf t x)
    (hr : ∀ x, rotationOf st x = rotationOf t x)
    (hs : ∀ x, scaleOf st x = scaleOf t x)
    (hpar : ∀ x, parentOf st x = parentOf t x)
    (hc : ∀ x, childrenOf st x = childrenOf t x) : tProj st = tProj t := by
  apply List.ext_getElem?
  intro x
  rw [getElem?_tProj, getElem?_tProj]
  cases hst : st[x]? with
  | none =>
    cases ht : t[x]? with
    | none => rfl
    | some nd' =>
      have hx := hsome x
      rw [hst, ht] at hx
      exact absurd hx (by simp)
  | some nd =>
    cases ht : t[x]? with
    | none =>
      have hx := hsome x
      rw [hst, ht] at hx
      exact absurd hx (by simp)
    | some nd' =>
      have h1 := hp x
      rw [positionOf_eq_of_getElem? hst, positionOf_eq_of_getElem? ht] at h1
      have h2 := hr x
      rw [rotationOf_eq_of_getElem? hst, rotationOf_eq_of_getElem? ht] at h2
      have h3 := hs x
      rw [scaleOf_eq_of_getElem? hst, scaleOf_eq_of_getElem? ht] at h3
      have h4 := hpar x
      rw [parentOf_eq_of_getElem? hst, parentOf_eq_of_getElem? ht] at h4
      have h5 := hc x
      rw [childrenOf_eq_of_getElem? hst, childrenOf_eq_of_getElem? ht] at h5
      simp [h1, h2, h3, h4, h5]

theorem tProj_markSubtreeDirty (st : TState) (j : ℕ) :
    tProj (markSubtreeDirty st j) = tProj st :=
  tProj_ext (fun x => isSome_markSubtreeDirty st j x)
    (fun x => positionOf_markSubtreeDirty st j x)
    (fun x => rotationOf_markSubtreeDirty st j x)
    (fun x => scaleOf_markSubtreeDirty st j x)
    (fun x => parentOf_markSubtreeDirty st j x)
    (fun x => childrenOf_markSubtreeDirty st j x)

theorem tProj_SetPosition_self (st : TState) (i : ℕ) :
    tProj (Transform.SetPosition st i (positionOf st i)) = tProj st := by
  cases hi : st[i]? with
  | none => rw [Transform.SetPosition, hi]
  | some ni =>
    rw [Transform.SetPosition, hi]
    dsimp only
    have h : ∀ a, st[i]? = some a →
        (fun nd => { nd with position := positionOf st i }) a = a := by
      intro a ha
      dsimp only
      rw [positionOf_eq_of_getElem? ha]
    rw [updN_eq_self st i (fun nd => { nd with position := positionOf st i }) h,
      tProj_markSubtreeDirty]

theorem tProj_SetRotation_self (st : TState) (i : ℕ) :
    tProj (Transform.SetRotation st i (rotationOf st i)) = tProj st := by
  cases hi : st[i]? with
  | none => rw [Transform.SetRotation, hi]
  | some ni =>
    rw [Transform.SetRotation, hi]
    dsimp only
    have h : ∀ a, st[i]? = some a →
        (fun nd => { nd with rotation := rotationOf st i }) a = a := by
      intro a ha
      dsimp only
      rw [rotationOf_eq_of_getElem? ha]
    rw [updN_eq_self st i (fun nd => { nd with rotation := rotationOf st i }) h,
      tProj_markSubtreeDirty]

theorem tProj_SetScale_self (st : TState) (i : ℕ) :
    tProj (Transform.SetScale st i (scaleOf st i)) = tProj st := by
  cases hi : st[i]? with
  | none => rw [Transform.SetScale, hi]
  | some ni =>
    rw [Transform.SetScale, hi]
    dsimp only
    have h : ∀ a, st[i]? = some a →
        (fun nd => { nd with scale := scaleOf st i }) a = a := by
      intro a ha
      dsimp only
      rw [scaleOf_eq_of_getElem? ha]
    rw [updN_eq_self st i (fun nd => { nd with scale := scaleOf st i }) h,
      tProj_markSubtreeDirty]

theorem AddChild_of_mem (st : TState) (i j : ℕ) (h : j ∈ childrenOf st i) :
    Transform.AddChild st i j = st := by
  cases hi : st[i]? with
  | none =>
    exfalso
    rw [childrenOf, hi] at h
    simp at h
  | some ni =>
    cases hj : st[j]? with
    | none => rw [Transform.AddChild, hi, hj]
    | some nj =>
      rw [Transform.AddChild, hi, hj]
      dsimp only
      rw [if_pos (Or.inl (by rwa [childrenOf_eq_of_getElem? hi] at h))]

theorem RemoveChild_of_not_mem (st : TState) (i j : ℕ) (h : j ∉ childrenOf st i) :
    Transform.RemoveChild st i j = st := by
  cases hi : st[i]? with
  | none => rw [Transform.RemoveChild, hi]
  | some ni =>
    exact RemoveChild_eq_of_not_mem st hi (by rwa [childrenOf_eq_of_getElem? hi] at h)

theorem IndexOfChild_pos_iff (st : TState) (i j : ℕ) :
    Transform.IndexOfChild st i j > -1 ↔ j ∈ childrenOf st i := by
  rw [Transform.IndexOfChild]
  by_cases h : j ∈ childrenOf st i
  · rw [if_pos h]
    constructor
    · intro _
      exact h
    · intro _
      omega
  · rw [if_neg h]
    constructor
    · intro hlt
      exact absurd hlt (lt_irrefl (-1 : ℤ))
    · intro hm
      exact absurd hm h

theorem foldl_child_checkbox (l : List ℕ) (i tId : ℕ) (g : ℕ → ℕ) (t : TState) :
    l.foldl (fun t j =>
      if i = j then t
      else
        if Transform.IndexOfChild t tId (g j) > -1 then Transform.AddChild t tId (g j)
        else Transform.RemoveChild t tId (g j)) t = t := by
  induction l generalizing t with
  | nil => rfl
  | cons j l ih =>
    rw [List.foldl_cons]
    have hstep : (if i = j then t
        else
          if Transform.IndexOfChild t tId (g j) > -1 then Transform.AddChild t tId (g j)
          else Transform.RemoveChild t tId (g j)) = t := by
      by_cases hij : i = j
      · rw [if_pos hij]
      · rw [if_neg hij]
        by_cases hm : g j ∈ childrenOf t tId
        · rw [if_pos ((IndexOfChild_pos_iff t tId (g j)).2 hm)]
          exact AddChild_of_mem t tId (g j) hm
        · rw [if_neg (fun hlt => hm ((IndexOfChild_pos_iff t tId (g j)).1 hlt))]
          exact RemoveChild_of_not_mem t tId (g j) hm
    rw [hstep]
    exact ih t

theorem entities_header_noedit (sc : Scene) (i : ℕ)
    (HE : ∀ e ∈ sc.entities, e.mesh < sc.meshes.length ∧ e.material < sc.materials.length) :
    (GenerateEntitiesHeaderNoEdit sc i).entities = sc.entities ∧
    tProj (GenerateEntitiesHeaderNoEdit sc i).transforms = tProj sc.transforms ∧
    (GenerateEntitiesHeaderNoEdit sc i).cameraT = sc.cameraT ∧
    (GenerateEntitiesHeaderNoEdit sc i).lights = sc.lights ∧
    (GenerateEntitiesHeaderNoEdit sc i).materials = sc.materials ∧
    (GenerateEntitiesHeaderNoEdit sc i).meshes = sc.meshes ∧
    (GenerateEntitiesHeaderNoEdit sc i).textures = sc.textures ∧
    (GenerateEntitiesHeaderNoEdit sc i).pixelShader = sc.pixelShader ∧
    (GenerateEntitiesHeaderNoEdit sc i).pixelShaderPBR = sc.pixelShaderPBR := by
  refine ⟨?_, ?_, rfl, rfl, rfl, rfl, rfl, rfl, rfl⟩
  · show updN sc.entities i (fun _ =>
        { getEntity sc i with
          mesh := findIndexRef sc.meshes.length (getEntity sc i).mesh,
          material := findIndexRef sc.materials.length (getEntity sc i).material }) =
      sc.entities
    apply updN_eq_self
    intro a ha
    have hea : getEntity sc i = a := by rw [getEntity, ha]; rfl
    obtain ⟨hm1, hm2⟩ := HE a (mem_of_getElem?_eq ha)
    dsimp only
    rw [hea]
    obtain ⟨am, amat, atr⟩ := a
    simp [findIndexRef, hm1, hm2]
  · simp only [GenerateEntitiesHeaderNoEdit]
    rw [foldl_child_checkbox]
    rw [tProj_SetScale_self, tProj_SetRotation_self, tProj_SetPosition_self]

theorem scene_materials_update (sc : Scene) (M : List MaterialState)
    (h : M = sc.materials) : { sc with materials := M } = sc := by
  rw [h]

theorem materials_header_noedit (sc : Scene) (i : ℕ)
    (HM : ∀ m ∈ sc.materials, (m.ps = sc.pixelShader ∨ m.ps = sc.pixelShaderPBR) ∧
      m.albedo < sc.textures.length ∧ m.normalMap < sc.textures.length ∧
      m.roughness < sc.textures.length ∧ m.metal < sc.textures.length) :
    GenerateMaterialsHeaderNoEdit sc i = sc := by
  apply scene_materials_update
  apply updN_eq_self
  intro a ha
  have hma : getMaterial sc i = a := by rw [getMaterial, ha]; rfl
  obtain ⟨hps, h1, h2, h3, h4⟩ := HM a (mem_of_getElem?_eq ha)
  dsimp only
  rw [hma]
  obtain ⟨aps, ash, act, aal, anm, aro, ame⟩ := a
  obtain ⟨cx, cy, cz, cw⟩ := act
  dsimp only at hps h1 h2 h3 h4 ⊢
  by_cases hc : aps = sc.pixelShaderPBR
  · rw [if_pos hc]
    simp [findIndexRef, h1, h2, h3, h4, hc]
  · rw [if_neg hc]
    have haps : aps = sc.pixelShader := hps.resolve_right hc
    simp [findIndexRef, h1, h2, h3, h4, haps]

theorem entities_fold_noedit (l : List ℕ) :
    ∀ sc : Scene,
      (∀ e ∈ sc.entities, e.mesh < sc.meshes.length ∧ e.material < sc.materials.length) →
      ((l.foldl GenerateEntitiesHeaderNoEdit sc).entities = sc.entities ∧
       tProj (l.foldl GenerateEntitiesHeaderNoEdit sc).transforms = tProj sc.transforms ∧
       (l.foldl GenerateEntitiesHeaderNoEdit sc).cameraT = sc.cameraT ∧
       (l.foldl GenerateEntitiesHeaderNoEdit sc).lights = sc.lights ∧
       (l.foldl GenerateEntitiesHeaderNoEdit sc).materials = sc.materials ∧
       (l.foldl GenerateEntitiesHeaderNoEdit sc).meshes = sc.meshes ∧
       (l.foldl GenerateEntitiesHeaderNoEdit sc).textures = sc.textures ∧
       (l.foldl GenerateEntitiesHeaderNoEdit sc).pixelShader = sc.pixelShader ∧
       (l.foldl GenerateEntitiesHeaderNoEdit sc).pixelShaderPBR = sc.pixelShaderPBR) := by
  induction l with
  | nil =>
    intro sc _
    exact ⟨rfl, rfl, rfl, rfl, rfl, rfl, rfl, rfl, rfl⟩
  | cons i l ih =>
    intro sc HE
    rw [List.foldl_cons]
    obtain ⟨h1, h2, h3, h4, h5, h6, h7, h8, h9⟩ := entities_header_noedit sc i HE
    have HE' : ∀ e ∈ (GenerateEntitiesHeaderNoEdit sc i).entities,
        e.mesh < (GenerateEntitiesHeaderNoEdit sc i).meshes.length ∧
        e.material < (GenerateEntitiesHeaderNoEdit sc i).materials.length := by
      intro e he
      rw [h1] at he
      rw [h6, h5]
      exact HE e he
    obtain ⟨g1, g2, g3, g4, g5, g6, g7, g8, g9⟩ := ih (GenerateEntitiesHeaderNoEdit sc i) HE'
    exact ⟨g1.trans h1, g2.trans h2, g3.trans h3, g4.trans h4, g5.trans h5, g6.trans h6,
      g7.trans h7, g8.trans h8, g9.trans h9⟩

theorem lights_fold_noedit (l : List ℕ) (sc : Scene) :
    l.foldl GenerateLightsHeaderNoEdit sc = sc := by
  induction l generalizing sc with
  | nil => rfl
  | cons i l ih =>
    rw [List.foldl_cons]
    exact ih sc

theorem materials_fold_noedit (l : List ℕ) :
    ∀ sc : Scene,
      (∀ m ∈ sc.materials, (m.ps = sc.pixelShader ∨ m.ps = sc.pixelShaderPBR) ∧
        m.albedo < sc.textures.length ∧ m.normalMap < sc.textures.length ∧
        m.roughness < sc.textures.length ∧ m.metal < sc.textures.length) →
      l.foldl GenerateMaterialsHeaderNoEdit sc = sc := by
  induction l with
  | nil =>
    intro sc _
    rfl
  | cons i l ih =>
    intro sc HM
    rw [List.foldl_cons, materials_header_noedit sc i HM]
    exact ih sc HM

theorem camera_header_tProj (sc : Scene) :
    tProj (GenerateCameraHeaderNoEdit sc).transforms = tProj sc.transforms := by
  simp only [GenerateCameraHeaderNoEdit]
  rw [tProj_SetRotation_self, tProj_SetPosition_self]

/-- C10: when the user edits nothing, the per-frame GUI mirroring pass
(`UpdateSceneWindow`: entity headers, light headers, camera header, material
headers) is an identity on the scene model -- entities, lights, materials,
meshes, textures, shader references, and every transform's local values and
parent/child links -- provided each entity's mesh and material and each
material's textures are found in the owning asset lists and each material's
shader is one of the two known pixel shaders (all true of the assembled
scene); in particular the child-checkbox pass (`AddChild` on checked,
`RemoveChild` on unchecked) and the mesh/material/texture reassignment by
looked-up index change nothing. -/
theorem gui_noedit_identity (sc : Scene)
    (HE : ∀ e ∈ sc.entities, e.mesh < sc.meshes.length ∧ e.material < sc.materials.length)
    (HM : ∀ m ∈ sc.materials, (m.ps = sc.pixelShader ∨ m.ps = sc.pixelShaderPBR) ∧
      m.albedo < sc.textures.length ∧ m.normalMap < sc.textures.length ∧
      m.roughness < sc.textures.length ∧ m.metal < sc.textures.length) :
    (UpdateSceneWindowNoEdit sc).entities = sc.entities ∧
    tProj (UpdateSceneWindowNoEdit sc).transforms = tProj sc.transforms ∧
    (UpdateSceneWindowNoEdit sc).cameraT = sc.cameraT ∧
    (UpdateSceneWindowNoEdit sc).lights = sc.lights ∧
    (UpdateSceneWindowNoEdit sc).materials = sc.materials ∧
    (UpdateSceneWindowNoEdit sc).meshes = sc.meshes ∧
    (UpdateSceneWindowNoEdit sc).textures = sc.textures ∧
    (UpdateSceneWindowNoEdit sc).pixelShader = sc.pixelShader ∧
    (UpdateSceneWindowNoEdit sc).pixelShaderPBR = sc.pixelShaderPBR := by
  obtain ⟨e1, e2, e3, e4, e5, e6, e7, e8, e9⟩ :=
    entities_fold_noedit (List.range sc.entities.length) sc HE
  set sc1 := (List.range sc.entities.length).foldl GenerateEntitiesHeaderNoEdit sc with hsc1
  have hl : (List.range sc1.lights.length).foldl GenerateLightsHeaderNoEdit sc1 = sc1 :=
    lights_fold_noedit _ sc1
  set sc3 := GenerateCameraHeaderNoEdit sc1 with hsc3
  have c2 : tProj sc3.transforms = tProj sc1.transforms := camera_header_tProj sc1
  have c1 : sc3.entities = sc1.entities := rfl
  have c3 : sc3.cameraT = sc1.cameraT := rfl
  have c4 : sc3.lights = sc1.lights := rfl
  have c5 : sc3.materials = sc1.materials := rfl
  have c6 : sc3.meshes = sc1.meshes := rfl
  have c7 : sc3.textures = sc1.textures := rfl
  have c8 : sc3.pixelShader = sc1.pixelShader := rfl
  have c9 : sc3.pixelShaderPBR = sc1.pixelShaderPBR := rfl
  have HM3 : ∀ m ∈ sc3.materials, (m.ps = sc3.pixelShader ∨ m.ps = sc3.pixelShaderPBR) ∧
      m.albedo < sc3.textures.length ∧ m.normalMap < sc3.textures.length ∧
      m.roughness < sc3.textures.length ∧ m.metal < sc3.textures.length := by
    intro m hm
    rw [c5, e5] at hm
    rw [c7, e7, c8, e8, c9, e9]
    exact HM m hm
  have hm3 : (List.range sc3.materials.length).foldl GenerateMaterialsHeaderNoEdit sc3 = sc3 :=
    materials_fold_noedit _ sc3 HM3
  have hfinal : UpdateSceneWindowNoEdit sc = sc3 := by
    simp only [UpdateSceneWindowNoEdit]
    rw [← hsc1, hl, ← hsc3]
    exact hm3
  rw [hfinal]
  exact ⟨c1.trans e1, c2.trans e2, c3.trans e3, c4.trans e4, c5.trans e5, c6.trans e6,
    c7.trans e7, c8.trans e8, c9.trans e9⟩

/-- Witness for C10 on a small scene: one entity over the `forest3`
hierarchy and one non-PBR material, all references in range. -/
theorem gui_noedit_identity_witness :
    (∀ e ∈ demoSceneGUI.entities, e.mesh < demoSceneGUI.meshes.length ∧
      e.material < demoSceneGUI.materials.length) ∧
    (∀ m ∈ demoSceneGUI.materials,
      (m.ps = demoSceneGUI.pixelShader ∨ m.ps = demoSceneGUI.pixelShaderPBR) ∧
      m.albedo < demoSceneGUI.textures.length ∧
      m.normalMap < demoSceneGUI.textures.length ∧
      m.roughness < demoSceneGUI.textures.length ∧
      m.metal < demoSceneGUI.textures.length) ∧
    (UpdateSceneWindowNoEdit demoSceneGUI).entities = demoSceneGUI.entities :=
  ⟨by decide, by decide, (gui_noedit_identity demoSceneGUI (by decide) (by decide)).1⟩

end AdvStarter
